import Mathlib

/-!
# zip_exec: the ZIP central-directory model of `tools/zip_exec/zip_exec.cpp`

A shallow embedding of `C_ZipFile` (open, lookup, classification, attribute
mutators, save) together with theorems about it.

Conventions of the embedding:

* a byte is a `Nat` below 256 (`isBytes`); a buffer is a `List Nat`;
* the host is little-endian, as the source assumes (`SwapToLittleEndian` and
  `SwapFromLittleEndian` do nothing): the interpreted copy of a header
  (`m_pCDEntriesReadable[i]`) is a record of numbers, the copy that is written
  to disk (`m_pCDEntries[i]`) is the 46-byte memory image of the packed struct,
  and assigning one of its fields stores the little-endian bytes of the value
  at the field's offset;
* a `char*` argument is the list of bytes it points to, read as a C string up
  to the first zero byte (`cstr`);
* a read outside the object it addresses has no defined behaviour; functions
  that can perform one return `Option`, with `none` for that case;
* `int` arithmetic is exact: positions stay below `2^31` (the scan only starts
  when `iSize - 22` is a positive `int`).
-/

namespace ZipExec

/-! ## Bytes and little-endian fields -/

/-- All elements are byte values. -/
def isBytes (l : List Nat) : Prop := ∀ b ∈ l, b < 256

instance (l : List Nat) : Decidable (isBytes l) := by
  unfold isBytes; infer_instance

/-- The byte at index `i` of a buffer (0 outside it; callers stay inside). -/
def byteAt (m : List Nat) (i : Nat) : Nat := m.getD i 0

/-- A `uint16_t` read from memory at offset `off` on the little-endian host. -/
def le16 (m : List Nat) (off : Nat) : Nat := byteAt m off + 256 * byteAt m (off + 1)

/-- A `uint32_t` read from memory at offset `off` on the little-endian host. -/
def le32 (m : List Nat) (off : Nat) : Nat :=
  byteAt m off + 256 * byteAt m (off + 1) + 65536 * byteAt m (off + 2)
    + 16777216 * byteAt m (off + 3)

/-- Store a `uint16_t` at offset `off` of a memory image. -/
def putLE16 (m : List Nat) (off v : Nat) : List Nat :=
  (m.set off (v % 256)).set (off + 1) (v / 256 % 256)

/-- Store a `uint32_t` at offset `off` of a memory image. -/
def putLE32 (m : List Nat) (off v : Nat) : List Nat :=
  (((m.set off (v % 256)).set (off + 1) (v / 256 % 256)).set (off + 2)
    (v / 65536 % 256)).set (off + 3) (v / 16777216 % 256)

/-- The bytes `m[pos .. pos+len)`, or `none` when the range leaves the buffer
(what `memcpy(dst, m+pos, len)` and `fwrite(m+pos, len, ..)` read). -/
def slice (m : List Nat) (pos len : Nat) : Option (List Nat) :=
  if pos + len ≤ m.length then some ((m.drop pos).take len) else none

/-! ## C strings -/

/-- The C string stored in a buffer: the bytes before the first zero byte. -/
def cstr (s : List Nat) : List Nat := s.takeWhile (fun b => b != 0)

/-- The value of `strlen`. -/
def strlen (s : List Nat) : Nat := (cstr s).length

/-- Whether `strcmp(a, b) == 0`. -/
def strcmpIs0 (a b : List Nat) : Bool := cstr a == cstr b

/-- The character `s[i]` of a C string held in a buffer of `strlen s + 1`
bytes; `none` when the index is outside that buffer. -/
def charAt (s : List Nat) (i : Int) : Option Nat :=
  if i < 0 then none else (cstr s ++ [0])[i.toNat]?

/-! ## Records -/

/-- The interpreted central-directory entry header (`S_CentralDirectoryEntry`). -/
structure S_CentralDirectoryEntry where
  sign : Nat
  ver : Nat
  ver_needed : Nat
  gp_flag : Nat
  c_method : Nat
  lm_time : Nat
  lm_date : Nat
  crc32 : Nat
  c_size : Nat
  u_size : Nat
  name_len : Nat
  extra_len : Nat
  comment_len : Nat
  dn_start : Nat
  int_attr : Nat
  ext_attrib : Nat
  offset : Nat
  deriving DecidableEq, Repr, Inhabited

/-- The interpreted end-of-central-directory record (`S_CentralDirectoryEnd`). -/
structure S_CentralDirectoryEnd where
  sign : List Nat
  num_discs : Nat
  cd_disc : Nat
  cd_num : Nat
  cd_tot_num : Nat
  cd_size : Nat
  cd_start : Nat
  comment_len : Nat
  deriving DecidableEq, Repr, Inhabited

/-- The fields of a 46-byte entry header held at `m[pos ..]`
(`memcpy` into the packed struct, fields at their documented offsets). -/
def decodeEntry (m : List Nat) (pos : Nat) : S_CentralDirectoryEntry where
  sign := le32 m pos
  ver := le16 m (pos + 4)
  ver_needed := le16 m (pos + 6)
  gp_flag := le16 m (pos + 8)
  c_method := le16 m (pos + 10)
  lm_time := le16 m (pos + 12)
  lm_date := le16 m (pos + 14)
  crc32 := le32 m (pos + 16)
  c_size := le32 m (pos + 20)
  u_size := le32 m (pos + 24)
  name_len := le16 m (pos + 28)
  extra_len := le16 m (pos + 30)
  comment_len := le16 m (pos + 32)
  dn_start := le16 m (pos + 34)
  int_attr := le16 m (pos + 36)
  ext_attrib := le32 m (pos + 38)
  offset := le32 m (pos + 42)

/-- The fields of a 22-byte end record held at `m[pos ..]`. -/
def decodeEnd (m : List Nat) (pos : Nat) : S_CentralDirectoryEnd where
  sign := [byteAt m pos, byteAt m (pos + 1), byteAt m (pos + 2), byteAt m (pos + 3)]
  num_discs := le16 m (pos + 4)
  cd_disc := le16 m (pos + 6)
  cd_num := le16 m (pos + 8)
  cd_tot_num := le16 m (pos + 10)
  cd_size := le32 m (pos + 12)
  cd_start := le32 m (pos + 16)
  comment_len := le16 m (pos + 20)

/-- The state of a `C_ZipFile` object. `m_stCDEnd` and `m_pCDEntries` are the
memory images that `Save` writes; the `Readable` copies are their interpreted
fields. -/
structure C_ZipFile where
  m_bOpenOK : Bool
  m_pZipMem : List Nat
  m_stCDEnd : List Nat
  m_stCDEndReadable : S_CentralDirectoryEnd
  m_szZipComment : List Nat
  m_iNumFiles : Nat
  m_pCDEntries : List (List Nat)
  m_pCDEntriesReadable : List S_CentralDirectoryEntry
  m_szFilenames : List (List Nat)
  m_szExtra : List (List Nat)
  m_szComments : List (List Nat)
  deriving DecidableEq, Repr

/-- The object after its constructor (and after `Free`). -/
def C_ZipFile.init : C_ZipFile where
  m_bOpenOK := false
  m_pZipMem := []
  m_stCDEnd := []
  m_stCDEndReadable := default
  m_szZipComment := []
  m_iNumFiles := 0
  m_pCDEntries := []
  m_pCDEntriesReadable := []
  m_szFilenames := []
  m_szExtra := []
  m_szComments := []

/-! ## Lookup -/

/-- The loop of `FindFileIndexInCD`: `fuel` iterations are left, `i` is the
loop variable. -/
def findLoop (names : List (List Nat)) (i_szFile : List Nat) : Nat → Nat → Int
  | 0, _ => -1
  | fuel + 1, i =>
    if strcmpIs0 (names.getD i []) i_szFile then (i : Int)
    else findLoop names i_szFile fuel (i + 1)

/-- The index of the first entry whose stored name compares equal, or `-1`. -/
def C_ZipFile.FindFileIndexInCD (z : C_ZipFile) (i_szFile : List Nat) : Int :=
  if z.m_bOpenOK then findLoop z.m_szFilenames i_szFile z.m_iNumFiles 0 else -1

/-- The interpreted entry at index `k`. -/
def C_ZipFile.readable (z : C_ZipFile) (k : Nat) : S_CentralDirectoryEntry :=
  z.m_pCDEntriesReadable.getD k default

/-! ## Classification -/

/-- The method `C_ZipFile::IsExecutable`. -/
def C_ZipFile.IsExecutable (z : C_ZipFile) (i_szFullFileName : List Nat) : Bool :=
  let iIdx := z.FindFileIndexInCD i_szFullFileName
  if iIdx ≥ 0 then
    let e := z.readable iIdx.toNat
    let bIsExec := (e.ver &&& 0xff00) == 0x0300
    let bIsExec := if bIsExec then (e.ver_needed &&& 0xff00) == 0x0300 else bIsExec
    let bIsExec := if bIsExec then (e.ext_attrib &&& 0xffff0000) == 0x81ed0000 else bIsExec
    bIsExec
  else false

/-- The method `C_ZipFile::IsNormal`. -/
def C_ZipFile.IsNormal (z : C_ZipFile) (i_szFullFileName : List Nat) : Bool :=
  let iIdx := z.FindFileIndexInCD i_szFullFileName
  if iIdx ≥ 0 then
    let e := z.readable iIdx.toNat
    let bIsNorm := (e.ver &&& 0xff00) == 0x0300
    let bIsNorm := if bIsNorm then (e.ver_needed &&& 0xff00) == 0x0300 else bIsNorm
    let bIsNorm := if bIsNorm then
        ((e.ext_attrib &&& 0xffff0000) != 0x41ed0000
          && (e.ext_attrib &&& 0xffff0000) != 0x81ed0000)
      else bIsNorm
    let bIsNorm := if !bIsNorm then (e.ext_attrib &&& 0x00000020) == 0x00000020 else bIsNorm
    bIsNorm
  else false

/-- The method `C_ZipFile::IsDirectory`. The result is `none` when the read of
`i_szFullFileName[strlen(i_szFullFileName)-1]` is outside the string. -/
def C_ZipFile.IsDirectory (z : C_ZipFile) (i_szFullFileName : List Nat) : Option Bool :=
  let iIdx := z.FindFileIndexInCD i_szFullFileName
  if iIdx ≥ 0 then
    let e := z.readable iIdx.toNat
    match charAt i_szFullFileName ((strlen i_szFullFileName : Int) - 1) with
    | none => none
    | some c =>
      let bIsDir := c == 47
      let bIsDir := if !bIsDir then (e.ext_attrib &&& 0x00000010) == 0x00000010 else bIsDir
      let bIsDir := if !bIsDir then (e.ext_attrib &&& 0xffff0000) == 0x41ed0000 else bIsDir
      some bIsDir
  else some false

/-! ## Mutators -/

/-- The statements `Readable[k].ver &= 0x00ff; Readable[k].ver |= 0x0300;
m_pCDEntries[k].ver = Readable[k].ver;`. -/
def C_ZipFile.setUnixVer (z : C_ZipFile) (k : Nat) : C_ZipFile :=
  let r := z.m_pCDEntriesReadable.modify
    (fun e => { e with ver := (e.ver &&& 0x00ff) ||| 0x0300 }) k
  { z with
    m_pCDEntriesReadable := r
    m_pCDEntries := z.m_pCDEntries.modify (fun raw => putLE16 raw 4 (r.getD k default).ver) k }

/-- The same three statements for `ver_needed`. -/
def C_ZipFile.setUnixVerNeeded (z : C_ZipFile) (k : Nat) : C_ZipFile :=
  let r := z.m_pCDEntriesReadable.modify
    (fun e => { e with ver_needed := (e.ver_needed &&& 0x00ff) ||| 0x0300 }) k
  { z with
    m_pCDEntriesReadable := r
    m_pCDEntries :=
      z.m_pCDEntries.modify (fun raw => putLE16 raw 6 (r.getD k default).ver_needed) k }

/-- The statements `Readable[k].ext_attrib = v; m_pCDEntries[k].ext_attrib =
Readable[k].ext_attrib;`. -/
def C_ZipFile.setExtAttrib (z : C_ZipFile) (k v : Nat) : C_ZipFile :=
  let r := z.m_pCDEntriesReadable.modify (fun e => { e with ext_attrib := v }) k
  { z with
    m_pCDEntriesReadable := r
    m_pCDEntries :=
      z.m_pCDEntries.modify (fun raw => putLE32 raw 38 (r.getD k default).ext_attrib) k }

/-- The method `C_ZipFile::SetExecutable`: the returned flag and the object afterwards. -/
def C_ZipFile.SetExecutable (z : C_ZipFile) (i_szFullFileName : List Nat) : Bool × C_ZipFile :=
  let iIdx := z.FindFileIndexInCD i_szFullFileName
  if iIdx ≥ 0 then
    (true, ((z.setUnixVer iIdx.toNat).setUnixVerNeeded iIdx.toNat).setExtAttrib iIdx.toNat
      0x81ed0020)
  else (false, z)

/-- The method `C_ZipFile::SetNormal`. -/
def C_ZipFile.SetNormal (z : C_ZipFile) (i_szFullFileName : List Nat) : Bool × C_ZipFile :=
  let iIdx := z.FindFileIndexInCD i_szFullFileName
  if iIdx ≥ 0 then
    (true, ((z.setUnixVer iIdx.toNat).setUnixVerNeeded iIdx.toNat).setExtAttrib iIdx.toNat
      0x81a40020)
  else (false, z)

/-- The method `C_ZipFile::SetDirectory`. -/
def C_ZipFile.SetDirectory (z : C_ZipFile) (i_szFullFileName : List Nat) : Bool × C_ZipFile :=
  let iIdx := z.FindFileIndexInCD i_szFullFileName
  if iIdx ≥ 0 then
    (true, ((z.setUnixVer iIdx.toNat).setUnixVerNeeded iIdx.toNat).setExtAttrib iIdx.toNat
      0x41ed0010)
  else (false, z)

/-! ## Open -/

/-- How `Open` ended: success, "no central directory found in file", or
"multiple volume files not supported". -/
inductive OpenStatus where
  | ok
  | noCentralDirectory
  | multiVolume
  deriving DecidableEq, Repr

/-- The difference `a - b` of two `uint32_t` values (it wraps around). -/
def sub32 (a b : Nat) : Nat :=
  if b ≤ a then a - b else a + 4294967296 - b

/-- The value of a `uint32_t` converted to `int`. -/
def toInt32 (n : Nat) : Int :=
  if n % 4294967296 < 2147483648 then ((n % 4294967296 : Nat) : Int)
  else ((n % 4294967296 : Nat) : Int) - 4294967296

/-- The loop `while(iPos>0) { ... iPos--; }` that scans for the end record,
started with `iPos` equal to the third argument. Every marker hit overwrites
`m_stCDEnd` and `m_stCDEndReadable`; the result is the position where the
length check passed (`bFound`), if any. All reads are inside the buffer since
`iPos + 22 <= iSize`. -/
def scanLoop (mem : List Nat) (iSize : Nat) : Nat → C_ZipFile → Option Nat × C_ZipFile
  | 0, z => (none, z)
  | p + 1, z =>
    if byteAt mem (p + 1) == 0x50 && byteAt mem (p + 1 + 1) == 0x4b
        && byteAt mem (p + 1 + 2) == 0x05 && byteAt mem (p + 1 + 3) == 0x06 then
      let z1 := { z with
        m_stCDEnd := (mem.drop (p + 1)).take 22
        m_stCDEndReadable := decodeEnd mem (p + 1) }
      let iLen := z1.m_stCDEndReadable.comment_len
      if p + 1 + 22 + iLen == iSize then
        (some (p + 1), { z1 with m_szZipComment := (mem.drop (p + 1 + 22)).take iLen })
      else scanLoop mem iSize p z1
    else scanLoop mem iSize p z

/-- The loop `for(int i=0; i<m_iNumFiles; i++)` of `Open` that reads the
entries: the first argument counts the iterations left, the second is `iPos`.
`none` when a `memcpy` reads outside the buffer. -/
def readEntries (mem : List Nat) : Nat → Nat → C_ZipFile → Option C_ZipFile
  | 0, _, z => some z
  | n + 1, iPos, z =>
    match slice mem iPos 46 with
    | none => none
    | some raw =>
      let e := decodeEntry mem iPos
      match slice mem (iPos + 46) e.name_len,
            slice mem (iPos + 46 + e.name_len) e.extra_len,
            slice mem (iPos + 46 + (e.name_len + e.extra_len)) e.comment_len with
      | some name, some extra, some comment =>
        readEntries mem n (iPos + 46 + (e.name_len + e.extra_len + e.comment_len))
          { z with
            m_pCDEntries := z.m_pCDEntries ++ [raw]
            m_pCDEntriesReadable := z.m_pCDEntriesReadable ++ [e]
            m_szFilenames := z.m_szFilenames ++ [name]
            m_szExtra := z.m_szExtra ++ [extra]
            m_szComments := z.m_szComments ++ [comment] }
      | _, _, _ => none

/-- The part of `Open` after the scan: `r` is what the scan left (`bFound` with
the position, and the object). Rejects multi-volume archives, then reads the
entries. -/
def openAfterScan (mem : List Nat) (r : Option Nat × C_ZipFile) :
    Option (OpenStatus × C_ZipFile) :=
  match r with
  | (none, z1) => some (OpenStatus.noCentralDirectory, z1)
  | (some _, z1) =>
    let e := z1.m_stCDEndReadable
    if e.num_discs != 0 || e.cd_disc != 0 || e.cd_num != e.cd_tot_num then
      some (OpenStatus.multiVolume, z1)
    else
      match readEntries mem e.cd_num e.cd_start { z1 with m_iNumFiles := e.cd_num } with
      | none => none
      | some z2 => some (OpenStatus.ok, { z2 with m_bOpenOK := true })

/-- The method `C_ZipFile::Open` on a file with the given contents that could be opened
for reading: how it ended and the object afterwards (`none` when a read left
the buffer). `iSize` is the `uint32_t` file size, the buffer holds the first
`iSize` bytes, and the scan starts at `iPos = iSize - 22` (as an `int`). -/
def C_ZipFile.Open (file : List Nat) : Option (OpenStatus × C_ZipFile) :=
  let iSize := file.length % 4294967296
  let mem := file.take iSize
  let z := { C_ZipFile.init with m_pZipMem := mem }
  let iPos := toInt32 (sub32 iSize 22)
  openAfterScan mem (scanLoop mem iSize iPos.toNat z)

/-! ## Save -/

/-- The method `C_Resource::Write` on a file opened for writing that holds `out` so far:
a zero-length write succeeds without touching the file; otherwise `fwrite`
completes or not as the environment (`fwriteOk`, asked at the current file
length) decides. -/
def Write (fwriteOk : Nat → Bool) (out data : List Nat) : Bool × List Nat :=
  if data.length == 0 then (true, out)
  else if fwriteOk out.length then (true, out ++ data)
  else (false, out)

/-- The statement `if(bResult) bResult = pclFile->Write(data, len);`. -/
def writeIf (fwriteOk : Nat → Bool) (st : Bool × List Nat) (data : List Nat) :
    Bool × List Nat :=
  if st.1 then Write fwriteOk st.2 data else st

/-- The normalisation `Save` applies to the entry named `name` before
emitting it; `none` when `IsDirectory` reads outside the name. -/
def C_ZipFile.normalize (z : C_ZipFile) (name : List Nat) : Option C_ZipFile :=
  match z.IsDirectory name with
  | none => none
  | some true => some (z.SetDirectory name).2
  | some false => if !(z.IsExecutable name) then some (z.SetNormal name).2 else some z

/-- The loop over the entries in `Save`: `fuel` iterations left, loop variable
`i`, and the pair `(bResult, bytes written so far)`. -/
def saveLoop (fwriteOk : Nat → Bool) :
    Nat → Nat → C_ZipFile → Bool × List Nat → Option ((Bool × List Nat) × C_ZipFile)
  | 0, _, z, st => some (st, z)
  | fuel + 1, i, z, st =>
    match z.normalize (z.m_szFilenames.getD i []) with
    | none => none
    | some z1 =>
      let st1 := writeIf fwriteOk st (z1.m_pCDEntries.getD i [])
      let st2 := writeIf fwriteOk st1 ((z1.m_szFilenames.getD i []).take (z1.readable i).name_len)
      let st3 := writeIf fwriteOk st2 ((z1.m_szExtra.getD i []).take (z1.readable i).extra_len)
      let st4 := writeIf fwriteOk st3
        ((z1.m_szComments.getD i []).take (z1.readable i).comment_len)
      if !st4.1 then some (st4, z1) else saveLoop fwriteOk fuel (i + 1) z1 st4

/-- The method `C_ZipFile::Save`: the returned flag and the bytes written to the output
file, and the object afterwards. `fopenOk` tells whether the output file could
be created. `none` when a read leaves its buffer. -/
def C_ZipFile.Save (z : C_ZipFile) (fopenOk : Bool) (fwriteOk : Nat → Bool) :
    Option ((Bool × List Nat) × C_ZipFile) :=
  if !z.m_bOpenOK then some ((false, []), z)
  else if fopenOk then
    match slice z.m_pZipMem 0 z.m_stCDEndReadable.cd_start with
    | none => none
    | some pre =>
      match saveLoop fwriteOk z.m_iNumFiles 0 z (Write fwriteOk [] pre) with
      | none => none
      | some (st, z1) =>
        let st1 := writeIf fwriteOk st z1.m_stCDEnd
        let st2 := writeIf fwriteOk st1
          (z1.m_szZipComment.take z1.m_stCDEndReadable.comment_len)
        some (st2, z1)
  else some ((false, []), z)

/-- The function `FixZipFlags`: open, mark one entry executable, save. The result is the
returned flag and the bytes written to the output file. -/
def FixZipFlags (file : List Nat) (i_szFileToFix : List Nat) (fopenOk : Bool)
    (fwriteOk : Nat → Bool) : Option (Bool × List Nat) :=
  match C_ZipFile.Open file with
  | none => none
  | some (OpenStatus.ok, z) =>
    let r := z.SetExecutable i_szFileToFix
    if !r.1 then some (false, [])
    else
      match r.2.Save fopenOk fwriteOk with
      | none => none
      | some (st, _) => if !st.1 then some (false, st.2) else some (true, st.2)
  | some (_, _) => some (false, [])

/-! ## Invariants and derived notions used by the theorems -/

/-- What every successfully opened object satisfies, and every mutator keeps:
the open flag is set, the five parallel arrays have `m_iNumFiles` elements,
and each header image has the 46 bytes of the packed struct. -/
def Opened (z : C_ZipFile) : Prop :=
  z.m_bOpenOK = true ∧ z.m_pCDEntries.length = z.m_iNumFiles
    ∧ z.m_pCDEntriesReadable.length = z.m_iNumFiles
    ∧ z.m_szFilenames.length = z.m_iNumFiles
    ∧ z.m_szExtra.length = z.m_iNumFiles
    ∧ z.m_szComments.length = z.m_iNumFiles
    ∧ ∀ raw ∈ z.m_pCDEntries, raw.length = 46

instance (z : C_ZipFile) : Decidable (Opened z) := by
  unfold Opened; infer_instance

/-- The header image at index `k`. -/
def C_ZipFile.raw (z : C_ZipFile) (k : Nat) : List Nat := z.m_pCDEntries.getD k []

/-- A name is present when some stored name equals it as a C string. -/
def C_ZipFile.present (z : C_ZipFile) (name : List Nat) : Prop :=
  ∃ s ∈ z.m_szFilenames, cstr s = cstr name

/-- The interpreted header after a mutator that installs attributes `v`. -/
def encEntry (v : Nat) (e : S_CentralDirectoryEntry) : S_CentralDirectoryEntry :=
  { e with
    ver := (e.ver &&& 0x00ff) ||| 0x0300
    ver_needed := (e.ver_needed &&& 0x00ff) ||| 0x0300
    ext_attrib := v }

/-- The header image after a mutator that installs attributes `v`, for an
entry whose interpreted header was `e`. -/
def encRaw (v : Nat) (e : S_CentralDirectoryEntry) (raw : List Nat) : List Nat :=
  putLE32 (putLE16 (putLE16 raw 4 ((e.ver &&& 0x00ff) ||| 0x0300)) 6
    ((e.ver_needed &&& 0x00ff) ||| 0x0300)) 38 v

/-- The object after a mutator that installs attributes `v` has addressed
entry `k`. -/
def C_ZipFile.withEnc (z : C_ZipFile) (k v : Nat) : C_ZipFile :=
  { z with
    m_pCDEntriesReadable := z.m_pCDEntriesReadable.modify (encEntry v) k
    m_pCDEntries := z.m_pCDEntries.modify (encRaw v (z.readable k)) k }

/-- Entry `k` of `new` carries the encoding with external attributes `v`
installed over entry `k` of `old`: in the interpreted copy the attributes are
`v` and both version fields are `(old & 0x00ff) | 0x0300`, so their high byte
is `0x03`; the header image holds the same three values in little-endian at
offsets 4, 6 and 38. -/
def encodedAs (old new : C_ZipFile) (k v : Nat) : Prop :=
  (new.readable k).ext_attrib = v
    ∧ (new.readable k).ver = ((old.readable k).ver &&& 0x00ff) ||| 0x0300
    ∧ (new.readable k).ver &&& 0xff00 = 0x0300
    ∧ (new.readable k).ver &&& 0x00ff = (old.readable k).ver &&& 0x00ff
    ∧ (new.readable k).ver_needed = ((old.readable k).ver_needed &&& 0x00ff) ||| 0x0300
    ∧ (new.readable k).ver_needed &&& 0xff00 = 0x0300
    ∧ (new.readable k).ver_needed &&& 0x00ff = (old.readable k).ver_needed &&& 0x00ff
    ∧ le32 (new.raw k) 38 = v
    ∧ le16 (new.raw k) 4 = (new.readable k).ver
    ∧ le16 (new.raw k) 6 = (new.readable k).ver_needed

/-- Two interpreted headers agree in every field other than the two version
fields and the external attributes. -/
def sameOutsideAttrs (e f : S_CentralDirectoryEntry) : Prop :=
  f.sign = e.sign ∧ f.gp_flag = e.gp_flag ∧ f.c_method = e.c_method
    ∧ f.lm_time = e.lm_time ∧ f.lm_date = e.lm_date ∧ f.crc32 = e.crc32
    ∧ f.c_size = e.c_size ∧ f.u_size = e.u_size ∧ f.name_len = e.name_len
    ∧ f.extra_len = e.extra_len ∧ f.comment_len = e.comment_len
    ∧ f.dn_start = e.dn_start ∧ f.int_attr = e.int_attr ∧ f.offset = e.offset

/-- Offsets of a header image that hold the two version fields (4..7) or the
external attributes (38..41). -/
def attrOffset (j : Nat) : Bool :=
  (4 ≤ j && j ≤ 7) || (38 ≤ j && j ≤ 41)

/-- The frame of a mutator that addressed entry `k`: everything in `new` is as
in `old`, apart from the version and attribute fields of entry `k` (in the
interpreted copy) and the bytes at their offsets (in the header image). -/
def frameAt (old new : C_ZipFile) (k : Nat) : Prop :=
  new.m_bOpenOK = old.m_bOpenOK ∧ new.m_pZipMem = old.m_pZipMem
    ∧ new.m_stCDEnd = old.m_stCDEnd ∧ new.m_stCDEndReadable = old.m_stCDEndReadable
    ∧ new.m_szZipComment = old.m_szZipComment ∧ new.m_iNumFiles = old.m_iNumFiles
    ∧ new.m_szFilenames = old.m_szFilenames ∧ new.m_szExtra = old.m_szExtra
    ∧ new.m_szComments = old.m_szComments
    ∧ new.m_pCDEntriesReadable.length = old.m_pCDEntriesReadable.length
    ∧ new.m_pCDEntries.length = old.m_pCDEntries.length
    ∧ (∀ j, j ≠ k → new.m_pCDEntriesReadable[j]? = old.m_pCDEntriesReadable[j]?
        ∧ new.m_pCDEntries[j]? = old.m_pCDEntries[j]?)
    ∧ sameOutsideAttrs (old.readable k) (new.readable k)
    ∧ (new.raw k).length = (old.raw k).length
    ∧ ∀ j, attrOffset j = false → byteAt (new.raw k) j = byteAt (old.raw k) j

/-- The encoding `SetDirectory` produces. -/
def inDirectoryEncoding (e : S_CentralDirectoryEntry) : Prop :=
  e.ver &&& 0xff00 = 0x0300 ∧ e.ver_needed &&& 0xff00 = 0x0300 ∧ e.ext_attrib = 0x41ed0010

/-- The encoding `SetNormal` produces. -/
def inNormalEncoding (e : S_CentralDirectoryEntry) : Prop :=
  e.ver &&& 0xff00 = 0x0300 ∧ e.ver_needed &&& 0xff00 = 0x0300 ∧ e.ext_attrib = 0x81a40020

/-- The encoding `SetExecutable` produces. -/
def inExecutableEncoding (e : S_CentralDirectoryEntry) : Prop :=
  e.ver &&& 0xff00 = 0x0300 ∧ e.ver_needed &&& 0xff00 = 0x0300 ∧ e.ext_attrib = 0x81ed0020

instance (e : S_CentralDirectoryEntry) : Decidable (inDirectoryEncoding e) := by
  unfold inDirectoryEncoding; infer_instance

instance (e : S_CentralDirectoryEntry) : Decidable (inNormalEncoding e) := by
  unfold inNormalEncoding; infer_instance

instance (e : S_CentralDirectoryEntry) : Decidable (inExecutableEncoding e) := by
  unfold inExecutableEncoding; infer_instance

/-- Whether the C string ends in `/`. -/
def endsInSlash (name : List Nat) : Bool := (cstr name).getLast? == some 47

/-- The name, extra and comment bytes that `Save` writes after the header of
entry `i`. -/
def C_ZipFile.emitTail (z : C_ZipFile) (i : Nat) : List Nat :=
  (z.m_szFilenames.getD i []).take (z.readable i).name_len
    ++ ((z.m_szExtra.getD i []).take (z.readable i).extra_len
    ++ (z.m_szComments.getD i []).take (z.readable i).comment_len)

/-- The state of the arrays while `Open` reads the entries: `m` entries have
been read from `mem[pos0 .. pos)`; each header image has 46 bytes and is what
the interpreted copy decodes, and the three blobs have the declared lengths. -/
def EntriesAt (mem : List Nat) (z : C_ZipFile) (m pos0 pos : Nat) : Prop :=
  z.m_pCDEntries.length = m ∧ z.m_pCDEntriesReadable.length = m
    ∧ z.m_szFilenames.length = m ∧ z.m_szExtra.length = m ∧ z.m_szComments.length = m
    ∧ (∀ i, i < m → (z.raw i).length = 46 ∧ z.readable i = decodeEntry (z.raw i) 0
        ∧ (z.m_szFilenames.getD i []).length = (z.readable i).name_len
        ∧ (z.m_szExtra.getD i []).length = (z.readable i).extra_len
        ∧ (z.m_szComments.getD i []).length = (z.readable i).comment_len)
    ∧ pos0 ≤ pos ∧ (pos = pos0 ∨ pos ≤ mem.length)
    ∧ ((List.range m).map (fun i => z.raw i ++ (z.m_szFilenames.getD i []
        ++ (z.m_szExtra.getD i [] ++ z.m_szComments.getD i [])))).flatten
        = (mem.drop pos0).take (pos - pos0)

/-- What `Save` relies on besides `Opened`: the end-record image has its 22
bytes, the archive comment has the declared length, and for every entry the
interpreted header is what its image decodes and the name, extra and comment
have the lengths the header declares. -/
def Coherent (z : C_ZipFile) : Prop :=
  Opened z ∧ z.m_stCDEnd.length = 22
    ∧ z.m_szZipComment.length = z.m_stCDEndReadable.comment_len
    ∧ ∀ i, i < z.m_iNumFiles → z.readable i = decodeEntry (z.raw i) 0
        ∧ (z.m_szFilenames.getD i []).length = (z.readable i).name_len
        ∧ (z.m_szExtra.getD i []).length = (z.readable i).extra_len
        ∧ (z.m_szComments.getD i []).length = (z.readable i).comment_len

instance (z : C_ZipFile) : Decidable (Coherent z) := by
  unfold Coherent; infer_instance

/-- The object `z` is the result of a successful `Open` on the buffer `mem`,
with the end record found at offset `q`. -/
def OpenedFrom (mem : List Nat) (z : C_ZipFile) (q : Nat) : Prop :=
  z.m_bOpenOK = true ∧ z.m_pZipMem = mem ∧ 1 ≤ q
    ∧ q + 22 + z.m_stCDEndReadable.comment_len = mem.length
    ∧ z.m_stCDEnd = (mem.drop q).take 22 ∧ z.m_stCDEndReadable = decodeEnd mem q
    ∧ z.m_szZipComment = (mem.drop (q + 22)).take z.m_stCDEndReadable.comment_len
    ∧ z.m_iNumFiles = z.m_stCDEndReadable.cd_num
    ∧ z.m_stCDEndReadable.num_discs = 0 ∧ z.m_stCDEndReadable.cd_disc = 0
    ∧ z.m_stCDEndReadable.cd_num = z.m_stCDEndReadable.cd_tot_num
    ∧ ∃ pos1, EntriesAt mem z z.m_iNumFiles z.m_stCDEndReadable.cd_start pos1

/-- The directory test of `IsDirectory` for a non-empty name and header `e`. -/
def dirLike (name : List Nat) (e : S_CentralDirectoryEntry) : Bool :=
  endsInSlash name || e.ext_attrib &&& 0x00000010 == 0x00000010
    || e.ext_attrib &&& 0xffff0000 == 0x41ed0000

/-- The test of `IsExecutable` for header `e`. -/
def execLike (e : S_CentralDirectoryEntry) : Bool :=
  e.ver &&& 0xff00 == 0x0300 && e.ver_needed &&& 0xff00 == 0x0300
    && e.ext_attrib &&& 0xffff0000 == 0x81ed0000

/-- The object after the normalisation step of `Save` for a name found at `k`. -/
def C_ZipFile.normAt (z : C_ZipFile) (name : List Nat) (k : Nat) : C_ZipFile :=
  if dirLike name (z.readable k) then z.withEnc k 0x41ed0010
  else if execLike (z.readable k) then z
  else z.withEnc k 0x81a40020

/-- The parts of the object that fix the layout of the output are the same in
`old` and `new`: names, extras, comments, end record, archive comment, buffer,
and for every entry the image length, the image bytes outside the attribute
offsets and the three declared lengths. -/
def sameLayout (old new : C_ZipFile) : Prop :=
  new.m_szFilenames = old.m_szFilenames ∧ new.m_szExtra = old.m_szExtra
    ∧ new.m_szComments = old.m_szComments ∧ new.m_iNumFiles = old.m_iNumFiles
    ∧ new.m_stCDEnd = old.m_stCDEnd ∧ new.m_stCDEndReadable = old.m_stCDEndReadable
    ∧ new.m_szZipComment = old.m_szZipComment ∧ new.m_pZipMem = old.m_pZipMem
    ∧ ∀ j, (new.raw j).length = (old.raw j).length
        ∧ (∀ b, attrOffset b = false → byteAt (new.raw j) b = byteAt (old.raw j) b)
        ∧ sameOutsideAttrs (old.readable j) (new.readable j)

/-- The sum of the sizes of the central-directory entries, headers included. -/
def C_ZipFile.cdLength (z : C_ZipFile) : Nat :=
  ((List.range z.m_iNumFiles).map (fun i => 46 + (z.readable i).name_len
    + (z.readable i).extra_len + (z.readable i).comment_len)).sum

/-- The central directory made of the headers `H i`, each followed by the
name, extra and comment of entry `i`, in the order of the entries. -/
def C_ZipFile.cdBody (z : C_ZipFile) (H : Nat → List Nat) : List Nat :=
  ((List.range z.m_iNumFiles).map (fun i => H i ++ (z.m_szFilenames.getD i []
    ++ (z.m_szExtra.getD i [] ++ z.m_szComments.getD i [])))).flatten

/-- Every stored name is a non-empty C string. -/
def C_ZipFile.namesNonEmpty (z : C_ZipFile) : Prop :=
  ∀ i, i < z.m_iNumFiles → cstr (z.m_szFilenames.getD i []) ≠ []

instance (z : C_ZipFile) : Decidable z.namesNonEmpty := by
  unfold C_ZipFile.namesNonEmpty; infer_instance

/-- No two entries have the same name (as C strings). -/
def C_ZipFile.namesDistinct (z : C_ZipFile) : Prop :=
  ∀ i, i < z.m_iNumFiles → ∀ j, j < z.m_iNumFiles →
    cstr (z.m_szFilenames.getD i []) = cstr (z.m_szFilenames.getD j []) → i = j

instance (z : C_ZipFile) : Decidable z.namesDistinct := by
  unfold C_ZipFile.namesDistinct; infer_instance

/-- The interpreted header `e` of an entry named `name` after the
normalisation step of `Save`. -/
def normEntryOf (name : List Nat) (e : S_CentralDirectoryEntry) : S_CentralDirectoryEntry :=
  if dirLike name e then encEntry 0x41ed0010 e
  else if execLike e then e
  else encEntry 0x81a40020 e

/-- The header image `raw` of an entry named `name` with interpreted header
`e` after the normalisation step of `Save`. -/
def normRawOf (name : List Nat) (e : S_CentralDirectoryEntry) (raw : List Nat) : List Nat :=
  if dirLike name e then encRaw 0x41ed0010 e raw
  else if execLike e then raw
  else encRaw 0x81a40020 e raw

/-- The header that `Save` emits for entry `i` when names are distinct: the
image of the entry after its own normalisation step. -/
def C_ZipFile.emittedHeader (z : C_ZipFile) (i : Nat) : List Nat :=
  normRawOf (z.m_szFilenames.getD i []) (z.readable i) (z.raw i)

/-- The invariant of the loop of `Save` when names are distinct: before step
`i` the entries below `i` are normalised and the others are as in `z`. -/
def normalizedBelow (z : C_ZipFile) (i : Nat) (zc : C_ZipFile) : Prop :=
  Coherent zc ∧ sameLayout z zc
    ∧ ∀ j, j < z.m_iNumFiles →
      (j < i → zc.raw j = z.emittedHeader j
        ∧ zc.readable j = normEntryOf (z.m_szFilenames.getD j []) (z.readable j))
      ∧ (i ≤ j → zc.raw j = z.raw j ∧ zc.readable j = z.readable j)

/-- Both version fields carry the unix tag `0x03` in their high byte. -/
def unixTagged (e : S_CentralDirectoryEntry) : Prop :=
  e.ver &&& 0xff00 = 0x0300 ∧ e.ver_needed &&& 0xff00 = 0x0300

instance (e : S_CentralDirectoryEntry) : Decidable (unixTagged e) := by
  unfold unixTagged; infer_instance

/-- No entry is unix-tagged (the archive was made by a DOS/Windows tool). -/
def C_ZipFile.windowsStyle (z : C_ZipFile) : Prop :=
  ∀ i, i < z.m_iNumFiles → ¬ unixTagged (z.readable i)

instance (z : C_ZipFile) : Decidable z.windowsStyle := by
  unfold C_ZipFile.windowsStyle; infer_instance

/-- The test of `IsNormal` for header `e`. -/
def normalLike (e : S_CentralDirectoryEntry) : Bool :=
  (e.ver &&& 0xff00 == 0x0300 && e.ver_needed &&& 0xff00 == 0x0300
    && (e.ext_attrib &&& 0xffff0000 != 0x41ed0000 && e.ext_attrib &&& 0xffff0000 != 0x81ed0000))
    || e.ext_attrib &&& 0x00000020 == 0x00000020

/-- The header that `FixZipFlags` emits for entry `i` when it marks `name`
executable on the opened object `z0` (names distinct). -/
def fixedHeader (z0 : C_ZipFile) (name : List Nat) (i : Nat) : List Nat :=
  (z0.SetExecutable name).2.emittedHeader i

/-- An entry named `name` with interpreted header `e` is in the canonical unix
encoding: both version fields are unix-tagged and the external attributes are
`0x41ED0010` if it is a directory (for `IsDirectory`), else `0x81ED....` if it
is an executable, else `0x81A40020`. -/
def canonicalEntry (name : List Nat) (e : S_CentralDirectoryEntry) : Prop :=
  unixTagged e
    ∧ if dirLike name e then e.ext_attrib = 0x41ed0010
      else if e.ext_attrib &&& 0xffff0000 = 0x81ed0000 then True
      else e.ext_attrib = 0x81a40020

instance (name : List Nat) (e : S_CentralDirectoryEntry) : Decidable (canonicalEntry name e) := by
  unfold canonicalEntry; infer_instance

/-- Every entry is in the canonical unix encoding. -/
def C_ZipFile.allCanonical (z : C_ZipFile) : Prop :=
  ∀ i, i < z.m_iNumFiles → canonicalEntry (z.m_szFilenames.getD i []) (z.readable i)

instance (z : C_ZipFile) : Decidable z.allCanonical := by
  unfold C_ZipFile.allCanonical; infer_instance

/-- A valid end record sits at offset `p` of a buffer: the marker
`50 4B 05 06` and a comment length that reaches the end of the buffer. -/
def validEndRecordAt (b : List Nat) (p : Nat) : Prop :=
  p + 22 ≤ b.length ∧ byteAt b p = 0x50 ∧ byteAt b (p + 1) = 0x4b ∧ byteAt b (p + 2) = 0x05
    ∧ byteAt b (p + 3) = 0x06 ∧ p + 22 + le16 b (p + 20) = b.length

instance (b : List Nat) (p : Nat) : Decidable (validEndRecordAt b p) := by
  unfold validEndRecordAt; infer_instance

/-- An environment in which every `fwrite` completes. -/
def allWritesOk : Nat → Bool := fun _ => true

/-- The buffer `Open` works on: the first `iSize` bytes of the file. -/
def fileBuffer (file : List Nat) : List Nat := file.take (file.length % 4294967296)

/-- The position at which the scan of `Open` starts (`iSize - 22` as an `int`;
0 when that is not positive, so that the loop does not run). -/
def scanStart (file : List Nat) : Nat :=
  (toInt32 (sub32 (file.length % 4294967296) 22)).toNat

/-- The offset at which `Open` located the end record, if it located one. -/
def endRecordPos (file : List Nat) : Option Nat :=
  (scanLoop (fileBuffer file) (file.length % 4294967296) (scanStart file)
    { C_ZipFile.init with m_pZipMem := fileBuffer file }).1

/-- The size of central-directory entry `i`: its 46-byte header and its name,
extra and comment with the lengths the header declares. -/
def C_ZipFile.entrySize (z : C_ZipFile) (i : Nat) : Nat :=
  46 + (z.readable i).name_len + (z.readable i).extra_len + (z.readable i).comment_len

/-- The offset of the header of entry `i`: the central-directory offset of the
end record plus the sizes of the entries before it. -/
def C_ZipFile.entryOffset (z : C_ZipFile) (i : Nat) : Nat :=
  z.m_stCDEndReadable.cd_start + ((List.range i).map z.entrySize).sum

/-- Exactly one of three flags is set. -/
def exactlyOneOf (a b c : Bool) : Bool :=
  (a && !b && !c) || (!a && b && !c) || (!a && !b && c)

/-- The test of the scan loop at position `p`: the marker `50 4B 05 06` and a
comment length that reaches the end of the buffer (`iSize`). -/
def scanHit (mem : List Nat) (iSize p : Nat) : Prop :=
  byteAt mem p = 0x50 ∧ byteAt mem (p + 1) = 0x4b ∧ byteAt mem (p + 2) = 0x05
    ∧ byteAt mem (p + 3) = 0x06 ∧ p + 22 + le16 mem (p + 20) = iSize

/-- The two bytes a `uint16_t` occupies in memory on the little-endian host. -/
def leBytes16 (v : Nat) : List Nat := [v % 256, v / 256 % 256]

/-- The four bytes a `uint32_t` occupies in memory on the little-endian host. -/
def leBytes32 (v : Nat) : List Nat :=
  [v % 256, v / 256 % 256, v / 65536 % 256, v / 16777216 % 256]

/-- The 46-byte memory image of a packed `S_CentralDirectoryEntry` whose
fields hold the values of `e` (the bytes `fwrite(&m_pCDEntries[i], 46, ..)`
emits for such a struct). -/
def encodeEntry (e : S_CentralDirectoryEntry) : List Nat :=
  leBytes32 e.sign ++ leBytes16 e.ver ++ leBytes16 e.ver_needed ++ leBytes16 e.gp_flag
    ++ leBytes16 e.c_method ++ leBytes16 e.lm_time ++ leBytes16 e.lm_date
    ++ leBytes32 e.crc32 ++ leBytes32 e.c_size ++ leBytes32 e.u_size
    ++ leBytes16 e.name_len ++ leBytes16 e.extra_len ++ leBytes16 e.comment_len
    ++ leBytes16 e.dn_start ++ leBytes16 e.int_attr ++ leBytes32 e.ext_attrib
    ++ leBytes32 e.offset

/-- Entry `j` is the first entry with its name: the lookup of its name
returns `j`. -/
def C_ZipFile.isFirst (z : C_ZipFile) (j : Nat) : Bool :=
  decide (z.FindFileIndexInCD (z.m_szFilenames.getD j []) = (j : Int))

/-- The header image of entry `j` after the first `i` steps of the loop of
`Save`: normalised when the step of `j` has run and `j` is the entry the
lookup of its name returns, and as in `z` otherwise. -/
def C_ZipFile.savedRaw (z : C_ZipFile) (i j : Nat) : List Nat :=
  if j < i ∧ z.isFirst j = true then z.emittedHeader j else z.raw j

/-- The interpreted header of entry `j` after the first `i` steps of the loop
of `Save`. -/
def C_ZipFile.savedEntry (z : C_ZipFile) (i j : Nat) : S_CentralDirectoryEntry :=
  if j < i ∧ z.isFirst j = true then normEntryOf (z.m_szFilenames.getD j []) (z.readable j)
  else z.readable j

/-- The invariant of the loop of `Save` for arbitrary names: before step `i`
the object is coherent, has the layout of `z`, and its entries are
`savedRaw i`, `savedEntry i`. -/
def savedBelow (z : C_ZipFile) (i : Nat) (zc : C_ZipFile) : Prop :=
  Coherent zc ∧ sameLayout z zc
    ∧ ∀ j, j < z.m_iNumFiles → zc.raw j = z.savedRaw i j ∧ zc.readable j = z.savedEntry i j

/-! ## Sample archives

`demoZip` is a 316-byte archive with the entries `dir/`, `dir/readme.txt` and
`dir/run.sh` (stored, made by a DOS/Windows tool: version 20, external
attributes `0x10` for the directory and `0x20` for the files). The others are
variations used to evaluate the code on corner cases. -/

/-- The bytes of the sample archive. -/
def demoZip : List Nat :=
  [80, 75, 3, 4, 20, 0, 0, 0, 0, 0, 0, 96, 33, 88, 0, 0, 0, 0, 0, 0, 0, 0, 0, 0, 0, 0, 4, 0,
   0, 0, 100, 105, 114, 47, 80, 75, 3, 4, 20, 0, 0, 0, 0, 0, 0, 96, 33, 88, 134, 166, 16, 54,
   5, 0, 0, 0, 5, 0, 0, 0, 14, 0, 0, 0, 100, 105, 114, 47, 114, 101, 97, 100, 109, 101, 46,
   116, 120, 116, 104, 101, 108, 108, 111, 80, 75, 3, 4, 20, 0, 0, 0, 0, 0, 0, 96, 33, 88, 35,
   83, 23, 250, 5, 0, 0, 0, 5, 0, 0, 0, 10, 0, 0, 0, 100, 105, 114, 47, 114, 117, 110, 46,
   115, 104, 101, 99, 104, 111, 10, 80, 75, 1, 2, 20, 0, 20, 0, 0, 0, 0, 0, 0, 96, 33, 88, 0,
   0, 0, 0, 0, 0, 0, 0, 0, 0, 0, 0, 4, 0, 0, 0, 0, 0, 0, 0, 0, 0, 16, 0, 0, 0, 0, 0, 0, 0,
   100, 105, 114, 47, 80, 75, 1, 2, 20, 0, 20, 0, 0, 0, 0, 0, 0, 96, 33, 88, 134, 166, 16, 54,
   5, 0, 0, 0, 5, 0, 0, 0, 14, 0, 0, 0, 0, 0, 0, 0, 0, 0, 32, 0, 0, 0, 34, 0, 0, 0, 100, 105,
   114, 47, 114, 101, 97, 100, 109, 101, 46, 116, 120, 116, 80, 75, 1, 2, 20, 0, 20, 0, 0, 0,
   0, 0, 0, 96, 33, 88, 35, 83, 23, 250, 5, 0, 0, 0, 5, 0, 0, 0, 10, 0, 0, 0, 0, 0, 0, 0, 0,
   0, 32, 0, 0, 0, 83, 0, 0, 0, 100, 105, 114, 47, 114, 117, 110, 46, 115, 104, 80, 75, 5, 6,
   0, 0, 0, 0, 3, 0, 3, 0, 166, 0, 0, 0, 128, 0, 0, 0, 0, 0]

/-- The object after `Open` on the sample archive. -/
def demoModel : C_ZipFile :=
  match C_ZipFile.Open demoZip with
  | some (_, z) => z
  | none => C_ZipFile.init

/-- The name `dir/run.sh`. -/
def runSh : List Nat := [100, 105, 114, 47, 114, 117, 110, 46, 115, 104]

/-- The name `dir/readme.txt`. -/
def readmeTxt : List Nat :=
  [100, 105, 114, 47, 114, 101, 97, 100, 109, 101, 46, 116, 120, 116]

/-- The name `dir/`. -/
def dirSlash : List Nat := [100, 105, 114, 47]

/-- The sample archive with every entry in the canonical unix encoding: version
`0x0314`, attributes `0x41ED0010` for `dir/`, `0x81A40020` for
`dir/readme.txt` and `0x81ED0020` for `dir/run.sh`. -/
def canonZip : List Nat :=
  [80, 75, 3, 4, 20, 0, 0, 0, 0, 0, 0, 96, 33, 88, 0, 0, 0, 0, 0, 0, 0, 0, 0, 0, 0, 0, 4, 0,
   0, 0, 100, 105, 114, 47, 80, 75, 3, 4, 20, 0, 0, 0, 0, 0, 0, 96, 33, 88, 134, 166, 16, 54,
   5, 0, 0, 0, 5, 0, 0, 0, 14, 0, 0, 0, 100, 105, 114, 47, 114, 101, 97, 100, 109, 101, 46,
   116, 120, 116, 104, 101, 108, 108, 111, 80, 75, 3, 4, 20, 0, 0, 0, 0, 0, 0, 96, 33, 88, 35,
   83, 23, 250, 5, 0, 0, 0, 5, 0, 0, 0, 10, 0, 0, 0, 100, 105, 114, 47, 114, 117, 110, 46,
   115, 104, 101, 99, 104, 111, 10, 80, 75, 1, 2, 20, 3, 20, 3, 0, 0, 0, 0, 0, 96, 33, 88, 0,
   0, 0, 0, 0, 0, 0, 0, 0, 0, 0, 0, 4, 0, 0, 0, 0, 0, 0, 0, 0, 0, 16, 0, 237, 65, 0, 0, 0, 0,
   100, 105, 114, 47, 80, 75, 1, 2, 20, 3, 20, 3, 0, 0, 0, 0, 0, 96, 33, 88, 134, 166, 16, 54,
   5, 0, 0, 0, 5, 0, 0, 0, 14, 0, 0, 0, 0, 0, 0, 0, 0, 0, 32, 0, 164, 129, 34, 0, 0, 0, 100,
   105, 114, 47, 114, 101, 97, 100, 109, 101, 46, 116, 120, 116, 80, 75, 1, 2, 20, 3, 20, 3,
   0, 0, 0, 0, 0, 96, 33, 88, 35, 83, 23, 250, 5, 0, 0, 0, 5, 0, 0, 0, 10, 0, 0, 0, 0, 0, 0,
   0, 0, 0, 32, 0, 237, 129, 83, 0, 0, 0, 100, 105, 114, 47, 114, 117, 110, 46, 115, 104, 80,
   75, 5, 6, 0, 0, 0, 0, 3, 0, 3, 0, 166, 0, 0, 0, 128, 0, 0, 0, 0, 0]

/-- The object after `Open` on `canonZip`. -/
def canonModel : C_ZipFile :=
  match C_ZipFile.Open canonZip with
  | some (_, z) => z
  | none => C_ZipFile.init

/-- A 178-byte archive with two empty stored files that are both named `a`
(version 20, external attributes `0x20`); the central directory starts at
offset 62. -/
def dupZip : List Nat :=
  [80, 75, 3, 4, 20, 0, 0, 0, 0, 0, 0, 96, 33, 88, 0, 0, 0, 0, 0, 0, 0, 0, 0, 0, 0, 0, 1, 0,
   0, 0, 97, 80, 75, 3, 4, 20, 0, 0, 0, 0, 0, 0, 96, 33, 88, 0, 0, 0, 0, 0, 0, 0, 0, 0, 0, 0,
   0, 1, 0, 0, 0, 97, 80, 75, 1, 2, 20, 0, 20, 0, 0, 0, 0, 0, 0, 96, 33, 88, 0, 0, 0, 0, 0, 0,
   0, 0, 0, 0, 0, 0, 1, 0, 0, 0, 0, 0, 0, 0, 0, 0, 32, 0, 0, 0, 0, 0, 0, 0, 97, 80, 75, 1, 2,
   20, 0, 20, 0, 0, 0, 0, 0, 0, 96, 33, 88, 0, 0, 0, 0, 0, 0, 0, 0, 0, 0, 0, 0, 1, 0, 0, 0, 0,
   0, 0, 0, 0, 0, 32, 0, 0, 0, 31, 0, 0, 0, 97, 80, 75, 5, 6, 0, 0, 0, 0, 2, 0, 2, 0, 94, 0,
   0, 0, 62, 0, 0, 0, 0, 0]

/-- The object after `Open` on `dupZip`. -/
def dupModel : C_ZipFile :=
  match C_ZipFile.Open dupZip with
  | some (_, z) => z
  | none => C_ZipFile.init

/-- An archive with the files `run.sh` and `x`, both made with version 20 (not
unix-tagged); `x` has external attributes `0x41ED0000`. The central directory
starts at offset 72 and the header of `x` at offset 124. -/
def modeOnlyZip : List Nat :=
  [80, 75, 3, 4, 20, 0, 0, 0, 0, 0, 0, 96, 33, 88, 35, 83, 23, 250, 5, 0, 0, 0, 5, 0, 0, 0, 6,
   0, 0, 0, 114, 117, 110, 46, 115, 104, 101, 99, 104, 111, 10, 80, 75, 3, 4, 20, 0, 0, 0, 0,
   0, 0, 96, 33, 88, 0, 0, 0, 0, 0, 0, 0, 0, 0, 0, 0, 0, 1, 0, 0, 0, 120, 80, 75, 1, 2, 20, 0,
   20, 0, 0, 0, 0, 0, 0, 96, 33, 88, 35, 83, 23, 250, 5, 0, 0, 0, 5, 0, 0, 0, 6, 0, 0, 0, 0,
   0, 0, 0, 0, 0, 32, 0, 0, 0, 0, 0, 0, 0, 114, 117, 110, 46, 115, 104, 80, 75, 1, 2, 20, 0,
   20, 0, 0, 0, 0, 0, 0, 96, 33, 88, 0, 0, 0, 0, 0, 0, 0, 0, 0, 0, 0, 0, 1, 0, 0, 0, 0, 0, 0,
   0, 0, 0, 0, 0, 237, 65, 41, 0, 0, 0, 120, 80, 75, 5, 6, 0, 0, 0, 0, 2, 0, 2, 0, 99, 0, 0,
   0, 72, 0, 0, 0, 0, 0]

/-- The object after `Open` on `modeOnlyZip`. -/
def modeOnlyModel : C_ZipFile :=
  match C_ZipFile.Open modeOnlyZip with
  | some (_, z) => z
  | none => C_ZipFile.init

/-- An archive without entries: the 22-byte end record alone (what an empty
ZIP file consists of). -/
def emptyZip : List Nat :=
  [80, 75, 5, 6, 0, 0, 0, 0, 0, 0, 0, 0, 0, 0, 0, 0, 0, 0, 0, 0, 0, 0]

/-- A 23-byte buffer: one stray byte followed by the archive without entries;
its central-directory offset field is 0. -/
def strayByteZip : List Nat :=
  [0, 80, 75, 5, 6, 0, 0, 0, 0, 0, 0, 0, 0, 0, 0, 0, 0, 0, 0, 0, 0, 0, 0]

/-- The object after `Open` on `strayByteZip`. -/
def strayByteModel : C_ZipFile :=
  match C_ZipFile.Open strayByteZip with
  | some (_, z) => z
  | none => C_ZipFile.init

/-- A 23-byte buffer: one stray byte and an end record without entries whose
central-directory offset field is 100. -/
def badOffsetZip : List Nat :=
  [0, 80, 75, 5, 6, 0, 0, 0, 0, 0, 0, 0, 0, 0, 0, 0, 0, 100, 0, 0, 0, 0, 0]

/-- The object after `Open` on `badOffsetZip`. -/
def badOffsetModel : C_ZipFile :=
  match C_ZipFile.Open badOffsetZip with
  | some (_, z) => z
  | none => C_ZipFile.init

/-- The last volume of a spanned archive: one empty stored file `a`, with disk
number 1 and central-directory disk 1 in the end record (at offset 78). -/
def spannedZip : List Nat :=
  [80, 75, 3, 4, 20, 0, 0, 0, 0, 0, 0, 96, 33, 88, 0, 0, 0, 0, 0, 0, 0, 0, 0, 0, 0, 0, 1, 0,
   0, 0, 97, 80, 75, 1, 2, 20, 0, 20, 0, 0, 0, 0, 0, 0, 96, 33, 88, 0, 0, 0, 0, 0, 0, 0, 0, 0,
   0, 0, 0, 1, 0, 0, 0, 0, 0, 0, 0, 0, 0, 32, 0, 0, 0, 0, 0, 0, 0, 97, 80, 75, 5, 6, 1, 0, 1,
   0, 1, 0, 1, 0, 47, 0, 0, 0, 31, 0, 0, 0, 0, 0]

/-- An archive with one entry whose name has length 0 (version 20, external
attributes `0x10`); the central directory starts at offset 30. -/
def emptyNameZip : List Nat :=
  [80, 75, 3, 4, 20, 0, 0, 0, 0, 0, 0, 96, 33, 88, 0, 0, 0, 0, 0, 0, 0, 0, 0, 0, 0, 0, 0, 0,
   0, 0, 80, 75, 1, 2, 20, 0, 20, 0, 0, 0, 0, 0, 0, 96, 33, 88, 0, 0, 0, 0, 0, 0, 0, 0, 0, 0,
   0, 0, 0, 0, 0, 0, 0, 0, 0, 0, 0, 0, 16, 0, 0, 0, 0, 0, 0, 0, 80, 75, 5, 6, 0, 0, 0, 0, 1,
   0, 1, 0, 46, 0, 0, 0, 30, 0, 0, 0, 0, 0]

/-- The object after `Open` on `emptyNameZip`. -/
def emptyNameModel : C_ZipFile :=
  match C_ZipFile.Open emptyNameZip with
  | some (_, z) => z
  | none => C_ZipFile.init

/-- An archive with one entry whose name is the three bytes `a`, 0, `b`. -/
def nulNameZip : List Nat :=
  [80, 75, 3, 4, 20, 0, 0, 0, 0, 0, 0, 96, 33, 88, 0, 0, 0, 0, 0, 0, 0, 0, 0, 0, 0, 0, 3, 0,
   0, 0, 97, 0, 98, 80, 75, 1, 2, 20, 0, 20, 0, 0, 0, 0, 0, 0, 96, 33, 88, 0, 0, 0, 0, 0, 0,
   0, 0, 0, 0, 0, 0, 3, 0, 0, 0, 0, 0, 0, 0, 0, 0, 32, 0, 0, 0, 0, 0, 0, 0, 97, 0, 98, 80, 75,
   5, 6, 0, 0, 0, 0, 1, 0, 1, 0, 49, 0, 0, 0, 33, 0, 0, 0, 0, 0]

/-- The object after `Open` on `nulNameZip`. -/
def nulNameModel : C_ZipFile :=
  match C_ZipFile.Open nulNameZip with
  | some (_, z) => z
  | none => C_ZipFile.init

/-- An archive with one stored file `a` made with version 20 and external
attributes 0 (as written by tools that record no attributes). -/
def plainZip : List Nat :=
  [80, 75, 3, 4, 20, 0, 0, 0, 0, 0, 0, 96, 33, 88, 134, 166, 16, 54, 5, 0, 0, 0, 5, 0, 0, 0,
   1, 0, 0, 0, 97, 104, 101, 108, 108, 111, 80, 75, 1, 2, 20, 0, 20, 0, 0, 0, 0, 0, 0, 96, 33,
   88, 134, 166, 16, 54, 5, 0, 0, 0, 5, 0, 0, 0, 1, 0, 0, 0, 0, 0, 0, 0, 0, 0, 0, 0, 0, 0, 0,
   0, 0, 0, 97, 80, 75, 5, 6, 0, 0, 0, 0, 1, 0, 1, 0, 47, 0, 0, 0, 36, 0, 0, 0, 0, 0]

/-- The object after `Open` on `plainZip`. -/
def plainModel : C_ZipFile :=
  match C_ZipFile.Open plainZip with
  | some (_, z) => z
  | none => C_ZipFile.init

/-- An archive with one empty stored file `a` whose 22-byte archive comment
starts with the marker `50 4B 05 06` (a marker occurrence at offset 100 that
fails the length check); the end record is at offset 78. -/
def commentMarkerZip : List Nat :=
  [80, 75, 3, 4, 20, 0, 0, 0, 0, 0, 0, 96, 33, 88, 0, 0, 0, 0, 0, 0, 0, 0, 0, 0, 0, 0, 1, 0,
   0, 0, 97, 80, 75, 1, 2, 20, 0, 20, 0, 0, 0, 0, 0, 0, 96, 33, 88, 0, 0, 0, 0, 0, 0, 0, 0, 0,
   0, 0, 0, 1, 0, 0, 0, 0, 0, 0, 0, 0, 0, 32, 0, 0, 0, 0, 0, 0, 0, 97, 80, 75, 5, 6, 0, 0, 0,
   0, 1, 0, 1, 0, 47, 0, 0, 0, 31, 0, 0, 0, 22, 0, 80, 75, 5, 6, 0, 0, 0, 0, 0, 0, 0, 0, 0, 0,
   0, 0, 0, 0, 0, 0, 1, 0]

/-- An archive with two empty stored files (version 20, external attributes
`0x20`): the name of the first is the three bytes `a`, 0, `b`, the name of the
second is `a`; the central directory starts at offset 64. -/
def nulThenPlainZip : List Nat :=
  [80, 75, 3, 4, 20, 0, 0, 0, 0, 0, 0, 96, 33, 88, 0, 0, 0, 0, 0, 0, 0, 0, 0, 0, 0, 0, 3, 0, 0,
   0, 97, 0, 98, 80, 75, 3, 4, 20, 0, 0, 0, 0, 0, 0, 96, 33, 88, 0, 0, 0, 0, 0, 0, 0, 0, 0, 0,
   0, 0, 1, 0, 0, 0, 97, 80, 75, 1, 2, 20, 0, 20, 0, 0, 0, 0, 0, 0, 96, 33, 88, 0, 0, 0, 0, 0,
   0, 0, 0, 0, 0, 0, 0, 3, 0, 0, 0, 0, 0, 0, 0, 0, 0, 32, 0, 0, 0, 0, 0, 0, 0, 97, 0, 98, 80,
   75, 1, 2, 20, 0, 20, 0, 0, 0, 0, 0, 0, 96, 33, 88, 0, 0, 0, 0, 0, 0, 0, 0, 0, 0, 0, 0, 1, 0,
   0, 0, 0, 0, 0, 0, 0, 0, 32, 0, 0, 0, 33, 0, 0, 0, 97, 80, 75, 5, 6, 0, 0, 0, 0, 2, 0, 2, 0,
   96, 0, 0, 0, 64, 0, 0, 0, 0, 0]

/-- The object after `Open` on `nulThenPlainZip`. -/
def nulThenPlainModel : C_ZipFile :=
  match C_ZipFile.Open nulThenPlainZip with
  | some (_, z) => z
  | none => C_ZipFile.init

/-! # Theorems -/

/-! ## Lemmas: bits and bytes -/

theorem and_ff_lt (v : Nat) : v &&& 0x00ff < 256 := by
  have h := Nat.and_pow_two_sub_one_eq_mod v 8
  norm_num at h
  rw [h]
  exact Nat.mod_lt _ (by norm_num)

set_option maxRecDepth 100000 in
theorem low_or_unix_hi : ∀ x, x < 256 → (x ||| 0x0300) &&& 0xff00 = 0x0300 := by
  decide

set_option maxRecDepth 100000 in
theorem low_or_unix_lo : ∀ x, x < 256 → (x ||| 0x0300) &&& 0x00ff = x := by
  decide

set_option maxRecDepth 100000 in
theorem low_or_unix_lt : ∀ x, x < 256 → (x ||| 0x0300) < 65536 := by
  decide

set_option maxRecDepth 100000 in
theorem low_or_unix_div : ∀ x, x < 256 → (x ||| 0x0300) / 256 = 3 := by
  decide

set_option maxRecDepth 100000 in
theorem low_or_unix_mod : ∀ x, x < 256 → (x ||| 0x0300) % 256 = x := by
  decide

theorem unixVer_hi (v : Nat) : ((v &&& 0x00ff) ||| 0x0300) &&& 0xff00 = 0x0300 :=
  low_or_unix_hi _ (and_ff_lt v)

theorem unixVer_lo (v : Nat) : ((v &&& 0x00ff) ||| 0x0300) &&& 0x00ff = v &&& 0x00ff :=
  low_or_unix_lo _ (and_ff_lt v)

theorem unixVer_lt (v : Nat) : ((v &&& 0x00ff) ||| 0x0300) < 65536 :=
  low_or_unix_lt _ (and_ff_lt v)

theorem unixVer_idem (v : Nat) :
    ((((v &&& 0x00ff) ||| 0x0300) &&& 0x00ff) ||| 0x0300) = ((v &&& 0x00ff) ||| 0x0300) := by
  rw [unixVer_lo]

/-! ## Lemmas: lookup -/

theorem strcmpIs0_iff (a b : List Nat) : strcmpIs0 a b = true ↔ cstr a = cstr b := by
  simp [strcmpIs0]

theorem findLoop_spec (names : List (List Nat)) (f : List Nat) : ∀ fuel i,
    (findLoop names f fuel i = -1
      ∧ ∀ j, i ≤ j → j < i + fuel → cstr (names.getD j []) ≠ cstr f)
    ∨ (∃ k : Nat, findLoop names f fuel i = (k : Int) ∧ i ≤ k ∧ k < i + fuel
      ∧ cstr (names.getD k []) = cstr f
      ∧ ∀ j, i ≤ j → j < k → cstr (names.getD j []) ≠ cstr f) := by
  intro fuel
  induction fuel with
  | zero =>
    intro i
    left
    refine ⟨rfl, ?_⟩
    intro j h1 h2
    omega
  | succ n ih =>
    intro i
    unfold findLoop
    by_cases hc : strcmpIs0 (names.getD i []) f = true
    · right
      refine ⟨i, by rw [if_pos hc], le_refl _, by omega, (strcmpIs0_iff _ _).1 hc, ?_⟩
      intro j h1 h2
      omega
    · have hne : cstr (names.getD i []) ≠ cstr f := fun h => hc ((strcmpIs0_iff _ _).2 h)
      rw [if_neg hc]
      rcases ih (i + 1) with ⟨h1, h2⟩ | ⟨k, h1, h2, h3, h4, h5⟩
      · left
        refine ⟨h1, ?_⟩
        intro j hj1 hj2
        by_cases hji : j = i
        · subst hji; exact hne
        · exact h2 j (by omega) (by omega)
      · right
        refine ⟨k, h1, by omega, by omega, h4, ?_⟩
        intro j hj1 hj2
        by_cases hji : j = i
        · subst hji; exact hne
        · exact h5 j (by omega) hj2

/-- The lookup on an opened object finds the first entry with the name. -/
theorem find_present (z : C_ZipFile) (name : List Nat) (h : Opened z)
    (hp : z.present name) :
    ∃ k : Nat, z.FindFileIndexInCD name = (k : Int) ∧ k < z.m_iNumFiles
      ∧ cstr (z.m_szFilenames.getD k []) = cstr name
      ∧ ∀ j, j < k → cstr (z.m_szFilenames.getD j []) ≠ cstr name := by
  obtain ⟨hop, _, _, hn, _⟩ := h
  unfold C_ZipFile.FindFileIndexInCD
  rw [if_pos hop]
  rcases findLoop_spec z.m_szFilenames name z.m_iNumFiles 0 with ⟨_, h2⟩ | ⟨k, h1, _, h3, h4, h5⟩
  · exfalso
    obtain ⟨s, hs, hc⟩ := hp
    obtain ⟨i, hi, rfl⟩ := List.getElem_of_mem hs
    refine h2 i (Nat.zero_le _) (by omega) ?_
    rw [List.getD_eq_getElem _ _ hi]
    exact hc
  · exact ⟨k, h1, by omega, h4, fun j hj => h5 j (Nat.zero_le _) hj⟩

/-- The lookup finds nothing when no stored name equals the requested one. -/
theorem find_absent (z : C_ZipFile) (name : List Nat) (h : Opened z)
    (hp : ¬ z.present name) : z.FindFileIndexInCD name = -1 := by
  obtain ⟨hop, _, _, hn, _⟩ := h
  unfold C_ZipFile.FindFileIndexInCD
  rw [if_pos hop]
  rcases findLoop_spec z.m_szFilenames name z.m_iNumFiles 0 with ⟨h1, _⟩ | ⟨k, _, _, h3, h4, _⟩
  · exact h1
  · exfalso
    apply hp
    have hk : k < z.m_szFilenames.length := by omega
    refine ⟨z.m_szFilenames[k], List.getElem_mem hk, ?_⟩
    rw [List.getD_eq_getElem _ _ hk] at h4
    exact h4

/-! ## Lemmas: the three mutators -/

theorem getD_modify_self {α : Type} (l : List α) (f : α → α) (k : Nat) (d : α)
    (hk : k < l.length) : (l.modify f k).getD k d = f (l.getD k d) := by
  rw [List.getD_eq_getElem?_getD, List.getD_eq_getElem?_getD, List.getElem?_modify_eq,
    List.getElem?_eq_getElem hk]
  rfl

theorem getD_modify_other {α : Type} (l : List α) (f : α → α) (k j : Nat) (d : α)
    (hkj : k ≠ j) : (l.modify f k).getD j d = l.getD j d := by
  rw [List.getD_eq_getElem?_getD, List.getD_eq_getElem?_getD,
    List.getElem?_modify_ne _ _ hkj]

/-- The three field updates of a mutator, as one update of each copy. -/
theorem applyEnc_eq (z : C_ZipFile) (k v : Nat) (hk : k < z.m_pCDEntriesReadable.length) :
    ((z.setUnixVer k).setUnixVerNeeded k).setExtAttrib k v =
      { z with
        m_pCDEntriesReadable := z.m_pCDEntriesReadable.modify (encEntry v) k
        m_pCDEntries := z.m_pCDEntries.modify (encRaw v (z.readable k)) k } := by
  simp only [C_ZipFile.setUnixVer, C_ZipFile.setUnixVerNeeded, C_ZipFile.setExtAttrib,
    C_ZipFile.readable, List.modify_modify_eq]
  simp only [getD_modify_self _ _ _ _ hk, List.modify_modify_eq, Function.comp_def]
  rfl

/-- The object after a mutator found entry `k`. -/
theorem SetExecutable_found (z : C_ZipFile) (name : List Nat) (k : Nat)
    (hk : k < z.m_pCDEntriesReadable.length) (hf : z.FindFileIndexInCD name = (k : Int)) :
    z.SetExecutable name = (true, z.withEnc k 0x81ed0020) := by
  unfold C_ZipFile.SetExecutable
  simp only [hf, Int.toNat_ofNat, ge_iff_le, Int.natCast_nonneg, if_true]
  rw [applyEnc_eq z k _ hk]
  rfl

theorem SetNormal_found (z : C_ZipFile) (name : List Nat) (k : Nat)
    (hk : k < z.m_pCDEntriesReadable.length) (hf : z.FindFileIndexInCD name = (k : Int)) :
    z.SetNormal name = (true, z.withEnc k 0x81a40020) := by
  unfold C_ZipFile.SetNormal
  simp only [hf, Int.toNat_ofNat, ge_iff_le, Int.natCast_nonneg, if_true]
  rw [applyEnc_eq z k _ hk]
  rfl

theorem SetDirectory_found (z : C_ZipFile) (name : List Nat) (k : Nat)
    (hk : k < z.m_pCDEntriesReadable.length) (hf : z.FindFileIndexInCD name = (k : Int)) :
    z.SetDirectory name = (true, z.withEnc k 0x41ed0010) := by
  unfold C_ZipFile.SetDirectory
  simp only [hf, Int.toNat_ofNat, ge_iff_le, Int.natCast_nonneg, if_true]
  rw [applyEnc_eq z k _ hk]
  rfl

theorem SetExecutable_missing (z : C_ZipFile) (name : List Nat)
    (hf : z.FindFileIndexInCD name = -1) : z.SetExecutable name = (false, z) := by
  unfold C_ZipFile.SetExecutable
  simp [hf]

theorem SetNormal_missing (z : C_ZipFile) (name : List Nat)
    (hf : z.FindFileIndexInCD name = -1) : z.SetNormal name = (false, z) := by
  unfold C_ZipFile.SetNormal
  simp [hf]

theorem SetDirectory_missing (z : C_ZipFile) (name : List Nat)
    (hf : z.FindFileIndexInCD name = -1) : z.SetDirectory name = (false, z) := by
  unfold C_ZipFile.SetDirectory
  simp [hf]

/-! ## Lemmas: stores into a header image -/

theorem byteAt_set (m : List Nat) (i j x : Nat) :
    byteAt (m.set i x) j = if i = j ∧ i < m.length then x else byteAt m j := by
  unfold byteAt
  rw [List.getD_eq_getElem?_getD, List.getD_eq_getElem?_getD, List.getElem?_set]
  by_cases h : i = j
  · subst h
    by_cases h2 : i < m.length
    · simp [h2]
    · simp [h2, List.getElem?_eq_none (Nat.le_of_not_lt h2)]
  · simp [h]

theorem length_putLE16 (m : List Nat) (off v : Nat) : (putLE16 m off v).length = m.length := by
  simp [putLE16]

theorem length_putLE32 (m : List Nat) (off v : Nat) : (putLE32 m off v).length = m.length := by
  simp [putLE32]

theorem length_encRaw (v : Nat) (e : S_CentralDirectoryEntry) (raw : List Nat) :
    (encRaw v e raw).length = raw.length := by
  simp [encRaw, length_putLE16, length_putLE32]

theorem byteAt_putLE16 (m : List Nat) (off v j : Nat) (h : off + 1 < m.length) :
    byteAt (putLE16 m off v) j =
      if j = off then v % 256 else if j = off + 1 then v / 256 % 256 else byteAt m j := by
  simp only [putLE16, byteAt_set, List.length_set]
  split_ifs <;> first | rfl | omega

theorem byteAt_putLE32 (m : List Nat) (off v j : Nat) (h : off + 3 < m.length) :
    byteAt (putLE32 m off v) j =
      if j = off then v % 256 else if j = off + 1 then v / 256 % 256
      else if j = off + 2 then v / 65536 % 256
      else if j = off + 3 then v / 16777216 % 256 else byteAt m j := by
  simp only [putLE32, byteAt_set, List.length_set]
  split_ifs <;> first | rfl | omega

/-- A byte of the image after the stores of a mutator. -/
theorem byteAt_encRaw (v : Nat) (e : S_CentralDirectoryEntry) (raw : List Nat)
    (hl : raw.length = 46) (j : Nat) :
    byteAt (encRaw v e raw) j =
      if j = 4 then ((e.ver &&& 0x00ff) ||| 0x0300) % 256
      else if j = 5 then ((e.ver &&& 0x00ff) ||| 0x0300) / 256 % 256
      else if j = 6 then ((e.ver_needed &&& 0x00ff) ||| 0x0300) % 256
      else if j = 7 then ((e.ver_needed &&& 0x00ff) ||| 0x0300) / 256 % 256
      else if j = 38 then v % 256
      else if j = 39 then v / 256 % 256
      else if j = 40 then v / 65536 % 256
      else if j = 41 then v / 16777216 % 256
      else byteAt raw j := by
  unfold encRaw
  generalize ((e.ver &&& 0x00ff) ||| 0x0300) = a
  generalize ((e.ver_needed &&& 0x00ff) ||| 0x0300) = b
  rw [byteAt_putLE32 _ _ _ _ (by simp [length_putLE16, hl]),
    byteAt_putLE16 _ _ _ _ (by simp [length_putLE16, hl]),
    byteAt_putLE16 _ _ _ _ (by simp [hl])]
  split_ifs <;> first | rfl | omega

theorem le16_encRaw_ver (v : Nat) (e : S_CentralDirectoryEntry) (raw : List Nat)
    (hl : raw.length = 46) : le16 (encRaw v e raw) 4 = (e.ver &&& 0x00ff) ||| 0x0300 := by
  unfold le16
  rw [byteAt_encRaw v e raw hl, byteAt_encRaw v e raw hl]
  have h := unixVer_lt e.ver
  simp only [show (4 : Nat) + 1 = 5 from rfl]
  norm_num
  omega

theorem le16_encRaw_ver_needed (v : Nat) (e : S_CentralDirectoryEntry) (raw : List Nat)
    (hl : raw.length = 46) :
    le16 (encRaw v e raw) 6 = (e.ver_needed &&& 0x00ff) ||| 0x0300 := by
  unfold le16
  rw [byteAt_encRaw v e raw hl, byteAt_encRaw v e raw hl]
  have h := unixVer_lt e.ver_needed
  norm_num
  omega

theorem le32_encRaw (v : Nat) (e : S_CentralDirectoryEntry) (raw : List Nat)
    (hl : raw.length = 46) (hv : v < 4294967296) : le32 (encRaw v e raw) 38 = v := by
  unfold le32
  rw [byteAt_encRaw v e raw hl, byteAt_encRaw v e raw hl, byteAt_encRaw v e raw hl,
    byteAt_encRaw v e raw hl]
  norm_num
  omega

theorem readable_modify_self (z : C_ZipFile) (k : Nat) (f : S_CentralDirectoryEntry →
    S_CentralDirectoryEntry) (raws : List (List Nat))
    (hk : k < z.m_pCDEntriesReadable.length) :
    ({ z with m_pCDEntriesReadable := z.m_pCDEntriesReadable.modify f k
              m_pCDEntries := raws } : C_ZipFile).readable k = f (z.readable k) := by
  simp only [C_ZipFile.readable]
  exact getD_modify_self _ _ _ _ hk

theorem raw_modify_self (z : C_ZipFile) (k : Nat) (f : List Nat → List Nat)
    (rs : List S_CentralDirectoryEntry) (hk : k < z.m_pCDEntries.length) :
    ({ z with m_pCDEntriesReadable := rs
              m_pCDEntries := z.m_pCDEntries.modify f k } : C_ZipFile).raw k = f (z.raw k) := by
  simp only [C_ZipFile.raw]
  exact getD_modify_self _ _ _ _ hk

theorem raw_length (z : C_ZipFile) (k : Nat) (h : Opened z) (hk : k < z.m_iNumFiles) :
    (z.raw k).length = 46 := by
  obtain ⟨_, h1, _, _, _, _, h6⟩ := h
  have hk2 : k < z.m_pCDEntries.length := by omega
  unfold C_ZipFile.raw
  rw [List.getD_eq_getElem _ _ hk2]
  exact h6 _ (List.getElem_mem hk2)

/-- The entry a mutator addressed carries the encoding it installs. -/
theorem encodedAs_modify (z : C_ZipFile) (k v : Nat) (h : Opened z) (hk : k < z.m_iNumFiles)
    (hv : v < 4294967296) :
    encodedAs z (z.withEnc k v) k v := by
  have hl := raw_length z k h hk
  obtain ⟨_, h1, h2, _⟩ := h
  unfold encodedAs C_ZipFile.withEnc
  rw [readable_modify_self z k _ _ (by omega), raw_modify_self z k _ _ (by omega)]
  refine ⟨rfl, rfl, unixVer_hi _, unixVer_lo _, rfl, unixVer_hi _, unixVer_lo _,
    le32_encRaw v _ _ hl hv, le16_encRaw_ver v _ _ hl, le16_encRaw_ver_needed v _ _ hl⟩

/-! ## C1: the mutators write their exact encoding -/

/-- C1: on an opened object, for a name that is present, each of
`SetExecutable`, `SetNormal` and `SetDirectory` returns true and leaves the
addressed entry (the one the lookup finds) with external attributes
`0x81ED0020`, `0x81A40020` and `0x41ED0010` respectively, and with both version
fields equal to `(old & 0x00FF) | 0x0300` (high byte `0x03`, low byte kept),
in the interpreted copy and, as little-endian bytes at offsets 4, 6 and 38, in
the header image that is written to disk. -/
theorem mutators_write_canonical_encoding (z : C_ZipFile) (name : List Nat)
    (h : Opened z) (hp : z.present name) :
    ∃ k : Nat, z.FindFileIndexInCD name = (k : Int) ∧ k < z.m_iNumFiles
      ∧ (z.SetExecutable name).1 = true ∧ encodedAs z (z.SetExecutable name).2 k 0x81ED0020
      ∧ (z.SetNormal name).1 = true ∧ encodedAs z (z.SetNormal name).2 k 0x81A40020
      ∧ (z.SetDirectory name).1 = true ∧ encodedAs z (z.SetDirectory name).2 k 0x41ED0010 := by
  obtain ⟨k, hf, hk, _, _⟩ := find_present z name h hp
  have hk2 : k < z.m_pCDEntriesReadable.length := by
    obtain ⟨_, _, h2, _⟩ := h
    omega
  refine ⟨k, hf, hk, ?_, ?_, ?_, ?_, ?_, ?_⟩
  · rw [SetExecutable_found z name k hk2 hf]
  · rw [SetExecutable_found z name k hk2 hf]
    exact encodedAs_modify z k _ h hk (by norm_num)
  · rw [SetNormal_found z name k hk2 hf]
  · rw [SetNormal_found z name k hk2 hf]
    exact encodedAs_modify z k _ h hk (by norm_num)
  · rw [SetDirectory_found z name k hk2 hf]
  · rw [SetDirectory_found z name k hk2 hf]
    exact encodedAs_modify z k _ h hk (by norm_num)

set_option maxRecDepth 1000000 in
/-- The sample archive opens to `demoModel`. -/
theorem demo_opens : C_ZipFile.Open demoZip = some (OpenStatus.ok, demoModel) := by
  rfl

set_option maxRecDepth 1000000 in
theorem demo_opened : Opened demoModel := by
  decide

set_option maxRecDepth 1000000 in
/-- C1 at the sample archive and the name `dir/run.sh`. -/
theorem mutators_write_canonical_encoding_witness :
    Opened demoModel ∧ demoModel.present runSh
      ∧ ∃ k : Nat, demoModel.FindFileIndexInCD runSh = (k : Int) ∧ k < demoModel.m_iNumFiles
        ∧ (demoModel.SetExecutable runSh).1 = true
        ∧ encodedAs demoModel (demoModel.SetExecutable runSh).2 k 0x81ED0020
        ∧ (demoModel.SetNormal runSh).1 = true
        ∧ encodedAs demoModel (demoModel.SetNormal runSh).2 k 0x81A40020
        ∧ (demoModel.SetDirectory runSh).1 = true
        ∧ encodedAs demoModel (demoModel.SetDirectory runSh).2 k 0x41ED0010 :=
  ⟨demo_opened, ⟨runSh, by decide, rfl⟩,
    mutators_write_canonical_encoding demoModel runSh demo_opened ⟨runSh, by decide, rfl⟩⟩

/-! ## C6: the frame of the mutators -/

theorem frameAt_modify (z : C_ZipFile) (k v : Nat) (h : Opened z) (hk : k < z.m_iNumFiles) :
    frameAt z (z.withEnc k v) k := by
  have hl := raw_length z k h hk
  obtain ⟨_, h1, h2, _⟩ := h
  unfold frameAt C_ZipFile.withEnc
  rw [readable_modify_self z k _ _ (by omega), raw_modify_self z k _ _ (by omega)]
  refine ⟨rfl, rfl, rfl, rfl, rfl, rfl, rfl, rfl, rfl, by simp, by simp, ?_, ?_, ?_, ?_⟩
  · intro j hj
    exact ⟨List.getElem?_modify_ne _ _ (Ne.symm hj), List.getElem?_modify_ne _ _ (Ne.symm hj)⟩
  · simp [sameOutsideAttrs, encEntry]
  · exact length_encRaw _ _ _
  · intro j hj
    rw [byteAt_encRaw v _ _ hl]
    simp only [attrOffset, Bool.or_eq_false_iff, Bool.and_eq_false_iff, decide_eq_false_iff_not]
      at hj
    split_ifs <;> first | rfl | omega

/-- C6 (amended): on an opened object, for a name that is present as a C
string (some stored name has the same bytes before the first zero byte), each
mutator changes only the first entry whose stored name equals the name in
that sense (index `k`: entry `k` has the name and no earlier entry has it),
and there only the version-made-by, version-needed and external-attributes
fields: the entry count and order, every other entry (both copies), the
names, extras, comments, end record, archive comment and buffer, and in entry
`k` every other header field and every image byte outside offsets 4..7 and
38..41 are unchanged. -/
theorem mutators_frame (z : C_ZipFile) (name : List Nat)
    (h : Opened z) (hp : z.present name) :
    ∃ k : Nat, z.FindFileIndexInCD name = (k : Int) ∧ k < z.m_iNumFiles
      ∧ cstr (z.m_szFilenames.getD k []) = cstr name
      ∧ (∀ j, j < k → cstr (z.m_szFilenames.getD j []) ≠ cstr name)
      ∧ frameAt z (z.SetExecutable name).2 k
      ∧ frameAt z (z.SetNormal name).2 k
      ∧ frameAt z (z.SetDirectory name).2 k := by
  obtain ⟨k, hf, hk, hname, hfirst⟩ := find_present z name h hp
  have hk2 : k < z.m_pCDEntriesReadable.length := by
    obtain ⟨_, _, h2, _⟩ := h
    omega
  refine ⟨k, hf, hk, hname, hfirst, ?_, ?_, ?_⟩
  · rw [SetExecutable_found z name k hk2 hf]
    exact frameAt_modify z k _ h hk
  · rw [SetNormal_found z name k hk2 hf]
    exact frameAt_modify z k _ h hk
  · rw [SetDirectory_found z name k hk2 hf]
    exact frameAt_modify z k _ h hk

set_option maxRecDepth 1000000 in
/-- C6 (amended) at the sample archive and the name `dir/readme.txt`. -/
theorem mutators_frame_witness :
    Opened demoModel ∧ demoModel.present readmeTxt
      ∧ ∃ k : Nat, demoModel.FindFileIndexInCD readmeTxt = (k : Int)
        ∧ k < demoModel.m_iNumFiles
        ∧ cstr (demoModel.m_szFilenames.getD k []) = cstr readmeTxt
        ∧ (∀ j, j < k → cstr (demoModel.m_szFilenames.getD j []) ≠ cstr readmeTxt)
        ∧ frameAt demoModel (demoModel.SetExecutable readmeTxt).2 k
        ∧ frameAt demoModel (demoModel.SetNormal readmeTxt).2 k
        ∧ frameAt demoModel (demoModel.SetDirectory readmeTxt).2 k :=
  ⟨demo_opened, ⟨readmeTxt, by decide, rfl⟩,
    mutators_frame demoModel readmeTxt demo_opened ⟨readmeTxt, by decide, rfl⟩⟩

set_option maxRecDepth 1000000 in
/-- C6 as stated fails: in `nulThenPlainZip` the stored names are `a`, 0, `b`
(entry 0) and `a` (entry 1), so the first entry with the name `a` is entry 1;
`SetExecutable` on `a` changes entry 0 and leaves entry 1 as it was. Names are
compared with `strcmp`, which stops at the first zero byte. -/
theorem mutator_changes_entry_with_other_name :
    C_ZipFile.Open nulThenPlainZip = some (OpenStatus.ok, nulThenPlainModel)
      ∧ nulThenPlainModel.m_szFilenames = [[97, 0, 98], [97]]
      ∧ nulThenPlainModel.m_szFilenames.getD 0 [] ≠ [97]
      ∧ nulThenPlainModel.m_szFilenames.getD 1 [] = [97]
      ∧ (nulThenPlainModel.SetExecutable [97]).1 = true
      ∧ (nulThenPlainModel.readable 0).ext_attrib = 0x20
      ∧ ((nulThenPlainModel.SetExecutable [97]).2.readable 0).ext_attrib = 0x81ed0020
      ∧ (nulThenPlainModel.SetExecutable [97]).2.raw 0 ≠ nulThenPlainModel.raw 0
      ∧ (nulThenPlainModel.SetExecutable [97]).2.readable 1 = nulThenPlainModel.readable 1
      ∧ (nulThenPlainModel.SetExecutable [97]).2.raw 1 = nulThenPlainModel.raw 1 := by
  decide

/-! ## C7: a name that is absent -/

/-- C7 (amended): on an opened object, for a name that equals no stored name
as a C string (no stored name has the same bytes before the first zero byte),
each of the three mutators returns false and leaves the whole object
unchanged, and the three predicates return false. -/
theorem absent_name_changes_nothing (z : C_ZipFile) (name : List Nat)
    (h : Opened z) (hp : ¬ z.present name) :
    z.SetExecutable name = (false, z) ∧ z.SetNormal name = (false, z)
      ∧ z.SetDirectory name = (false, z)
      ∧ z.IsExecutable name = false ∧ z.IsNormal name = false
      ∧ z.IsDirectory name = some false := by
  have hf := find_absent z name h hp
  refine ⟨SetExecutable_missing z name hf, SetNormal_missing z name hf,
    SetDirectory_missing z name hf, ?_, ?_, ?_⟩
  · unfold C_ZipFile.IsExecutable
    simp [hf]
  · unfold C_ZipFile.IsNormal
    simp [hf]
  · unfold C_ZipFile.IsDirectory
    simp [hf]

set_option maxRecDepth 1000000 in
/-- C7 (amended) at the sample archive and the name `run.sh` (stored only as
`dir/run.sh`). -/
theorem absent_name_changes_nothing_witness :
    Opened demoModel ∧ ¬ demoModel.present [114, 117, 110, 46, 115, 104]
      ∧ demoModel.SetExecutable [114, 117, 110, 46, 115, 104] = (false, demoModel)
      ∧ demoModel.SetNormal [114, 117, 110, 46, 115, 104] = (false, demoModel)
      ∧ demoModel.SetDirectory [114, 117, 110, 46, 115, 104] = (false, demoModel)
      ∧ demoModel.IsExecutable [114, 117, 110, 46, 115, 104] = false
      ∧ demoModel.IsNormal [114, 117, 110, 46, 115, 104] = false
      ∧ demoModel.IsDirectory [114, 117, 110, 46, 115, 104] = some false :=
  ⟨demo_opened, by unfold C_ZipFile.present; decide,
    absent_name_changes_nothing demoModel [114, 117, 110, 46, 115, 104] demo_opened
      (by unfold C_ZipFile.present; decide)⟩

set_option maxRecDepth 1000000 in
/-- C7 as stated fails: in `nulNameZip` the only stored name is the three
bytes `a`, 0, `b`, so the one-byte name `a` equals no stored name; all three
mutators return true on `a`, `SetExecutable` changes entry 0, and `IsNormal`
returns true for `a`. -/
theorem mutators_succeed_through_zero_byte :
    C_ZipFile.Open nulNameZip = some (OpenStatus.ok, nulNameModel)
      ∧ nulNameModel.m_szFilenames = [[97, 0, 98]]
      ∧ [97] ∉ nulNameModel.m_szFilenames
      ∧ (nulNameModel.SetExecutable [97]).1 = true
      ∧ (nulNameModel.SetNormal [97]).1 = true
      ∧ (nulNameModel.SetDirectory [97]).1 = true
      ∧ (nulNameModel.readable 0).ext_attrib = 0x20
      ∧ ((nulNameModel.SetExecutable [97]).2.readable 0).ext_attrib = 0x81ed0020
      ∧ (nulNameModel.SetExecutable [97]).2.raw 0 ≠ nulNameModel.raw 0
      ∧ nulNameModel.IsNormal [97] = true := by
  decide

/-! ## C9: marking executable twice -/

theorem modify_congr_at {α : Type} (l : List α) (f g : α → α) (k : Nat)
    (hfg : ∀ x, l[k]? = some x → f x = g x) : l.modify f k = l.modify g k := by
  apply List.ext_getElem?
  intro j
  rw [List.getElem?_modify, List.getElem?_modify]
  by_cases hj : k = j
  · subst hj
    cases hx : l[k]? with
    | none => rfl
    | some x => simp [hfg x hx]
  · simp [hj]

theorem list_eq_of_byteAt (a b : List Nat) (hl : a.length = b.length)
    (hb : ∀ j, byteAt a j = byteAt b j) : a = b := by
  apply List.ext_getElem hl
  intro j h1 h2
  have := hb j
  unfold byteAt at this
  rw [List.getD_eq_getElem _ _ h1, List.getD_eq_getElem _ _ h2] at this
  exact this

theorem encEntry_idem (v : Nat) (e : S_CentralDirectoryEntry) :
    encEntry v (encEntry v e) = encEntry v e := by
  simp only [encEntry, unixVer_lo]

theorem encRaw_idem (v : Nat) (e : S_CentralDirectoryEntry) (raw : List Nat)
    (hl : raw.length = 46) : encRaw v (encEntry v e) (encRaw v e raw) = encRaw v e raw := by
  apply list_eq_of_byteAt
  · simp [length_encRaw]
  · intro j
    rw [byteAt_encRaw v _ _ (by simp [length_encRaw, hl]), byteAt_encRaw v e raw hl]
    simp only [encEntry, unixVer_lo]
    split_ifs <;> rfl

/-- C9: on an opened object and for every name, a second `SetExecutable(name)`
directly after the first returns what the first returned and leaves the object
as the first left it. -/
theorem setExecutable_idempotent (z : C_ZipFile) (name : List Nat) (h : Opened z) :
    (z.SetExecutable name).2.SetExecutable name = z.SetExecutable name := by
  by_cases hp : z.present name
  · obtain ⟨k, hf, hk, _, _⟩ := find_present z name h hp
    have hl := raw_length z k h hk
    obtain ⟨_, h1, h2, _⟩ := h
    have hk2 : k < z.m_pCDEntriesReadable.length := by omega
    have hk1 : k < z.m_pCDEntries.length := by omega
    have hf2 : (z.withEnc k 0x81ed0020).FindFileIndexInCD name = (k : Int) := hf
    rw [SetExecutable_found z name k hk2 hf]
    dsimp only
    rw [SetExecutable_found (z.withEnc k 0x81ed0020) name k
      (by simpa [C_ZipFile.withEnc] using hk2) hf2]
    unfold C_ZipFile.withEnc
    rw [readable_modify_self z k _ _ hk2]
    simp only [List.modify_modify_eq, Prod.mk.injEq, true_and, C_ZipFile.mk.injEq, and_true]
    refine ⟨?_, ?_⟩
    · apply modify_congr_at
      intro raw hraw
      have hraw2 : raw = z.raw k := by
        unfold C_ZipFile.raw
        rw [List.getD_eq_getElem?_getD, hraw]
        rfl
      subst hraw2
      exact encRaw_idem _ _ _ hl
    · apply modify_congr_at
      intro e _
      exact encEntry_idem _ e
  · have hf := find_absent z name h hp
    rw [SetExecutable_missing z name hf]
    exact SetExecutable_missing z name hf

set_option maxRecDepth 1000000 in
/-- C9 at the sample archive and the name `dir/run.sh`. -/
theorem setExecutable_idempotent_witness :
    Opened demoModel
      ∧ (demoModel.SetExecutable runSh).2.SetExecutable runSh = demoModel.SetExecutable runSh :=
  ⟨demo_opened, setExecutable_idempotent demoModel runSh demo_opened⟩

/-! ## C8: classification of the three encodings -/

theorem charAt_last (name : List Nat) (hne : cstr name ≠ []) :
    charAt name ((strlen name : Int) - 1) = (cstr name).getLast? := by
  have hpos : 0 < (cstr name).length := List.length_pos.2 hne
  unfold charAt strlen
  have h1 : ¬ (((cstr name).length : Int) - 1 < 0) := by omega
  have h2 : (((cstr name).length : Int) - 1).toNat = (cstr name).length - 1 := by omega
  rw [if_neg h1, h2, List.getElem?_append_left (by omega), List.getLast?_eq_getElem?]

theorem charAt_empty (name : List Nat) (he : cstr name = []) :
    charAt name ((strlen name : Int) - 1) = none := by
  unfold charAt strlen
  rw [he]
  rfl

/-- The result of `IsDirectory` on a name that the lookup finds at `k` and that is not empty. -/
theorem IsDirectory_found (z : C_ZipFile) (name : List Nat) (k : Nat)
    (hf : z.FindFileIndexInCD name = (k : Int)) (hne : cstr name ≠ []) :
    z.IsDirectory name = some (endsInSlash name
      || (z.readable k).ext_attrib &&& 0x00000010 == 0x00000010
      || (z.readable k).ext_attrib &&& 0xffff0000 == 0x41ed0000) := by
  unfold C_ZipFile.IsDirectory
  simp only [hf, Int.toNat_ofNat, ge_iff_le, Int.natCast_nonneg, if_true, charAt_last name hne]
  unfold endsInSlash
  cases hc : (cstr name).getLast? with
  | none => exact absurd (List.getLast?_eq_none_iff.1 hc) hne
  | some c =>
    have e : (some c == some 47) = (c == 47) := by
      by_cases h47 : c = 47
      · subst h47; rfl
      · simp [h47]
    rw [e]
    dsimp only
    generalize (c == 47) = b1
    generalize ((z.readable k).ext_attrib &&& 16 == 16) = b2
    generalize ((z.readable k).ext_attrib &&& 4294901760 == 1106051072) = b3
    cases b1 <;> cases b2 <;> cases b3 <;> rfl

theorem IsExecutable_found (z : C_ZipFile) (name : List Nat) (k : Nat)
    (hf : z.FindFileIndexInCD name = (k : Int)) :
    z.IsExecutable name = ((z.readable k).ver &&& 0xff00 == 0x0300
      && (z.readable k).ver_needed &&& 0xff00 == 0x0300
      && (z.readable k).ext_attrib &&& 0xffff0000 == 0x81ed0000) := by
  unfold C_ZipFile.IsExecutable
  simp only [hf, Int.toNat_ofNat, ge_iff_le, Int.natCast_nonneg, if_true]
  cases (z.readable k).ver &&& 0xff00 == 0x0300 <;>
    cases (z.readable k).ver_needed &&& 0xff00 == 0x0300 <;> simp

theorem IsNormal_found (z : C_ZipFile) (name : List Nat) (k : Nat)
    (hf : z.FindFileIndexInCD name = (k : Int)) :
    z.IsNormal name = (((z.readable k).ver &&& 0xff00 == 0x0300
      && (z.readable k).ver_needed &&& 0xff00 == 0x0300
      && ((z.readable k).ext_attrib &&& 0xffff0000 != 0x41ed0000
        && (z.readable k).ext_attrib &&& 0xffff0000 != 0x81ed0000))
      || (z.readable k).ext_attrib &&& 0x00000020 == 0x00000020) := by
  unfold C_ZipFile.IsNormal
  simp only [hf, Int.toNat_ofNat, ge_iff_le, Int.natCast_nonneg, if_true]
  cases (z.readable k).ver &&& 0xff00 == 0x0300 <;>
    cases (z.readable k).ver_needed &&& 0xff00 == 0x0300 <;>
    cases ((z.readable k).ext_attrib &&& 0xffff0000 != 0x41ed0000
        && (z.readable k).ext_attrib &&& 0xffff0000 != 0x81ed0000) <;> simp


/-- C8 (amended): for an entry that the lookup finds under a non-empty name,
(a) in the directory encoding it classifies as Directory and as nothing else;
(b) in the normal encoding, with a name that does not end in `/`, it
classifies as Normal and as nothing else; (c) in the executable encoding, with
a name that does not end in `/`, it classifies as Executable and not as
Directory. -/
theorem canonical_classification (z : C_ZipFile) (name : List Nat) (k : Nat)
    (hf : z.FindFileIndexInCD name = (k : Int)) (hne : cstr name ≠ []) :
    (inDirectoryEncoding (z.readable k) →
        z.IsDirectory name = some true ∧ z.IsExecutable name = false
          ∧ z.IsNormal name = false)
      ∧ (inNormalEncoding (z.readable k) → endsInSlash name = false →
        z.IsDirectory name = some false ∧ z.IsExecutable name = false
          ∧ z.IsNormal name = true)
      ∧ (inExecutableEncoding (z.readable k) → endsInSlash name = false →
        z.IsDirectory name = some false ∧ z.IsExecutable name = true) := by
  rw [IsDirectory_found z name k hf hne, IsExecutable_found z name k hf,
    IsNormal_found z name k hf]
  refine ⟨?_, ?_, ?_⟩
  · rintro ⟨h1, h2, h3⟩
    rw [h1, h2, h3]
    refine ⟨?_, ?_, ?_⟩
    · cases endsInSlash name <;> decide
    · decide
    · decide
  · rintro ⟨h1, h2, h3⟩ hs
    rw [h1, h2, h3, hs]
    decide
  · rintro ⟨h1, h2, h3⟩ hs
    rw [h1, h2, h3, hs]
    decide

set_option maxRecDepth 1000000 in
/-- C8 (amended) at the sample archive after `SetNormal("dir/readme.txt")`. -/
theorem canonical_classification_witness :
    (demoModel.SetNormal readmeTxt).2.FindFileIndexInCD readmeTxt = ((1 : Nat) : Int)
      ∧ cstr readmeTxt ≠ []
      ∧ inNormalEncoding ((demoModel.SetNormal readmeTxt).2.readable 1)
      ∧ endsInSlash readmeTxt = false
      ∧ (demoModel.SetNormal readmeTxt).2.IsDirectory readmeTxt = some false
      ∧ (demoModel.SetNormal readmeTxt).2.IsExecutable readmeTxt = false
      ∧ (demoModel.SetNormal readmeTxt).2.IsNormal readmeTxt = true :=
  ⟨by decide, by decide, by decide, by decide,
    (canonical_classification (demoModel.SetNormal readmeTxt).2 readmeTxt 1 (by decide)
      (by decide)).2.1 (by decide) (by decide)⟩

set_option maxRecDepth 1000000 in
/-- C8 as stated fails: right after `SetNormal("dir/")` on the sample archive
the entry `dir/` is in the normal encoding and is classified both as Directory
(its name ends in `/`) and as Normal. -/
theorem exclusivity_fails_for_slash_name :
    Opened demoModel
      ∧ (demoModel.SetNormal dirSlash).1 = true
      ∧ inNormalEncoding ((demoModel.SetNormal dirSlash).2.readable 0)
      ∧ (demoModel.SetNormal dirSlash).2.FindFileIndexInCD dirSlash = 0
      ∧ (demoModel.SetNormal dirSlash).2.IsDirectory dirSlash = some true
      ∧ (demoModel.SetNormal dirSlash).2.IsNormal dirSlash = true := by
  decide

/-! ## C10: the end record at offset 0 -/

set_option maxRecDepth 1000000 in
/-- C10 fails on the code: the 22-byte archive without entries has a valid end
record at offset 0, and `Open` reports that no central directory was found
(the scan loop runs only while `iPos > 0`). -/
theorem open_misses_end_record_at_offset_zero :
    validEndRecordAt emptyZip 0
      ∧ (C_ZipFile.Open emptyZip).map Prod.fst = some OpenStatus.noCentralDirectory := by
  decide

/-! ## Lemmas: the loops of `Save` and `Open` -/

theorem Write_ok (fwriteOk : Nat → Bool) (hw : ∀ n, fwriteOk n = true) (out data : List Nat) :
    Write fwriteOk out data = (true, out ++ data) := by
  unfold Write
  by_cases h : data.length = 0
  · have : data = [] := List.length_eq_zero.1 h
    subst this
    simp
  · simp [h, hw]

theorem writeIf_ok (fwriteOk : Nat → Bool) (hw : ∀ n, fwriteOk n = true) (out data : List Nat) :
    writeIf fwriteOk (true, out) data = (true, out ++ data) := by
  unfold writeIf
  simp [Write_ok fwriteOk hw]

/-- The loop of `Save` when every write succeeds, for any invariant `P` of the
object that each normalisation step keeps: the output grows by the header of
each entry (as it is right after the step of that entry, a list with property
`Q`) followed by `T`, the entry's name, extra and comment. -/
theorem saveLoop_spec (fwriteOk : Nat → Bool) (hw : ∀ n, fwriteOk n = true)
    (P : Nat → C_ZipFile → Prop) (Q : Nat → List Nat → Prop) (T : Nat → List Nat) (N : Nat)
    (hstep : ∀ i z, i < N → P i z →
      ∃ z1, z.normalize (z.m_szFilenames.getD i []) = some z1 ∧ P (i + 1) z1
        ∧ Q i (z1.raw i) ∧ z1.emitTail i = T i) :
    ∀ fuel i z out, i + fuel ≤ N → P i z →
      ∃ (z1 : C_ZipFile) (H : Nat → List Nat), saveLoop fwriteOk fuel i z (true, out)
          = some ((true, out ++ ((List.range' i fuel).map (fun t => H t ++ T t)).flatten), z1)
        ∧ P (i + fuel) z1 ∧ ∀ t, i ≤ t → t < i + fuel → Q t (H t) := by
  intro fuel
  induction fuel with
  | zero =>
    intro i z out _ hP
    refine ⟨z, fun _ => [], ?_, hP, ?_⟩
    · simp [saveLoop]
    · intro t h1 h2
      omega
  | succ n ih =>
    intro i z out hi hP
    obtain ⟨z1, hn, hP1, hQ, hT⟩ := hstep i z (by omega) hP
    obtain ⟨z2, H, hs, hP2, hH⟩ := ih (i + 1) z1
      (out ++ (z1.raw i ++ T i)) (by omega) hP1
    refine ⟨z2, fun t => if t = i then z1.raw i else H t, ?_, ?_, ?_⟩
    · unfold saveLoop
      rw [hn]
      simp only [writeIf_ok fwriteOk hw]
      have e : ∀ (a b c d e : List Nat), a ++ b ++ c ++ d ++ e = a ++ (b ++ (c ++ (d ++ e))) := by
        intro a b c d e
        simp
      have hT2 : (z1.m_szFilenames.getD i []).take (z1.readable i).name_len
          ++ ((z1.m_szExtra.getD i []).take (z1.readable i).extra_len
          ++ (z1.m_szComments.getD i []).take (z1.readable i).comment_len) = T i := hT
      have hraw : z1.m_pCDEntries.getD i [] = z1.raw i := rfl
      rw [e, hT2, hraw]
      simp only [Bool.not_true, Bool.false_eq_true, if_false]
      rw [hs, List.range'_succ, List.map_cons, List.flatten_cons]
      simp only [if_true, List.append_assoc]
      have hm : (List.range' (i + 1) n).map (fun t => (if t = i then z1.raw i else H t) ++ T t)
          = (List.range' (i + 1) n).map (fun t => H t ++ T t) := by
        apply List.map_congr_left
        intro t ht
        have : i + 1 ≤ t := (List.mem_range'_1.1 ht).1
        have hne : t ≠ i := by omega
        simp [hne]
      rw [hm]
    · have : i + (n + 1) = i + 1 + n := by omega
      rw [this]
      exact hP2
    · intro t h1 h2
      by_cases hti : t = i
      · subst hti
        simpa using hQ
      · simp only [hti, if_false]
        exact hH t (by omega) (by omega)

theorem slice_eq_some (m : List Nat) (pos len : Nat) (r : List Nat)
    (h : slice m pos len = some r) :
    pos + len ≤ m.length ∧ r = (m.drop pos).take len ∧ r.length = len := by
  unfold slice at h
  by_cases hle : pos + len ≤ m.length
  · rw [if_pos hle] at h
    have := Option.some.inj h
    subst this
    refine ⟨hle, rfl, ?_⟩
    simp
    omega
  · rw [if_neg hle] at h
    exact absurd h (by simp)

theorem byteAt_take_drop (m : List Nat) (pos len j : Nat) (hj : j < len) :
    byteAt ((m.drop pos).take len) j = byteAt m (pos + j) := by
  unfold byteAt
  rw [List.getD_eq_getElem?_getD, List.getD_eq_getElem?_getD, List.getElem?_take_of_lt hj,
    List.getElem?_drop]

theorem le16_take_drop (m : List Nat) (pos len off : Nat) (h : off + 1 < len) :
    le16 ((m.drop pos).take len) off = le16 m (pos + off) := by
  unfold le16
  rw [byteAt_take_drop m pos len off (by omega), byteAt_take_drop m pos len (off + 1) h,
    Nat.add_assoc]

theorem le32_take_drop (m : List Nat) (pos len off : Nat) (h : off + 3 < len) :
    le32 ((m.drop pos).take len) off = le32 m (pos + off) := by
  unfold le32
  rw [byteAt_take_drop m pos len off (by omega),
    byteAt_take_drop m pos len (off + 1) (by omega),
    byteAt_take_drop m pos len (off + 2) (by omega), byteAt_take_drop m pos len (off + 3) h]
  simp only [Nat.add_assoc]

theorem decodeEntry_take_drop (m : List Nat) (pos : Nat) :
    decodeEntry ((m.drop pos).take 46) 0 = decodeEntry m pos := by
  unfold decodeEntry
  simp only [Nat.zero_add]
  rw [show le32 ((m.drop pos).take 46) 0 = le32 m (pos + 0) from
    le32_take_drop m pos 46 0 (by norm_num)]
  simp only [le16_take_drop m pos 46 _ (show 4 + 1 < 46 by norm_num),
    le16_take_drop m pos 46 _ (show 6 + 1 < 46 by norm_num),
    le16_take_drop m pos 46 _ (show 8 + 1 < 46 by norm_num),
    le16_take_drop m pos 46 _ (show 10 + 1 < 46 by norm_num),
    le16_take_drop m pos 46 _ (show 12 + 1 < 46 by norm_num),
    le16_take_drop m pos 46 _ (show 14 + 1 < 46 by norm_num),
    le32_take_drop m pos 46 _ (show 16 + 3 < 46 by norm_num),
    le32_take_drop m pos 46 _ (show 20 + 3 < 46 by norm_num),
    le32_take_drop m pos 46 _ (show 24 + 3 < 46 by norm_num),
    le16_take_drop m pos 46 _ (show 28 + 1 < 46 by norm_num),
    le16_take_drop m pos 46 _ (show 30 + 1 < 46 by norm_num),
    le16_take_drop m pos 46 _ (show 32 + 1 < 46 by norm_num),
    le16_take_drop m pos 46 _ (show 34 + 1 < 46 by norm_num),
    le16_take_drop m pos 46 _ (show 36 + 1 < 46 by norm_num),
    le32_take_drop m pos 46 _ (show 38 + 3 < 46 by norm_num),
    le32_take_drop m pos 46 _ (show 42 + 3 < 46 by norm_num), Nat.add_zero]

theorem take_drop_glue (m : List Nat) (a b c : Nat) (hab : a ≤ b) :
    (m.drop a).take (b - a) ++ (m.drop b).take c = (m.drop a).take (b - a + c) := by
  rw [List.take_add, List.drop_drop]
  have : a + (b - a) = b := by omega
  rw [this]

theorem take_drop_glue4 (m : List Nat) (pos a b c d : Nat) :
    (m.drop pos).take a ++ ((m.drop (pos + a)).take b ++ ((m.drop (pos + a + b)).take c
      ++ (m.drop (pos + a + (b + c))).take d)) = (m.drop pos).take (a + (b + c + d)) := by
  have g1 := take_drop_glue m pos (pos + a) b (by omega)
  have g2 := take_drop_glue m pos (pos + a + b) c (by omega)
  have g3 := take_drop_glue m pos (pos + a + (b + c)) d (by omega)
  have s1 : pos + a - pos = a := by omega
  have s2 : pos + a + b - pos = a + b := by omega
  have s3 : pos + a + (b + c) - pos = a + b + c := by omega
  rw [s1] at g1
  rw [s2] at g2
  rw [s3] at g3
  calc (m.drop pos).take a ++ ((m.drop (pos + a)).take b ++ ((m.drop (pos + a + b)).take c
      ++ (m.drop (pos + a + (b + c))).take d))
      = (((m.drop pos).take a ++ (m.drop (pos + a)).take b) ++ (m.drop (pos + a + b)).take c)
          ++ (m.drop (pos + a + (b + c))).take d := by simp only [List.append_assoc]
    _ = (m.drop pos).take (a + b + c + d) := by rw [g1, g2, g3]
    _ = (m.drop pos).take (a + (b + c + d)) := by
      congr 1
      omega

/-- The accessors of an object whose arrays were extended by one entry. -/
theorem getD_snoc_lt {α : Type} (l : List α) (x d : α) (i : Nat) (h : i < l.length) :
    (l ++ [x]).getD i d = l.getD i d := by
  rw [List.getD_eq_getElem?_getD, List.getD_eq_getElem?_getD, List.getElem?_append_left h]

theorem getD_snoc_eq {α : Type} (l : List α) (x d : α) :
    (l ++ [x]).getD l.length d = x := by
  rw [List.getD_eq_getElem?_getD, List.getElem?_append_right (le_refl _)]
  simp

theorem readEntries_spec (mem : List Nat) (pos0 : Nat) : ∀ (n pos : Nat) (z : C_ZipFile)
    (m : Nat) (z1 : C_ZipFile), EntriesAt mem z m pos0 pos →
    readEntries mem n pos z = some z1 →
    (∃ pos1, EntriesAt mem z1 (m + n) pos0 pos1)
      ∧ z1.m_bOpenOK = z.m_bOpenOK ∧ z1.m_pZipMem = z.m_pZipMem ∧ z1.m_stCDEnd = z.m_stCDEnd
      ∧ z1.m_stCDEndReadable = z.m_stCDEndReadable ∧ z1.m_szZipComment = z.m_szZipComment
      ∧ z1.m_iNumFiles = z.m_iNumFiles := by
  intro n
  induction n with
  | zero =>
    intro pos z m z1 hE h
    simp only [readEntries, Option.some.injEq] at h
    subst h
    exact ⟨⟨pos, hE⟩, rfl, rfl, rfl, rfl, rfl, rfl⟩
  | succ n ih =>
    intro pos z m z1 hE h
    unfold readEntries at h
    cases hs0 : slice mem pos 46 with
    | none => rw [hs0] at h; exact absurd h (by simp)
    | some raw =>
      rw [hs0] at h
      dsimp only at h
      cases hs1 : slice mem (pos + 46) (decodeEntry mem pos).name_len with
      | none => rw [hs1] at h; exact absurd h (by simp)
      | some name =>
        cases hs2 : slice mem (pos + 46 + (decodeEntry mem pos).name_len)
            (decodeEntry mem pos).extra_len with
        | none => rw [hs1, hs2] at h; exact absurd h (by simp)
        | some extra =>
          cases hs3 : slice mem (pos + 46 + ((decodeEntry mem pos).name_len
              + (decodeEntry mem pos).extra_len)) (decodeEntry mem pos).comment_len with
          | none => rw [hs1, hs2, hs3] at h; exact absurd h (by simp)
          | some comment =>
            rw [hs1, hs2, hs3] at h
            dsimp only at h
            obtain ⟨b0, r0, l0⟩ := slice_eq_some _ _ _ _ hs0
            obtain ⟨b1, r1, l1⟩ := slice_eq_some _ _ _ _ hs1
            obtain ⟨b2, r2, l2⟩ := slice_eq_some _ _ _ _ hs2
            obtain ⟨b3, r3, l3⟩ := slice_eq_some _ _ _ _ hs3
            obtain ⟨e1, e2, e3, e4, e5, hent, hpos, hbound, hflat⟩ := hE
            have hdec : decodeEntry raw 0 = decodeEntry mem pos := by
              rw [r0]; exact decodeEntry_take_drop mem pos
            have hE1 : EntriesAt mem
                { z with
                  m_pCDEntries := z.m_pCDEntries ++ [raw]
                  m_pCDEntriesReadable := z.m_pCDEntriesReadable ++ [decodeEntry mem pos]
                  m_szFilenames := z.m_szFilenames ++ [name]
                  m_szExtra := z.m_szExtra ++ [extra]
                  m_szComments := z.m_szComments ++ [comment] } (m + 1) pos0
                (pos + 46 + ((decodeEntry mem pos).name_len + (decodeEntry mem pos).extra_len
                  + (decodeEntry mem pos).comment_len)) := by
              have acc : ∀ i, i < m + 1 →
                  (i < m ∧ (z.m_pCDEntries ++ [raw]).getD i [] = z.raw i
                    ∧ (z.m_pCDEntriesReadable ++ [decodeEntry mem pos]).getD i default
                        = z.readable i
                    ∧ (z.m_szFilenames ++ [name]).getD i [] = z.m_szFilenames.getD i []
                    ∧ (z.m_szExtra ++ [extra]).getD i [] = z.m_szExtra.getD i []
                    ∧ (z.m_szComments ++ [comment]).getD i [] = z.m_szComments.getD i [])
                  ∨ (i = m ∧ (z.m_pCDEntries ++ [raw]).getD i [] = raw
                    ∧ (z.m_pCDEntriesReadable ++ [decodeEntry mem pos]).getD i default
                        = decodeEntry mem pos
                    ∧ (z.m_szFilenames ++ [name]).getD i [] = name
                    ∧ (z.m_szExtra ++ [extra]).getD i [] = extra
                    ∧ (z.m_szComments ++ [comment]).getD i [] = comment) := by
                intro i hi
                by_cases him : i < m
                · left
                  exact ⟨him, getD_snoc_lt _ _ _ _ (by omega), getD_snoc_lt _ _ _ _ (by omega),
                    getD_snoc_lt _ _ _ _ (by omega), getD_snoc_lt _ _ _ _ (by omega),
                    getD_snoc_lt _ _ _ _ (by omega)⟩
                · right
                  have him2 : i = m := by omega
                  subst him2
                  refine ⟨rfl, ?_, ?_, ?_, ?_, ?_⟩
                  · rw [← e1]; exact getD_snoc_eq _ _ _
                  · rw [← e2]; exact getD_snoc_eq _ _ _
                  · rw [← e3]; exact getD_snoc_eq _ _ _
                  · rw [← e4]; exact getD_snoc_eq _ _ _
                  · rw [← e5]; exact getD_snoc_eq _ _ _
              refine ⟨by simp [e1], by simp [e2], by simp [e3], by simp [e4], by simp [e5],
                ?_, by omega, Or.inr (by omega), ?_⟩
              · intro i hi
                simp only [C_ZipFile.raw, C_ZipFile.readable]
                rcases acc i hi with ⟨him, a1, a2, a3, a4, a5⟩ | ⟨_, a1, a2, a3, a4, a5⟩
                · rw [a1, a2, a3, a4, a5]
                  exact hent i him
                · rw [a1, a2, a3, a4, a5]
                  exact ⟨l0, hdec.symm, l1, l2, l3⟩
              · rw [List.range_succ, List.map_append, List.flatten_append]
                have hold : (List.range m).map (fun i =>
                    ({ z with
                      m_pCDEntries := z.m_pCDEntries ++ [raw]
                      m_pCDEntriesReadable := z.m_pCDEntriesReadable ++ [decodeEntry mem pos]
                      m_szFilenames := z.m_szFilenames ++ [name]
                      m_szExtra := z.m_szExtra ++ [extra]
                      m_szComments := z.m_szComments ++ [comment] } : C_ZipFile).raw i
                      ++ ((z.m_szFilenames ++ [name]).getD i []
                      ++ ((z.m_szExtra ++ [extra]).getD i []
                      ++ (z.m_szComments ++ [comment]).getD i [])))
                    = (List.range m).map (fun i => z.raw i ++ (z.m_szFilenames.getD i []
                      ++ (z.m_szExtra.getD i [] ++ z.m_szComments.getD i []))) := by
                  apply List.map_congr_left
                  intro i hi
                  have him : i < m := List.mem_range.1 hi
                  rcases acc i (by omega) with ⟨_, a1, _, a3, a4, a5⟩ | ⟨h0, _⟩
                  · simp only [C_ZipFile.raw]
                    rw [a1, a3, a4, a5]
                    rfl
                  · omega
                rw [hold, hflat]
                rcases acc m (by omega) with ⟨h0, _⟩ | ⟨_, a1, _, a3, a4, a5⟩
                · omega
                · simp only [C_ZipFile.raw, List.map_cons, List.map_nil, List.flatten_cons,
                    List.flatten_nil, List.append_nil]
                  rw [a1, a3, a4, a5, r0, r1, r2, r3]
                  rw [take_drop_glue4]
                  have g0 := take_drop_glue mem pos0 pos
                    (46 + ((decodeEntry mem pos).name_len + (decodeEntry mem pos).extra_len
                      + (decodeEntry mem pos).comment_len)) hpos
                  rw [g0]
                  congr 1
                  omega
            obtain ⟨hx, y1, y2, y3, y4, y5, y6⟩ := ih _ _ (m + 1) z1 hE1 h
            refine ⟨?_, y1, y2, y3, y4, y5, y6⟩
            obtain ⟨pos1, hp⟩ := hx
            refine ⟨pos1, ?_⟩
            have : m + (n + 1) = m + 1 + n := by omega
            rw [this]
            exact hp

theorem scanLoop_found (mem : List Nat) (iSize : Nat) : ∀ (p : Nat) (z : C_ZipFile) (q : Nat)
    (z1 : C_ZipFile), scanLoop mem iSize p z = (some q, z1) →
    1 ≤ q ∧ q ≤ p ∧ q + 22 + (decodeEnd mem q).comment_len = iSize
      ∧ z1 = { z with
          m_stCDEnd := (mem.drop q).take 22
          m_stCDEndReadable := decodeEnd mem q
          m_szZipComment := (mem.drop (q + 22)).take (decodeEnd mem q).comment_len } := by
  intro p
  induction p with
  | zero =>
    intro z q z1 h
    simp [scanLoop] at h
  | succ p ih =>
    intro z q z1 h
    unfold scanLoop at h
    split at h
    · dsimp only at h
      split at h
      · rename_i _ hlen
        simp only [Prod.mk.injEq, Option.some.injEq] at h
        obtain ⟨hq, hz⟩ := h
        subst hq
        refine ⟨by omega, le_refl _, by simpa using hlen, hz.symm⟩
      · obtain ⟨a, b, c, d⟩ := ih _ q z1 h
        exact ⟨a, by omega, c, d⟩
    · obtain ⟨a, b, c, d⟩ := ih _ q z1 h
      exact ⟨a, by omega, c, d⟩

theorem EntriesAt_init (mem : List Nat) (z : C_ZipFile) (pos0 : Nat)
    (h1 : z.m_pCDEntries = []) (h2 : z.m_pCDEntriesReadable = []) (h3 : z.m_szFilenames = [])
    (h4 : z.m_szExtra = []) (h5 : z.m_szComments = []) : EntriesAt mem z 0 pos0 pos0 := by
  unfold EntriesAt
  rw [h1, h2, h3, h4, h5]
  refine ⟨rfl, rfl, rfl, rfl, rfl, ?_, le_refl _, Or.inl rfl, ?_⟩
  · intro i hi
    omega
  · simp

theorem openAfterScan_ok (mem : List Nat) (r : Option Nat × C_ZipFile) (z : C_ZipFile)
    (h : openAfterScan mem r = some (OpenStatus.ok, z)) :
    ∃ q z1 z2, r = (some q, z1)
      ∧ (z1.m_stCDEndReadable.num_discs = 0 ∧ z1.m_stCDEndReadable.cd_disc = 0
        ∧ z1.m_stCDEndReadable.cd_num = z1.m_stCDEndReadable.cd_tot_num)
      ∧ readEntries mem z1.m_stCDEndReadable.cd_num z1.m_stCDEndReadable.cd_start
          { z1 with m_iNumFiles := z1.m_stCDEndReadable.cd_num } = some z2
      ∧ z = { z2 with m_bOpenOK := true } := by
  obtain ⟨o, z1⟩ := r
  cases o with
  | none =>
    simp only [openAfterScan, Option.some.injEq, Prod.mk.injEq] at h
    exact absurd h.1 (by decide)
  | some q =>
    simp only [openAfterScan] at h
    split at h
    · simp only [Option.some.injEq, Prod.mk.injEq] at h
      exact absurd h.1 (by decide)
    · rename_i hvol
      split at h
      · exact absurd h (by simp)
      · rename_i z2 hread
        simp only [Option.some.injEq, Prod.mk.injEq, true_and] at h
        simp only [Bool.or_eq_true, bne_iff_ne, ne_eq, not_or, Decidable.not_not] at hvol
        exact ⟨q, z1, z2, rfl, ⟨hvol.1.1, hvol.1.2, hvol.2⟩, hread, h.symm⟩

/-- A successful `Open` returns an object read from the buffer. -/
theorem Open_openedFrom (file : List Nat) (z : C_ZipFile)
    (h : C_ZipFile.Open file = some (OpenStatus.ok, z)) :
    ∃ q, OpenedFrom (file.take (file.length % 4294967296)) z q := by
  unfold C_ZipFile.Open at h
  simp only [] at h
  obtain ⟨q, z1, z2, hscan, ⟨v1, v2, v3⟩, hread, h⟩ := openAfterScan_ok _ _ _ h
  have h := h.symm
  obtain ⟨hq1, _, hlen, hz1⟩ := scanLoop_found _ _ _ _ _ _ hscan
  have hmem : (file.take (file.length % 4294967296)).length
      = file.length % 4294967296 := by
    rw [List.length_take]
    exact Nat.min_eq_left (Nat.mod_le _ _)
  have hE0 : EntriesAt (file.take (file.length % 4294967296))
      { z1 with m_iNumFiles := z1.m_stCDEndReadable.cd_num } 0
      z1.m_stCDEndReadable.cd_start z1.m_stCDEndReadable.cd_start := by
    apply EntriesAt_init <;> (rw [hz1]; rfl)
  obtain ⟨⟨pos1, hE⟩, y1, y2, y3, y4, y5, y6⟩ := readEntries_spec _ _ _ _ _ _ _ hE0 hread
  subst h
  refine ⟨q, rfl, ?_, hq1, ?_, ?_, ?_, ?_, ?_, ?_, ?_, ?_, pos1, ?_⟩
  · show z2.m_pZipMem = _
    rw [y2, hz1]
  · show q + 22 + z2.m_stCDEndReadable.comment_len = _
    rw [y4, hmem]
    show q + 22 + z1.m_stCDEndReadable.comment_len = _
    rw [hz1]
    exact hlen
  · show z2.m_stCDEnd = _
    rw [y3]
    show z1.m_stCDEnd = _
    rw [hz1]
  · show z2.m_stCDEndReadable = _
    rw [y4]
    show z1.m_stCDEndReadable = _
    rw [hz1]
  · show z2.m_szZipComment = List.take z2.m_stCDEndReadable.comment_len _
    rw [y5, y4]
    show z1.m_szZipComment = List.take z1.m_stCDEndReadable.comment_len _
    rw [hz1]
  · show z2.m_iNumFiles = z2.m_stCDEndReadable.cd_num
    rw [y6, y4]
  · show z2.m_stCDEndReadable.num_discs = 0
    rw [y4]
    exact v1
  · show z2.m_stCDEndReadable.cd_disc = 0
    rw [y4]
    exact v2
  · show z2.m_stCDEndReadable.cd_num = z2.m_stCDEndReadable.cd_tot_num
    rw [y4]
    exact v3
  · have e6 : z2.m_iNumFiles = z1.m_stCDEndReadable.cd_num := y6
    have e4 : z2.m_stCDEndReadable = z1.m_stCDEndReadable := y4
    have hE2 : EntriesAt (file.take (file.length % 4294967296)) z2
        z2.m_iNumFiles z2.m_stCDEndReadable.cd_start pos1 := by
      rw [e6, e4]
      simpa using hE
    exact hE2

theorem OpenedFrom_coherent (mem : List Nat) (z : C_ZipFile) (q : Nat)
    (h : OpenedFrom mem z q) : Coherent z := by
  obtain ⟨hop, _, _, hlen, hend, _, hcom, _, _, _, _, pos1, hE⟩ := h
  obtain ⟨e1, e2, e3, e4, e5, hent, _, _, _⟩ := hE
  refine ⟨⟨hop, e1, e2, e3, e4, e5, ?_⟩, ?_, ?_, ?_⟩
  · intro raw hraw
    obtain ⟨i, hi, rfl⟩ := List.getElem_of_mem hraw
    have := (hent i (by omega)).1
    unfold C_ZipFile.raw at this
    rw [List.getD_eq_getElem _ _ hi] at this
    exact this
  · rw [hend, List.length_take, List.length_drop]
    omega
  · rw [hcom, List.length_take, List.length_drop]
    omega
  · intro i hi
    exact (hent i hi).2

/-- A successful `Open` establishes `Coherent` (and with it `Opened`). -/
theorem Open_coherent (file : List Nat) (z : C_ZipFile)
    (h : C_ZipFile.Open file = some (OpenStatus.ok, z)) : Coherent z := by
  obtain ⟨q, hq⟩ := Open_openedFrom file z h
  exact OpenedFrom_coherent _ z q hq

theorem Opened_withEnc (z : C_ZipFile) (k v : Nat) (h : Opened z) : Opened (z.withEnc k v) := by
  obtain ⟨h0, h1, h2, h3, h4, h5, h6⟩ := h
  refine ⟨h0, by simp [C_ZipFile.withEnc, h1], by simp [C_ZipFile.withEnc, h2], h3, h4, h5, ?_⟩
  intro raw hraw
  simp only [C_ZipFile.withEnc] at hraw
  obtain ⟨i, hi, rfl⟩ := List.getElem_of_mem hraw
  rw [List.getElem_modify]
  have hi2 : i < z.m_pCDEntries.length := by simpa using hi
  split
  · rw [length_encRaw]
    exact h6 _ (List.getElem_mem hi2)
  · exact h6 _ (List.getElem_mem hi2)

theorem readable_withEnc (z : C_ZipFile) (k v j : Nat) (hk : k < z.m_pCDEntriesReadable.length) :
    (z.withEnc k v).readable j = if j = k then encEntry v (z.readable k) else z.readable j := by
  unfold C_ZipFile.withEnc C_ZipFile.readable
  dsimp only
  by_cases hj : j = k
  · subst hj
    rw [if_pos rfl]
    exact getD_modify_self _ _ _ _ hk
  · rw [if_neg hj]
    exact getD_modify_other _ _ _ _ _ (Ne.symm hj)

theorem raw_withEnc (z : C_ZipFile) (k v j : Nat) (hk : k < z.m_pCDEntries.length) :
    (z.withEnc k v).raw j = if j = k then encRaw v (z.readable k) (z.raw k) else z.raw j := by
  unfold C_ZipFile.withEnc C_ZipFile.raw
  dsimp only
  by_cases hj : j = k
  · subst hj
    rw [if_pos rfl]
    exact getD_modify_self _ _ _ _ hk
  · rw [if_neg hj]
    exact getD_modify_other _ _ _ _ _ (Ne.symm hj)

theorem decodeEntry_encRaw_gen (v : Nat) (e : S_CentralDirectoryEntry) (raw : List Nat)
    (hl : raw.length = 46) (hv : v < 4294967296) :
    decodeEntry (encRaw v e raw) 0 = { decodeEntry raw 0 with
      ver := (e.ver &&& 0x00ff) ||| 0x0300
      ver_needed := (e.ver_needed &&& 0x00ff) ||| 0x0300
      ext_attrib := v } := by
  have hb := byteAt_encRaw v e raw hl
  have h4 := le16_encRaw_ver v e raw hl
  have h6 := le16_encRaw_ver_needed v e raw hl
  have h38 := le32_encRaw v e raw hl hv
  unfold decodeEntry
  simp only [Nat.zero_add, S_CentralDirectoryEntry.mk.injEq]
  refine ⟨?_, h4, h6, ?_, ?_, ?_, ?_, ?_, ?_, ?_, ?_, ?_, ?_, ?_, ?_, h38, ?_⟩ <;>
    simp [le16, le32, hb]

/-- Decoding the image after the stores of a mutator gives the updated header. -/
theorem decodeEntry_encRaw (v : Nat) (raw : List Nat) (hl : raw.length = 46)
    (hv : v < 4294967296) :
    decodeEntry (encRaw v (decodeEntry raw 0) raw) 0 = encEntry v (decodeEntry raw 0) := by
  rw [decodeEntry_encRaw_gen v _ raw hl hv]
  rfl

theorem Coherent_withEnc (z : C_ZipFile) (k v : Nat) (h : Coherent z) (hk : k < z.m_iNumFiles)
    (hv : v < 4294967296) : Coherent (z.withEnc k v) := by
  obtain ⟨hO, h1, h2, h3⟩ := h
  have hl := raw_length z k hO hk
  refine ⟨Opened_withEnc z k v hO, h1, h2, ?_⟩
  obtain ⟨_, e1, e2, _⟩ := hO
  intro i hi
  have hi2 : i < z.m_iNumFiles := hi
  rw [readable_withEnc z k v i (by omega), raw_withEnc z k v i (by omega)]
  by_cases hik : i = k
  · subst hik
    simp only [if_true]
    obtain ⟨c1, c2, c3, c4⟩ := h3 i hi2
    refine ⟨?_, c2, c3, c4⟩
    rw [c1]
    exact (decodeEntry_encRaw v _ hl hv).symm
  · simp only [hik, if_false]
    exact h3 i hi2

theorem normalize_found (z : C_ZipFile) (name : List Nat) (k : Nat)
    (hf : z.FindFileIndexInCD name = (k : Int)) (hk : k < z.m_pCDEntriesReadable.length)
    (hne : cstr name ≠ []) : z.normalize name = some (z.normAt name k) := by
  unfold C_ZipFile.normalize C_ZipFile.normAt
  rw [IsDirectory_found z name k hf hne, IsExecutable_found z name k hf,
    SetDirectory_found z name k hk hf, SetNormal_found z name k hk hf]
  unfold dirLike execLike
  generalize (endsInSlash name || (z.readable k).ext_attrib &&& 16 == 16
    || (z.readable k).ext_attrib &&& 4294901760 == 1106051072) = d
  generalize ((z.readable k).ver &&& 65280 == 768 && (z.readable k).ver_needed &&& 65280 == 768
    && (z.readable k).ext_attrib &&& 4294901760 == 2179792896) = x
  cases d <;> cases x <;> rfl

theorem sameLayout_refl (z : C_ZipFile) : sameLayout z z := by
  refine ⟨rfl, rfl, rfl, rfl, rfl, rfl, rfl, rfl, ?_⟩
  intro j
  refine ⟨rfl, fun _ _ => rfl, ?_⟩
  simp [sameOutsideAttrs]

theorem sameLayout_trans (a b c : C_ZipFile) (h1 : sameLayout a b) (h2 : sameLayout b c) :
    sameLayout a c := by
  obtain ⟨a1, a2, a3, a4, a5, a6, a7, a8, a9⟩ := h1
  obtain ⟨b1, b2, b3, b4, b5, b6, b7, b8, b9⟩ := h2
  refine ⟨b1.trans a1, b2.trans a2, b3.trans a3, b4.trans a4, b5.trans a5, b6.trans a6,
    b7.trans a7, b8.trans a8, ?_⟩
  intro j
  obtain ⟨x1, x2, x3⟩ := a9 j
  obtain ⟨y1, y2, y3⟩ := b9 j
  refine ⟨y1.trans x1, fun b hb => (y2 b hb).trans (x2 b hb), ?_⟩
  unfold sameOutsideAttrs at *
  obtain ⟨p1, p2, p3, p4, p5, p6, p7, p8, p9, p10, p11, p12, p13, p14⟩ := x3
  obtain ⟨q1, q2, q3, q4, q5, q6, q7, q8, q9, q10, q11, q12, q13, q14⟩ := y3
  exact ⟨q1.trans p1, q2.trans p2, q3.trans p3, q4.trans p4, q5.trans p5, q6.trans p6,
    q7.trans p7, q8.trans p8, q9.trans p9, q10.trans p10, q11.trans p11, q12.trans p12,
    q13.trans p13, q14.trans p14⟩

theorem sameLayout_withEnc (z : C_ZipFile) (k v : Nat) (h : Opened z) (hk : k < z.m_iNumFiles) :
    sameLayout z (z.withEnc k v) := by
  have hl := raw_length z k h hk
  obtain ⟨_, e1, e2, _⟩ := h
  refine ⟨rfl, rfl, rfl, rfl, rfl, rfl, rfl, rfl, ?_⟩
  intro j
  rw [readable_withEnc z k v j (by omega), raw_withEnc z k v j (by omega)]
  by_cases hj : j = k
  · subst hj
    simp only [if_true]
    refine ⟨length_encRaw _ _ _, ?_, by simp [sameOutsideAttrs, encEntry]⟩
    intro b hb
    rw [byteAt_encRaw v _ _ hl]
    simp only [attrOffset, Bool.or_eq_false_iff, Bool.and_eq_false_iff,
      decide_eq_false_iff_not] at hb
    split_ifs <;> first | rfl | omega
  · rw [if_neg hj, if_neg hj]
    exact ⟨rfl, fun _ _ => rfl, by simp [sameOutsideAttrs]⟩

/-- The normalisation step keeps `Coherent` and the layout. -/
theorem normAt_keeps (z : C_ZipFile) (name : List Nat) (k : Nat) (h : Coherent z)
    (hk : k < z.m_iNumFiles) :
    Coherent (z.normAt name k) ∧ sameLayout z (z.normAt name k) := by
  unfold C_ZipFile.normAt
  split
  · exact ⟨Coherent_withEnc z k _ h hk (by norm_num), sameLayout_withEnc z k _ h.1 hk⟩
  · split
    · exact ⟨h, sameLayout_refl z⟩
    · exact ⟨Coherent_withEnc z k _ h hk (by norm_num), sameLayout_withEnc z k _ h.1 hk⟩

theorem slice_zero (m : List Nat) (len : Nat) (h : len ≤ m.length) :
    slice m 0 len = some (m.take len) := by
  unfold slice
  rw [if_pos (by omega)]
  simp

/-- The result of `Save` when the output file can be created and every write succeeds, for
an invariant `P` of the normalisation steps (see `saveLoop_spec`). -/
theorem Save_spec (z : C_ZipFile) (fwriteOk : Nat → Bool) (hw : ∀ n, fwriteOk n = true)
    (P : Nat → C_ZipFile → Prop) (Q : Nat → List Nat → Prop) (T : Nat → List Nat)
    (hstep : ∀ i zc, i < z.m_iNumFiles → P i zc →
      ∃ z1, zc.normalize (zc.m_szFilenames.getD i []) = some z1 ∧ P (i + 1) z1
        ∧ Q i (z1.raw i) ∧ z1.emitTail i = T i)
    (hopen : z.m_bOpenOK = true) (hP : P 0 z)
    (hcd : z.m_stCDEndReadable.cd_start ≤ z.m_pZipMem.length) :
    ∃ (z1 : C_ZipFile) (H : Nat → List Nat),
      z.Save true fwriteOk = some ((true, z.m_pZipMem.take z.m_stCDEndReadable.cd_start
          ++ ((List.range z.m_iNumFiles).map (fun t => H t ++ T t)).flatten
          ++ z1.m_stCDEnd ++ z1.m_szZipComment.take z1.m_stCDEndReadable.comment_len), z1)
        ∧ P z.m_iNumFiles z1 ∧ ∀ t, t < z.m_iNumFiles → Q t (H t) := by
  obtain ⟨z1, H, hs, hP1, hQ⟩ := saveLoop_spec fwriteOk hw P Q T z.m_iNumFiles hstep
    z.m_iNumFiles 0 z (z.m_pZipMem.take z.m_stCDEndReadable.cd_start) (by omega) hP
  refine ⟨z1, H, ?_, by simpa using hP1, fun t ht => hQ t (Nat.zero_le _) (by omega)⟩
  unfold C_ZipFile.Save
  rw [hopen, slice_zero _ _ hcd]
  simp only [Bool.not_true, Bool.false_eq_true, if_false, if_true]
  rw [Write_ok fwriteOk hw, List.nil_append, hs]
  simp only [writeIf_ok fwriteOk hw]
  rw [List.range_eq_range']

theorem take_of_length_eq (l : List Nat) (n : Nat) (h : l.length = n) : l.take n = l := by
  rw [← h]
  exact List.take_length l

/-- One normalisation step of `Save` on a coherent object whose names are not
empty: it is defined, keeps coherence and the layout, and afterwards the
image of every entry has its 46 bytes. -/
theorem normalize_step (z zc : C_ZipFile) (i : Nat) (hne : z.namesNonEmpty)
    (hi : i < z.m_iNumFiles) (hc : Coherent zc) (hl : sameLayout z zc) :
    ∃ k, k < zc.m_iNumFiles ∧ zc.FindFileIndexInCD (zc.m_szFilenames.getD i []) = (k : Int)
      ∧ zc.normalize (zc.m_szFilenames.getD i [])
          = some (zc.normAt (zc.m_szFilenames.getD i []) k)
      ∧ Coherent (zc.normAt (zc.m_szFilenames.getD i []) k)
      ∧ sameLayout z (zc.normAt (zc.m_szFilenames.getD i []) k) := by
  have hn : zc.m_iNumFiles = z.m_iNumFiles := hl.2.2.2.1
  have hnames : zc.m_szFilenames = z.m_szFilenames := hl.1
  have hlen : zc.m_szFilenames.length = zc.m_iNumFiles := hc.1.2.2.2.1
  have hpres : zc.present (zc.m_szFilenames.getD i []) := by
    refine ⟨zc.m_szFilenames.getD i [], ?_, rfl⟩
    rw [List.getD_eq_getElem _ _ (by omega)]
    exact List.getElem_mem _
  obtain ⟨k, hf, hk, _, _⟩ := find_present zc _ hc.1 hpres
  have hk2 : k < zc.m_pCDEntriesReadable.length := by
    have := hc.1.2.2.1
    omega
  have hne2 : cstr (zc.m_szFilenames.getD i []) ≠ [] := by
    rw [hnames]
    exact hne i hi
  obtain ⟨c1, c2⟩ := normAt_keeps zc (zc.m_szFilenames.getD i []) k hc hk
  exact ⟨k, hk, hf, normalize_found zc _ k hf hk2 hne2, c1, sameLayout_trans _ _ _ hl c2⟩

theorem emitTail_coherent (z : C_ZipFile) (i : Nat) (h : Coherent z) (hi : i < z.m_iNumFiles) :
    z.emitTail i = z.m_szFilenames.getD i []
      ++ (z.m_szExtra.getD i [] ++ z.m_szComments.getD i []) := by
  obtain ⟨_, c2, c3, c4⟩ := h.2.2.2 i hi
  unfold C_ZipFile.emitTail
  rw [take_of_length_eq _ _ c2, take_of_length_eq _ _ c3, take_of_length_eq _ _ c4]

/-! ## C5: the layout of the output -/

/-- C5 (amended): on a coherent opened object whose central-directory offset
lies inside the buffer and whose stored names are not empty, when the output
file can be created and every write succeeds, `Save` returns true and the
output is, in this order, the first `cd_start` bytes of the buffer, for each
entry a 46-byte header (equal to the entry's image outside the version and
attribute offsets) followed by the entry's name, extra and comment with their
declared lengths, the 22-byte end record as read, and the archive comment. So
the first `cd_start` bytes of the output are those of the buffer, and the
output has `cd_start + sum (46 + name_len + extra_len + comment_len) + 22 +
comment_len` bytes. -/
theorem save_layout (z : C_ZipFile) (fwriteOk : Nat → Bool) (hw : ∀ n, fwriteOk n = true)
    (h : Coherent z) (hne : z.namesNonEmpty)
    (hcd : z.m_stCDEndReadable.cd_start ≤ z.m_pZipMem.length) :
    ∃ (z1 : C_ZipFile) (H : Nat → List Nat) (out : List Nat),
      z.Save true fwriteOk = some ((true, out), z1)
        ∧ out = z.m_pZipMem.take z.m_stCDEndReadable.cd_start ++ z.cdBody H
            ++ z.m_stCDEnd ++ z.m_szZipComment
        ∧ (∀ i, i < z.m_iNumFiles → (H i).length = 46
            ∧ ∀ b, attrOffset b = false → byteAt (H i) b = byteAt (z.raw i) b)
        ∧ (∀ i, i < z.m_iNumFiles →
            (z.m_szFilenames.getD i []).length = (z.readable i).name_len
            ∧ (z.m_szExtra.getD i []).length = (z.readable i).extra_len
            ∧ (z.m_szComments.getD i []).length = (z.readable i).comment_len)
        ∧ z.m_stCDEnd.length = 22
        ∧ z.m_szZipComment.length = z.m_stCDEndReadable.comment_len
        ∧ out.take z.m_stCDEndReadable.cd_start
            = z.m_pZipMem.take z.m_stCDEndReadable.cd_start
        ∧ out.length = z.m_stCDEndReadable.cd_start + z.cdLength + 22
            + z.m_stCDEndReadable.comment_len := by
  obtain ⟨z1, H, hs, ⟨hc1, hl1⟩, hQ⟩ := Save_spec z fwriteOk hw
    (fun _ zc => Coherent zc ∧ sameLayout z zc)
    (fun i hdr => hdr.length = 46
      ∧ ∀ b, attrOffset b = false → byteAt hdr b = byteAt (z.raw i) b)
    (fun i => z.m_szFilenames.getD i [] ++ (z.m_szExtra.getD i [] ++ z.m_szComments.getD i []))
    (by
      intro i zc hi ⟨hc, hl⟩
      obtain ⟨k, _, _, hnorm, c1, c2⟩ := normalize_step z zc i hne hi hc hl
      refine ⟨_, hnorm, ⟨c1, c2⟩, ⟨?_, ?_⟩, ?_⟩
      · rw [(c2.2.2.2.2.2.2.2.2 i).1]
        exact raw_length z i h.1 hi
      · exact (c2.2.2.2.2.2.2.2.2 i).2.1
      · rw [emitTail_coherent _ i c1 (by rw [c2.2.2.2.1]; exact hi), c2.1, c2.2.1, c2.2.2.1])
    h.1.1 ⟨h, sameLayout_refl z⟩ hcd
  have hend : z1.m_stCDEnd = z.m_stCDEnd := hl1.2.2.2.2.1
  have hre : z1.m_stCDEndReadable = z.m_stCDEndReadable := hl1.2.2.2.2.2.1
  have hcm : z1.m_szZipComment = z.m_szZipComment := hl1.2.2.2.2.2.2.1
  rw [hend, hre, hcm, take_of_length_eq _ _ h.2.2.1] at hs
  have hpre : (z.m_pZipMem.take z.m_stCDEndReadable.cd_start).length
      = z.m_stCDEndReadable.cd_start := by
    rw [List.length_take]
    omega
  have hbody : (z.cdBody H).length = z.cdLength := by
    unfold C_ZipFile.cdBody C_ZipFile.cdLength
    rw [List.length_flatten, List.map_map]
    congr 1
    apply List.map_congr_left
    intro i hi
    have hi2 : i < z.m_iNumFiles := List.mem_range.1 hi
    obtain ⟨_, c2, c3, c4⟩ := h.2.2.2 i hi2
    simp only [Function.comp, List.length_append, (hQ i hi2).1, c2, c3, c4]
    omega
  refine ⟨z1, H, _, hs, rfl, hQ, fun i hi => (h.2.2.2 i hi).2, h.2.1, h.2.2.1, ?_, ?_⟩
  · rw [List.append_assoc, List.append_assoc, List.take_left' hpre]
  · simp only [List.length_append, hpre, h.2.1, h.2.2.1]
    unfold C_ZipFile.cdBody at hbody
    rw [hbody]

set_option maxRecDepth 1000000 in
theorem demo_coherent : Coherent demoModel := by
  decide

set_option maxRecDepth 1000000 in
/-- C5 (amended) at the sample archive. -/
theorem save_layout_witness :
    (∀ n, allWritesOk n = true) ∧ Coherent demoModel ∧ demoModel.namesNonEmpty
      ∧ demoModel.m_stCDEndReadable.cd_start ≤ demoModel.m_pZipMem.length
      ∧ ∃ (z1 : C_ZipFile) (H : Nat → List Nat) (out : List Nat),
        demoModel.Save true allWritesOk = some ((true, out), z1)
          ∧ out = demoModel.m_pZipMem.take demoModel.m_stCDEndReadable.cd_start
              ++ demoModel.cdBody H ++ demoModel.m_stCDEnd ++ demoModel.m_szZipComment
          ∧ (∀ i, i < demoModel.m_iNumFiles → (H i).length = 46
              ∧ ∀ b, attrOffset b = false → byteAt (H i) b = byteAt (demoModel.raw i) b)
          ∧ (∀ i, i < demoModel.m_iNumFiles →
              (demoModel.m_szFilenames.getD i []).length = (demoModel.readable i).name_len
              ∧ (demoModel.m_szExtra.getD i []).length = (demoModel.readable i).extra_len
              ∧ (demoModel.m_szComments.getD i []).length
                  = (demoModel.readable i).comment_len)
          ∧ demoModel.m_stCDEnd.length = 22
          ∧ demoModel.m_szZipComment.length = demoModel.m_stCDEndReadable.comment_len
          ∧ out.take demoModel.m_stCDEndReadable.cd_start
              = demoModel.m_pZipMem.take demoModel.m_stCDEndReadable.cd_start
          ∧ out.length = demoModel.m_stCDEndReadable.cd_start + demoModel.cdLength + 22
              + demoModel.m_stCDEndReadable.comment_len :=
  ⟨fun _ => rfl, demo_coherent, by decide, by decide,
    save_layout demoModel allWritesOk (fun _ => rfl) demo_coherent (by decide) (by decide)⟩

set_option maxRecDepth 1000000 in
/-- C5 as stated fails: `badOffsetZip` opens, its central-directory offset
(100) lies outside the 23-byte buffer, and `Save` has no defined output: its
first write reads 100 bytes from the buffer. -/
theorem save_layout_fails_outside_buffer :
    C_ZipFile.Open badOffsetZip = some (OpenStatus.ok, badOffsetModel)
      ∧ badOffsetModel.m_stCDEndReadable.cd_start = 100 ∧ badOffsetModel.m_pZipMem.length = 23
      ∧ badOffsetModel.Save true allWritesOk = none := by
  decide

/-! ## C3: the normalisation in `Save` -/

theorem find_distinct (z : C_ZipFile) (i : Nat) (h : Opened z) (hd : z.namesDistinct)
    (hi : i < z.m_iNumFiles) : z.FindFileIndexInCD (z.m_szFilenames.getD i []) = (i : Int) := by
  have hlen : z.m_szFilenames.length = z.m_iNumFiles := h.2.2.2.1
  have hpres : z.present (z.m_szFilenames.getD i []) := by
    refine ⟨z.m_szFilenames.getD i [], ?_, rfl⟩
    rw [List.getD_eq_getElem _ _ (by omega)]
    exact List.getElem_mem _
  obtain ⟨k, hf, hk, hc, _⟩ := find_present z _ h hpres
  have : k = i := hd k hk i hi hc
  rw [hf, this]

theorem readable_normAt (z : C_ZipFile) (name : List Nat) (k j : Nat)
    (hk : k < z.m_pCDEntriesReadable.length) :
    (z.normAt name k).readable j
      = if j = k then normEntryOf name (z.readable k) else z.readable j := by
  unfold C_ZipFile.normAt normEntryOf
  by_cases hj : j = k
  · subst hj
    simp only [if_true]
    split
    · rw [readable_withEnc z j _ j hk, if_pos rfl]
    · split
      · rfl
      · rw [readable_withEnc z j _ j hk, if_pos rfl]
  · simp only [hj, if_false]
    split
    · rw [readable_withEnc z k _ j hk, if_neg hj]
    · split
      · rfl
      · rw [readable_withEnc z k _ j hk, if_neg hj]

theorem raw_normAt (z : C_ZipFile) (name : List Nat) (k j : Nat)
    (hk : k < z.m_pCDEntries.length) :
    (z.normAt name k).raw j
      = if j = k then normRawOf name (z.readable k) (z.raw k) else z.raw j := by
  unfold C_ZipFile.normAt normRawOf
  by_cases hj : j = k
  · subst hj
    simp only [if_true]
    split
    · rw [raw_withEnc z j _ j hk, if_pos rfl]
    · split
      · rfl
      · rw [raw_withEnc z j _ j hk, if_pos rfl]
  · simp only [hj, if_false]
    split
    · rw [raw_withEnc z k _ j hk, if_neg hj]
    · split
      · rfl
      · rw [raw_withEnc z k _ j hk, if_neg hj]

/-- The result of `Save` on a coherent object with distinct non-empty names and the central
directory inside the buffer: the output and the object afterwards. -/
theorem Save_distinct (z : C_ZipFile) (fwriteOk : Nat → Bool) (hw : ∀ n, fwriteOk n = true)
    (h : Coherent z) (hne : z.namesNonEmpty) (hd : z.namesDistinct)
    (hcd : z.m_stCDEndReadable.cd_start ≤ z.m_pZipMem.length) :
    ∃ z1 : C_ZipFile,
      z.Save true fwriteOk = some ((true, z.m_pZipMem.take z.m_stCDEndReadable.cd_start
          ++ z.cdBody z.emittedHeader ++ z.m_stCDEnd ++ z.m_szZipComment), z1)
        ∧ normalizedBelow z z.m_iNumFiles z1 := by
  obtain ⟨z1, H, hs, hP, hQ⟩ := Save_spec z fwriteOk hw (normalizedBelow z)
    (fun i hdr => hdr = z.emittedHeader i)
    (fun i => z.m_szFilenames.getD i [] ++ (z.m_szExtra.getD i [] ++ z.m_szComments.getD i []))
    (by
      intro i zc hi ⟨hc, hl, hinv⟩
      obtain ⟨k, hk, hf, hnorm, c1, c2⟩ := normalize_step z zc i hne hi hc hl
      have hn : zc.m_iNumFiles = z.m_iNumFiles := hl.2.2.2.1
      have hnames : zc.m_szFilenames = z.m_szFilenames := hl.1
      have hdc : zc.namesDistinct := by
        unfold C_ZipFile.namesDistinct
        rw [hn, hnames]
        exact hd
      have hki : k = i := by
        have := find_distinct zc i hc.1 hdc (by omega)
        rw [hf] at this
        exact_mod_cast this
      subst hki
      have hk1 : k < zc.m_pCDEntries.length := by have := hc.1.2.1; omega
      have hk2 : k < zc.m_pCDEntriesReadable.length := by have := hc.1.2.2.1; omega
      have hraw : ∀ j, (zc.normAt (zc.m_szFilenames.getD k []) k).raw j
          = if j = k then z.emittedHeader k else zc.raw j := by
        intro j
        rw [raw_normAt zc _ k j hk1, hnames, ((hinv k hi).2 (le_refl _)).1,
          ((hinv k hi).2 (le_refl _)).2]
        rfl
      have hrd : ∀ j, (zc.normAt (zc.m_szFilenames.getD k []) k).readable j
          = if j = k then normEntryOf (z.m_szFilenames.getD k []) (z.readable k)
            else zc.readable j := by
        intro j
        rw [readable_normAt zc _ k j hk2, hnames, ((hinv k hi).2 (le_refl _)).2]
      refine ⟨_, hnorm, ⟨c1, c2, ?_⟩, ?_, ?_⟩
      · intro j hj
        rw [hraw j, hrd j]
        by_cases hjk : j = k
        · subst hjk
          rw [if_pos rfl, if_pos rfl]
          exact ⟨fun _ => ⟨rfl, rfl⟩, fun hle => absurd hle (by omega)⟩
        · rw [if_neg hjk, if_neg hjk]
          exact ⟨fun hlt => (hinv j hj).1 (by omega), fun hle => (hinv j hj).2 (by omega)⟩
      · show (zc.normAt (zc.m_szFilenames.getD k []) k).raw k = z.emittedHeader k
        rw [hraw k, if_pos rfl]
      · rw [emitTail_coherent _ k c1 (by rw [c2.2.2.2.1]; exact hi), c2.1, c2.2.1, c2.2.2.1])
    h.1.1 ⟨h, sameLayout_refl z, fun j _ => ⟨fun hlt => absurd hlt (by omega),
      fun _ => ⟨rfl, rfl⟩⟩⟩ hcd
  have hl1 := hP.2.1
  have hend : z1.m_stCDEnd = z.m_stCDEnd := hl1.2.2.2.2.1
  have hre : z1.m_stCDEndReadable = z.m_stCDEndReadable := hl1.2.2.2.2.2.1
  have hcm : z1.m_szZipComment = z.m_szZipComment := hl1.2.2.2.2.2.2.1
  rw [hend, hre, hcm, take_of_length_eq _ _ h.2.2.1] at hs
  have hbody : ((List.range z.m_iNumFiles).map (fun t => H t ++ (z.m_szFilenames.getD t []
      ++ (z.m_szExtra.getD t [] ++ z.m_szComments.getD t [])))).flatten
      = z.cdBody z.emittedHeader := by
    unfold C_ZipFile.cdBody
    congr 1
    apply List.map_congr_left
    intro t ht
    rw [hQ t (List.mem_range.1 ht)]
  rw [hbody] at hs
  exact ⟨z1, hs, hP⟩

theorem le16_raw_ver (z : C_ZipFile) (i : Nat) (h : Coherent z) (hi : i < z.m_iNumFiles) :
    le16 (z.raw i) 4 = (z.readable i).ver ∧ le16 (z.raw i) 6 = (z.readable i).ver_needed
      ∧ le32 (z.raw i) 38 = (z.readable i).ext_attrib := by
  have := (h.2.2.2 i hi).1
  rw [this]
  simp [decodeEntry]

/-- The version and attribute fields of the header emitted for an entry. -/
theorem emittedHeader_fields (z : C_ZipFile) (i : Nat) (h : Coherent z)
    (hi : i < z.m_iNumFiles) :
    le16 (z.emittedHeader i) 4 &&& 0xff00 = 0x0300
      ∧ le16 (z.emittedHeader i) 6 &&& 0xff00 = 0x0300
      ∧ (dirLike (z.m_szFilenames.getD i []) (z.readable i) = true →
          le32 (z.emittedHeader i) 38 = 0x41ed0010)
      ∧ (dirLike (z.m_szFilenames.getD i []) (z.readable i) = false →
          execLike (z.readable i) = false → le32 (z.emittedHeader i) 38 = 0x81a40020)
      ∧ (dirLike (z.m_szFilenames.getD i []) (z.readable i) = false →
          execLike (z.readable i) = true → z.emittedHeader i = z.raw i) := by
  have hl := raw_length z i h.1 hi
  obtain ⟨r4, r6, _⟩ := le16_raw_ver z i h hi
  unfold C_ZipFile.emittedHeader normRawOf
  by_cases hd : dirLike (z.m_szFilenames.getD i []) (z.readable i) = true
  · rw [if_pos hd, le16_encRaw_ver _ _ _ hl, le16_encRaw_ver_needed _ _ _ hl,
      le32_encRaw _ _ _ hl (by norm_num)]
    refine ⟨unixVer_hi _, unixVer_hi _, fun _ => rfl, fun hf => ?_, fun hf => ?_⟩
    · rw [hd] at hf; exact absurd hf (by simp)
    · rw [hd] at hf; exact absurd hf (by simp)
  · rw [if_neg hd]
    by_cases hx : execLike (z.readable i) = true
    · rw [if_pos hx, r4, r6]
      have hx2 := hx
      unfold execLike at hx2
      simp only [Bool.and_eq_true, beq_iff_eq] at hx2
      refine ⟨hx2.1.1, hx2.1.2, fun hf => absurd hf hd, fun _ hf => ?_, fun _ _ => rfl⟩
      rw [hx] at hf
      exact absurd hf (by simp)
    · rw [if_neg hx, le16_encRaw_ver _ _ _ hl, le16_encRaw_ver_needed _ _ _ hl,
        le32_encRaw _ _ _ hl (by norm_num)]
      refine ⟨unixVer_hi _, unixVer_hi _, fun hf => absurd hf hd, fun _ _ => rfl,
        fun _ hf => absurd hf hx⟩

/-- C3 (amended): on a coherent opened object whose names are distinct and not
empty and whose central directory lies inside the buffer, when every write
succeeds `Save` returns true and its output holds, for every entry `i`, a
header (`emittedHeader i`, at the place of entry `i` in the central directory)
with version-made-by and version-needed high bytes `0x03` and with external
attributes `0x41ED0010` if the entry classified as Directory before the save,
`0x81A40020` if it classified as neither Directory nor Executable, and equal to
the entry's image before the save if it classified as Executable and not
Directory. -/
theorem save_normalizes_entries (z : C_ZipFile) (fwriteOk : Nat → Bool)
    (hw : ∀ n, fwriteOk n = true) (h : Coherent z) (hne : z.namesNonEmpty)
    (hd : z.namesDistinct) (hcd : z.m_stCDEndReadable.cd_start ≤ z.m_pZipMem.length) :
    ∃ (z1 : C_ZipFile) (out : List Nat),
      z.Save true fwriteOk = some ((true, out), z1)
        ∧ out = z.m_pZipMem.take z.m_stCDEndReadable.cd_start ++ z.cdBody z.emittedHeader
            ++ z.m_stCDEnd ++ z.m_szZipComment
        ∧ ∀ i, i < z.m_iNumFiles →
          le16 (z.emittedHeader i) 4 &&& 0xff00 = 0x0300
            ∧ le16 (z.emittedHeader i) 6 &&& 0xff00 = 0x0300
            ∧ (z.IsDirectory (z.m_szFilenames.getD i []) = some true →
                le32 (z.emittedHeader i) 38 = 0x41ed0010)
            ∧ (z.IsDirectory (z.m_szFilenames.getD i []) = some false →
                z.IsExecutable (z.m_szFilenames.getD i []) = false →
                le32 (z.emittedHeader i) 38 = 0x81a40020)
            ∧ (z.IsDirectory (z.m_szFilenames.getD i []) = some false →
                z.IsExecutable (z.m_szFilenames.getD i []) = true →
                z.emittedHeader i = z.raw i)
            ∧ (z.IsDirectory (z.m_szFilenames.getD i []) = some true
                ∨ z.IsDirectory (z.m_szFilenames.getD i []) = some false) := by
  obtain ⟨z1, hs, _⟩ := Save_distinct z fwriteOk hw h hne hd hcd
  refine ⟨z1, _, hs, rfl, ?_⟩
  intro i hi
  have hf := find_distinct z i h.1 hd hi
  have hD : z.IsDirectory (z.m_szFilenames.getD i [])
      = some (dirLike (z.m_szFilenames.getD i []) (z.readable i)) :=
    IsDirectory_found z _ i hf (hne i hi)
  have hX : z.IsExecutable (z.m_szFilenames.getD i []) = execLike (z.readable i) :=
    IsExecutable_found z _ i hf
  obtain ⟨f1, f2, f3, f4, f5⟩ := emittedHeader_fields z i h hi
  rw [hD, hX]
  refine ⟨f1, f2, fun hh => f3 (Option.some.inj hh), fun hh => f4 (Option.some.inj hh),
    fun hh => f5 (Option.some.inj hh), ?_⟩
  cases dirLike (z.m_szFilenames.getD i []) (z.readable i)
  · right; rfl
  · left; rfl

set_option maxRecDepth 1000000 in
/-- C3 (amended) at the sample archive. -/
theorem save_normalizes_entries_witness :
    (∀ n, allWritesOk n = true) ∧ Coherent demoModel ∧ demoModel.namesNonEmpty
      ∧ demoModel.namesDistinct
      ∧ demoModel.m_stCDEndReadable.cd_start ≤ demoModel.m_pZipMem.length
      ∧ ∃ (z1 : C_ZipFile) (out : List Nat),
        demoModel.Save true allWritesOk = some ((true, out), z1)
          ∧ out = demoModel.m_pZipMem.take demoModel.m_stCDEndReadable.cd_start
              ++ demoModel.cdBody demoModel.emittedHeader
              ++ demoModel.m_stCDEnd ++ demoModel.m_szZipComment
          ∧ ∀ i, i < demoModel.m_iNumFiles →
            le16 (demoModel.emittedHeader i) 4 &&& 0xff00 = 0x0300
              ∧ le16 (demoModel.emittedHeader i) 6 &&& 0xff00 = 0x0300
              ∧ (demoModel.IsDirectory (demoModel.m_szFilenames.getD i []) = some true →
                  le32 (demoModel.emittedHeader i) 38 = 0x41ed0010)
              ∧ (demoModel.IsDirectory (demoModel.m_szFilenames.getD i []) = some false →
                  demoModel.IsExecutable (demoModel.m_szFilenames.getD i []) = false →
                  le32 (demoModel.emittedHeader i) 38 = 0x81a40020)
              ∧ (demoModel.IsDirectory (demoModel.m_szFilenames.getD i []) = some false →
                  demoModel.IsExecutable (demoModel.m_szFilenames.getD i []) = true →
                  demoModel.emittedHeader i = demoModel.raw i)
              ∧ (demoModel.IsDirectory (demoModel.m_szFilenames.getD i []) = some true
                  ∨ demoModel.IsDirectory (demoModel.m_szFilenames.getD i []) = some false) :=
  ⟨fun _ => rfl, demo_coherent, by decide, by decide, by decide,
    save_normalizes_entries demoModel allWritesOk (fun _ => rfl) demo_coherent (by decide)
      (by decide) (by decide)⟩

set_option maxRecDepth 1000000 in
/-- C3 as stated fails: in `dupZip` both entries are named `a` and classify as
neither Directory nor Executable, and after `Save` the header of the second
entry (at offset 109 of the output) still has version-made-by 20 (high byte
`0x00`) and external attributes `0x20`: the normalisation looks entries up by
name and so reaches the first of them only. -/
theorem save_skips_second_duplicate :
    C_ZipFile.Open dupZip = some (OpenStatus.ok, dupModel)
      ∧ dupModel.m_szFilenames = [[97], [97]]
      ∧ dupModel.IsDirectory [97] = some false ∧ dupModel.IsExecutable [97] = false
      ∧ (dupModel.Save true allWritesOk).map
          (fun r => (r.1.1, le16 r.1.2 (109 + 4), le32 r.1.2 (109 + 38)))
        = some (true, 20, 0x20) := by
  decide

/-! ## C2: `FixZipFlags` end to end -/

theorem endsInSlash_congr (a b : List Nat) (h : cstr a = cstr b) :
    endsInSlash a = endsInSlash b := by
  unfold endsInSlash
  rw [h]

theorem find_withEnc (z : C_ZipFile) (k v : Nat) (name : List Nat) :
    (z.withEnc k v).FindFileIndexInCD name = z.FindFileIndexInCD name := rfl

theorem find_of_sameLayout (z zc : C_ZipFile) (name : List Nat) (h : sameLayout z zc)
    (ho : zc.m_bOpenOK = z.m_bOpenOK) :
    zc.FindFileIndexInCD name = z.FindFileIndexInCD name := by
  unfold C_ZipFile.FindFileIndexInCD
  rw [h.1, h.2.2.2.1, ho]

theorem execLike_encEntry_exec (e : S_CentralDirectoryEntry) :
    execLike (encEntry 0x81ed0020 e) = true := by
  unfold execLike encEntry
  simp only [unixVer_hi]
  decide

theorem dirLike_encEntry_exec (name : List Nat) (e : S_CentralDirectoryEntry) :
    dirLike name (encEntry 0x81ed0020 e) = endsInSlash name := by
  unfold dirLike encEntry
  dsimp only
  cases endsInSlash name <;> decide

theorem dirLike_encEntry_dir (name : List Nat) (e : S_CentralDirectoryEntry) :
    dirLike name (encEntry 0x41ed0010 e) = true := by
  unfold dirLike encEntry
  dsimp only
  cases endsInSlash name <;> decide

theorem execLike_of_not_tagged (e : S_CentralDirectoryEntry) (h : ¬ unixTagged e) :
    execLike e = false := by
  unfold execLike
  unfold unixTagged at h
  by_cases h1 : e.ver &&& 0xff00 = 0x0300
  · by_cases h2 : e.ver_needed &&& 0xff00 = 0x0300
    · exact absurd ⟨h1, h2⟩ h
    · simp [h2]
  · simp [h1]

theorem normal_encEntry (e : S_CentralDirectoryEntry) :
    ((encEntry 0x81a40020 e).ver &&& 0xff00 == 0x0300
      && (encEntry 0x81a40020 e).ver_needed &&& 0xff00 == 0x0300
      && ((encEntry 0x81a40020 e).ext_attrib &&& 0xffff0000 != 0x41ed0000
        && (encEntry 0x81a40020 e).ext_attrib &&& 0xffff0000 != 0x81ed0000)
      || (encEntry 0x81a40020 e).ext_attrib &&& 0x00000020 == 0x00000020) = true := by
  unfold encEntry
  simp only [unixVer_hi]
  decide

/-- The bytes of the emitted header outside the attribute offsets. -/
theorem emittedHeader_frame (z : C_ZipFile) (i b : Nat) (h : Coherent z)
    (hi : i < z.m_iNumFiles) (hb : attrOffset b = false) :
    byteAt (z.emittedHeader i) b = byteAt (z.raw i) b := by
  have hl := raw_length z i h.1 hi
  have key : ∀ v, byteAt (encRaw v (z.readable i) (z.raw i)) b = byteAt (z.raw i) b := by
    intro v
    rw [byteAt_encRaw v _ _ hl]
    simp only [attrOffset, Bool.or_eq_false_iff, Bool.and_eq_false_iff,
      decide_eq_false_iff_not] at hb
    split_ifs <;> first | rfl | omega
  unfold C_ZipFile.emittedHeader normRawOf
  split
  · exact key _
  · split
    · rfl
    · exact key _

theorem le32_congr (a b : List Nat) (off : Nat)
    (h : ∀ j, off ≤ j → j ≤ off + 3 → byteAt a j = byteAt b j) : le32 a off = le32 b off := by
  unfold le32
  rw [h off (by omega) (by omega), h (off + 1) (by omega) (by omega),
    h (off + 2) (by omega) (by omega), h (off + 3) (by omega) (by omega)]

/-- The classification of the entries after a `Save` that normalised each of
them (names distinct and not empty). -/
theorem classify_after_save (z z1 : C_ZipFile) (i : Nat) (h : Coherent z)
    (hne : z.namesNonEmpty) (hd : z.namesDistinct) (hi : i < z.m_iNumFiles)
    (hnb : normalizedBelow z z.m_iNumFiles z1) :
    z1.FindFileIndexInCD (z.m_szFilenames.getD i []) = (i : Int)
      ∧ z1.readable i = normEntryOf (z.m_szFilenames.getD i []) (z.readable i)
      ∧ z1.IsDirectory (z.m_szFilenames.getD i [])
        = some (dirLike (z.m_szFilenames.getD i [])
            (normEntryOf (z.m_szFilenames.getD i []) (z.readable i)))
      ∧ z1.IsExecutable (z.m_szFilenames.getD i [])
        = execLike (normEntryOf (z.m_szFilenames.getD i []) (z.readable i))
      ∧ z1.IsNormal (z.m_szFilenames.getD i [])
        = normalLike (normEntryOf (z.m_szFilenames.getD i []) (z.readable i)) := by
  obtain ⟨hc1, hl1, hinv⟩ := hnb
  have ho : z1.m_bOpenOK = z.m_bOpenOK := by rw [hc1.1.1, h.1.1]
  have hf : z1.FindFileIndexInCD (z.m_szFilenames.getD i []) = (i : Int) := by
    rw [find_of_sameLayout z z1 _ hl1 ho]
    exact find_distinct z i h.1 hd hi
  have hr := ((hinv i hi).1 hi).2
  refine ⟨hf, hr, ?_, ?_, ?_⟩
  · rw [IsDirectory_found z1 _ i hf (hne i hi), hr]
    rfl
  · rw [IsExecutable_found z1 _ i hf, hr]
    rfl
  · rw [IsNormal_found z1 _ i hf, hr]
    rfl

theorem normalLike_encEntry_normal (e : S_CentralDirectoryEntry) :
    normalLike (encEntry 0x81a40020 e) = true := normal_encEntry e

theorem execLike_encEntry_normal (e : S_CentralDirectoryEntry) :
    execLike (encEntry 0x81a40020 e) = false := by
  unfold execLike encEntry
  simp only [unixVer_hi]
  decide

theorem execLike_encEntry_dir (e : S_CentralDirectoryEntry) :
    execLike (encEntry 0x41ed0010 e) = false := by
  unfold execLike encEntry
  simp only [unixVer_hi]
  decide

theorem dirLike_encEntry_normal (name : List Nat) (e : S_CentralDirectoryEntry) :
    dirLike name (encEntry 0x81a40020 e) = endsInSlash name := by
  unfold dirLike encEntry
  dsimp only
  cases endsInSlash name <;> decide

theorem endsInSlash_of_not_dirLike (name : List Nat) (e : S_CentralDirectoryEntry)
    (h : dirLike name e = false) : endsInSlash name = false := by
  unfold dirLike at h
  cases hs : endsInSlash name
  · rfl
  · rw [hs] at h
    simp at h

/-- The four fields that identify the payload, read from an emitted header. -/
theorem emittedHeader_payload_fields (z0 z : C_ZipFile) (i : Nat) (h0 : Coherent z0)
    (h : Coherent z) (hl : sameLayout z0 z) (hi : i < z0.m_iNumFiles) :
    le32 (z.emittedHeader i) 16 = (z0.readable i).crc32
      ∧ le32 (z.emittedHeader i) 20 = (z0.readable i).c_size
      ∧ le32 (z.emittedHeader i) 24 = (z0.readable i).u_size
      ∧ le32 (z.emittedHeader i) 42 = (z0.readable i).offset := by
  have hn : z.m_iNumFiles = z0.m_iNumFiles := hl.2.2.2.1
  have key : ∀ off, (∀ j, off ≤ j → j ≤ off + 3 → attrOffset j = false) →
      le32 (z.emittedHeader i) off = le32 (z0.raw i) off := by
    intro off hoff
    apply le32_congr
    intro j h1 h2
    rw [emittedHeader_frame z i j h (by omega) (hoff j h1 h2)]
    exact (hl.2.2.2.2.2.2.2.2 i).2.1 j (hoff j h1 h2)
  have hdec := (h0.2.2.2 i hi).1
  have hoffs : ∀ off, off = 16 ∨ off = 20 ∨ off = 24 ∨ off = 42 →
      ∀ j, off ≤ j → j ≤ off + 3 → attrOffset j = false := by
    intro off ho j h1 h2
    simp only [attrOffset, Bool.or_eq_false_iff, Bool.and_eq_false_iff,
      decide_eq_false_iff_not]
    omega
  rw [key 16 (hoffs 16 (by simp)), key 20 (hoffs 20 (by simp)), key 24 (hoffs 24 (by simp)),
    key 42 (hoffs 42 (by simp)), hdec]
  simp [decodeEntry]

theorem FixZipFlags_ok (file : List Nat) (z0 z z1 : C_ZipFile) (name out : List Nat)
    (fopenOk : Bool) (fwriteOk : Nat → Bool)
    (hopen : C_ZipFile.Open file = some (OpenStatus.ok, z0))
    (hset : z0.SetExecutable name = (true, z))
    (hs : z.Save fopenOk fwriteOk = some ((true, out), z1)) :
    FixZipFlags file name fopenOk fwriteOk = some (true, out) := by
  unfold FixZipFlags
  rw [hopen]
  dsimp only
  rw [hset]
  dsimp only
  rw [hs]
  rfl

/-- C2 (amended): for an archive that opens, with distinct non-empty names, no
unix-tagged entry and the central directory inside the buffer, and a present
name that does not end in `/`: when every write succeeds, `FixZipFlags`
(`SetExecutable(name)` followed by `Save`) returns true, and in the central
directory it writes (a) the named entry has external attributes `0x81ED0020`
and classifies as Executable and not as Directory; (b) every other entry whose
name ends in `/`, or whose bit `0x10` is set, or whose attribute high word is
`0x41ED`, has `0x41ED0010` and classifies as Directory and not as Executable;
(c) every remaining entry has `0x81A40020` and classifies as Normal and as
nothing else; (d) every entry keeps its CRC-32, compressed size, uncompressed
size and local-header offset. -/
theorem fix_flags_end_to_end (file : List Nat) (z0 : C_ZipFile) (name : List Nat)
    (fwriteOk : Nat → Bool) (hw : ∀ n, fwriteOk n = true)
    (hopen : C_ZipFile.Open file = some (OpenStatus.ok, z0))
    (hne : z0.namesNonEmpty) (hd : z0.namesDistinct) (hwin : z0.windowsStyle)
    (hcd : z0.m_stCDEndReadable.cd_start ≤ z0.m_pZipMem.length)
    (hp : z0.present name) (hslash : endsInSlash name = false) :
    ∃ (k : Nat) (z1 : C_ZipFile) (out : List Nat),
      z0.FindFileIndexInCD name = (k : Int) ∧ k < z0.m_iNumFiles
        ∧ (z0.SetExecutable name).2.Save true fwriteOk = some ((true, out), z1)
        ∧ FixZipFlags file name true fwriteOk = some (true, out)
        ∧ out = z0.m_pZipMem.take z0.m_stCDEndReadable.cd_start
            ++ z0.cdBody (fixedHeader z0 name) ++ z0.m_stCDEnd ++ z0.m_szZipComment
        ∧ le32 (fixedHeader z0 name k) 38 = 0x81ed0020
        ∧ z1.IsExecutable name = true ∧ z1.IsDirectory name = some false
        ∧ (∀ i, i < z0.m_iNumFiles → i ≠ k →
            (dirLike (z0.m_szFilenames.getD i []) (z0.readable i) = true →
              le32 (fixedHeader z0 name i) 38 = 0x41ed0010
                ∧ z1.IsDirectory (z0.m_szFilenames.getD i []) = some true
                ∧ z1.IsExecutable (z0.m_szFilenames.getD i []) = false)
            ∧ (dirLike (z0.m_szFilenames.getD i []) (z0.readable i) = false →
              le32 (fixedHeader z0 name i) 38 = 0x81a40020
                ∧ z1.IsNormal (z0.m_szFilenames.getD i []) = true
                ∧ z1.IsDirectory (z0.m_szFilenames.getD i []) = some false
                ∧ z1.IsExecutable (z0.m_szFilenames.getD i []) = false))
        ∧ ∀ i, i < z0.m_iNumFiles →
            le32 (fixedHeader z0 name i) 16 = (z0.readable i).crc32
              ∧ le32 (fixedHeader z0 name i) 20 = (z0.readable i).c_size
              ∧ le32 (fixedHeader z0 name i) 24 = (z0.readable i).u_size
              ∧ le32 (fixedHeader z0 name i) 42 = (z0.readable i).offset := by
  have hc0 : Coherent z0 := Open_coherent file z0 hopen
  obtain ⟨k, hf, hk, hname, _⟩ := find_present z0 name hc0.1 hp
  have hk2 : k < z0.m_pCDEntriesReadable.length := by have := hc0.1.2.2.1; omega
  have hset : z0.SetExecutable name = (true, z0.withEnc k 0x81ed0020) :=
    SetExecutable_found z0 name k hk2 hf
  have hcz : Coherent (z0.withEnc k 0x81ed0020) := Coherent_withEnc z0 k _ hc0 hk (by norm_num)
  have hlz : sameLayout z0 (z0.withEnc k 0x81ed0020) := sameLayout_withEnc z0 k _ hc0.1 hk
  have hnez : (z0.withEnc k 0x81ed0020).namesNonEmpty := hne
  have hdz : (z0.withEnc k 0x81ed0020).namesDistinct := hd
  have hrd : ∀ j, (z0.withEnc k 0x81ed0020).readable j
      = if j = k then encEntry 0x81ed0020 (z0.readable k) else z0.readable j :=
    fun j => readable_withEnc z0 k _ j hk2
  obtain ⟨z1, hs, hnb⟩ := Save_distinct (z0.withEnc k 0x81ed0020) fwriteOk hw hcz hnez hdz hcd
  have hfix : fixedHeader z0 name = (z0.withEnc k 0x81ed0020).emittedHeader := by
    funext i
    unfold fixedHeader
    rw [hset]
  have hnamek : endsInSlash (z0.m_szFilenames.getD k []) = false := by
    rw [endsInSlash_congr _ _ hname]
    exact hslash
  have hcls := fun i hi => classify_after_save (z0.withEnc k 0x81ed0020) z1 i hcz hnez hdz hi hnb
  have hflds := fun i hi => emittedHeader_fields (z0.withEnc k 0x81ed0020) i hcz hi
  have hnames : (z0.withEnc k 0x81ed0020).m_szFilenames = z0.m_szFilenames := rfl
  have hnum : (z0.withEnc k 0x81ed0020).m_iNumFiles = z0.m_iNumFiles := rfl
  rw [hfix, hset]
  refine ⟨k, z1, _, hf, hk, hs, ?_, rfl, ?_, ?_, ?_, ?_, ?_⟩
  · exact FixZipFlags_ok file z0 _ z1 name _ true fwriteOk hopen hset hs
  · obtain ⟨_, _, _, _, f5⟩ := hflds k hk
    rw [hnames, hrd k, if_pos rfl] at f5
    rw [f5 (by rw [dirLike_encEntry_exec]; exact hnamek) (execLike_encEntry_exec _)]
    rw [(le16_raw_ver _ k hcz hk).2.2, hrd k, if_pos rfl]
    rfl
  · obtain ⟨g1, g2, _, _, _⟩ := hcls k hk
    rw [hnames, hrd k, if_pos rfl] at g2
    have hf1 : z1.FindFileIndexInCD name = (k : Int) := by
      have ho : z1.m_bOpenOK = (z0.withEnc k 0x81ed0020).m_bOpenOK := by
        rw [hnb.1.1.1, hcz.1.1]
      rw [find_of_sameLayout _ z1 _ hnb.2.1 ho]
      exact hf
    rw [IsExecutable_found z1 name k hf1, g2]
    unfold normEntryOf
    rw [dirLike_encEntry_exec, hnamek]
    simp only [Bool.false_eq_true, if_false, execLike_encEntry_exec, if_true]
    exact execLike_encEntry_exec _
  · obtain ⟨g1, g2, _, _, _⟩ := hcls k hk
    rw [hnames, hrd k, if_pos rfl] at g2
    have hf1 : z1.FindFileIndexInCD name = (k : Int) := by
      have ho : z1.m_bOpenOK = (z0.withEnc k 0x81ed0020).m_bOpenOK := by
        rw [hnb.1.1.1, hcz.1.1]
      rw [find_of_sameLayout _ z1 _ hnb.2.1 ho]
      exact hf
    have hnn : cstr name ≠ [] := by
      rw [← hname]
      exact hne k hk
    rw [IsDirectory_found z1 name k hf1 hnn, g2]
    unfold normEntryOf
    rw [dirLike_encEntry_exec, hnamek]
    simp only [Bool.false_eq_true, if_false, execLike_encEntry_exec, if_true]
    have := dirLike_encEntry_exec name (z0.readable k)
    unfold dirLike at this
    rw [this, hslash]
  · intro i hi hik
    obtain ⟨_, g2, g3, g4, g5⟩ := hcls i hi
    obtain ⟨_, _, f3, f4, _⟩ := hflds i hi
    rw [hnames, hrd i, if_neg hik] at g2 g3 g4 g5 f3 f4
    have hx : execLike (z0.readable i) = false := execLike_of_not_tagged _ (hwin i hi)
    refine ⟨fun hdl => ?_, fun hdl => ?_⟩
    · refine ⟨f3 hdl, ?_, ?_⟩
      · rw [g3]
        unfold normEntryOf
        rw [hdl, if_pos rfl, dirLike_encEntry_dir]
      · rw [g4]
        unfold normEntryOf
        rw [hdl, if_pos rfl, execLike_encEntry_dir]
    · refine ⟨f4 hdl hx, ?_, ?_, ?_⟩
      · rw [g5]
        unfold normEntryOf
        rw [hdl, hx]
        simp only [Bool.false_eq_true, if_false]
        exact normalLike_encEntry_normal _
      · rw [g3]
        unfold normEntryOf
        rw [hdl, hx]
        simp only [Bool.false_eq_true, if_false]
        rw [dirLike_encEntry_normal, endsInSlash_of_not_dirLike _ _ hdl]
      · rw [g4]
        unfold normEntryOf
        rw [hdl, hx]
        simp only [Bool.false_eq_true, if_false]
        exact execLike_encEntry_normal _
  · intro i hi
    exact emittedHeader_payload_fields z0 _ i hc0 hcz hlz hi

set_option maxRecDepth 1000000 in
/-- C2 (amended) at the sample archive with `dir/run.sh`. -/
theorem fix_flags_end_to_end_witness :
    (∀ n, allWritesOk n = true)
      ∧ C_ZipFile.Open demoZip = some (OpenStatus.ok, demoModel)
      ∧ demoModel.namesNonEmpty ∧ demoModel.namesDistinct ∧ demoModel.windowsStyle
      ∧ demoModel.m_stCDEndReadable.cd_start ≤ demoModel.m_pZipMem.length
      ∧ demoModel.present runSh ∧ endsInSlash runSh = false
      ∧ ∃ (k : Nat) (z1 : C_ZipFile) (out : List Nat),
        demoModel.FindFileIndexInCD runSh = (k : Int) ∧ k < demoModel.m_iNumFiles
          ∧ (demoModel.SetExecutable runSh).2.Save true allWritesOk = some ((true, out), z1)
          ∧ FixZipFlags demoZip runSh true allWritesOk = some (true, out)
          ∧ out = demoModel.m_pZipMem.take demoModel.m_stCDEndReadable.cd_start
              ++ demoModel.cdBody (fixedHeader demoModel runSh) ++ demoModel.m_stCDEnd
              ++ demoModel.m_szZipComment
          ∧ le32 (fixedHeader demoModel runSh k) 38 = 0x81ed0020
          ∧ z1.IsExecutable runSh = true ∧ z1.IsDirectory runSh = some false
          ∧ (∀ i, i < demoModel.m_iNumFiles → i ≠ k →
              (dirLike (demoModel.m_szFilenames.getD i []) (demoModel.readable i) = true →
                le32 (fixedHeader demoModel runSh i) 38 = 0x41ed0010
                  ∧ z1.IsDirectory (demoModel.m_szFilenames.getD i []) = some true
                  ∧ z1.IsExecutable (demoModel.m_szFilenames.getD i []) = false)
              ∧ (dirLike (demoModel.m_szFilenames.getD i []) (demoModel.readable i) = false →
                le32 (fixedHeader demoModel runSh i) 38 = 0x81a40020
                  ∧ z1.IsNormal (demoModel.m_szFilenames.getD i []) = true
                  ∧ z1.IsDirectory (demoModel.m_szFilenames.getD i []) = some false
                  ∧ z1.IsExecutable (demoModel.m_szFilenames.getD i []) = false))
          ∧ ∀ i, i < demoModel.m_iNumFiles →
              le32 (fixedHeader demoModel runSh i) 16 = (demoModel.readable i).crc32
                ∧ le32 (fixedHeader demoModel runSh i) 20 = (demoModel.readable i).c_size
                ∧ le32 (fixedHeader demoModel runSh i) 24 = (demoModel.readable i).u_size
                ∧ le32 (fixedHeader demoModel runSh i) 42 = (demoModel.readable i).offset :=
  ⟨fun _ => rfl, demo_opens, by decide, by decide, by decide, by decide,
    ⟨runSh, by decide, rfl⟩, by decide,
    fix_flags_end_to_end demoZip demoModel runSh allWritesOk (fun _ => rfl) demo_opens
      (by decide) (by decide) (by decide) (by decide) ⟨runSh, by decide, rfl⟩ (by decide)⟩

set_option maxRecDepth 1000000 in
/-- C2 as stated fails: `modeOnlyZip` has distinct names and no unix-tagged
entry; its entry `x` has a name that does not end in `/` and no bit `0x10`,
yet after `FixZipFlags` on `run.sh` its header (at offset 124 of the output)
carries `0x41ED0010`, not `0x81A40020`: `IsDirectory` also accepts the
attribute high word `0x41ED`, whatever the version fields are. -/
theorem fix_flags_mode_only_entry_becomes_directory :
    C_ZipFile.Open modeOnlyZip = some (OpenStatus.ok, modeOnlyModel)
      ∧ modeOnlyModel.namesDistinct ∧ modeOnlyModel.windowsStyle
      ∧ modeOnlyModel.m_szFilenames = [[114, 117, 110, 46, 115, 104], [120]]
      ∧ endsInSlash [120] = false
      ∧ (modeOnlyModel.readable 1).ext_attrib &&& 0x00000010 = 0
      ∧ (FixZipFlags modeOnlyZip [114, 117, 110, 46, 115, 104] true allWritesOk).map
          (fun r => (r.1, le32 r.2 (124 + 38))) = some (true, 0x41ed0010) := by
  decide

/-! ## C4: round trip -/

theorem and_div_256 (a b : Nat) : (a &&& b) / 256 = a / 256 &&& b / 256 := by
  have h : ∀ x : Nat, x / 256 = x / 2 / 2 / 2 / 2 / 2 / 2 / 2 / 2 := by
    intro x
    omega
  rw [h (a &&& b), h a, h b]
  simp only [Nat.and_div_two]

set_option maxRecDepth 100000 in
theorem low_or_unix_add : ∀ x, x < 256 → (x ||| 0x0300) = x + 768 := by
  decide

/-- A 16-bit version field whose high byte is the unix tag is not changed by
`v & 0x00ff | 0x0300`. -/
theorem unixVer_noop (x : Nat) (hx : x < 65536) (h : x &&& 0xff00 = 0x0300) :
    (x &&& 0x00ff) ||| 0x0300 = x := by
  have h1 : (x &&& 0xff00) / 256 = 3 := by rw [h]
  rw [and_div_256] at h1
  have h2 : x / 256 &&& 255 = x / 256 % 256 := by
    have := Nat.and_pow_two_sub_one_eq_mod (x / 256) 8
    norm_num at this
    exact this
  norm_num at h1
  rw [h2] at h1
  have h3 : x &&& 255 = x % 256 := by
    have := Nat.and_pow_two_sub_one_eq_mod x 8
    norm_num at this
    exact this
  rw [h3, low_or_unix_add _ (Nat.mod_lt _ (by norm_num))]
  omega

theorem byteAt_lt (m : List Nat) (hm : isBytes m) (j : Nat) : byteAt m j < 256 := by
  unfold byteAt
  rw [List.getD_eq_getElem?_getD]
  cases hj : m[j]? with
  | none => simp
  | some x =>
    simp only [Option.getD_some]
    exact hm x (List.getElem?_mem hj)

theorem modify_noop {α : Type} (l : List α) (f : α → α) (k : Nat)
    (h : ∀ x, l[k]? = some x → f x = x) : l.modify f k = l := by
  have := modify_congr_at l f id k (by intro x hx; exact h x hx)
  rw [this, List.modify_id]

/-- Installing, on a unix-tagged entry, the attributes it already has changes
nothing. -/
theorem withEnc_noop (z : C_ZipFile) (k v : Nat) (h : Coherent z) (hk : k < z.m_iNumFiles)
    (hb : isBytes (z.raw k)) (ht : unixTagged (z.readable k))
    (hv : (z.readable k).ext_attrib = v) : z.withEnc k v = z := by
  have hl := raw_length z k h.1 hk
  have hdec := (h.2.2.2 k hk).1
  have hver : (z.readable k).ver = byteAt (z.raw k) 4 + 256 * byteAt (z.raw k) 5 := by
    rw [hdec]; rfl
  have hvn : (z.readable k).ver_needed = byteAt (z.raw k) 6 + 256 * byteAt (z.raw k) 7 := by
    rw [hdec]; rfl
  have hext : (z.readable k).ext_attrib = byteAt (z.raw k) 38 + 256 * byteAt (z.raw k) 39
      + 65536 * byteAt (z.raw k) 40 + 16777216 * byteAt (z.raw k) 41 := by
    rw [hdec]; rfl
  have b4 := byteAt_lt _ hb 4
  have b5 := byteAt_lt _ hb 5
  have b6 := byteAt_lt _ hb 6
  have b7 := byteAt_lt _ hb 7
  have b38 := byteAt_lt _ hb 38
  have b39 := byteAt_lt _ hb 39
  have b40 := byteAt_lt _ hb 40
  have b41 := byteAt_lt _ hb 41
  have n1 : ((z.readable k).ver &&& 0x00ff) ||| 0x0300 = (z.readable k).ver :=
    unixVer_noop _ (by omega) ht.1
  have n2 : ((z.readable k).ver_needed &&& 0x00ff) ||| 0x0300 = (z.readable k).ver_needed :=
    unixVer_noop _ (by omega) ht.2
  have e1 : encEntry v (z.readable k) = z.readable k := by
    unfold encEntry
    rw [n1, n2, ← hv]
  have e2 : encRaw v (z.readable k) (z.raw k) = z.raw k := by
    apply list_eq_of_byteAt
    · exact length_encRaw _ _ _
    · intro j
      rw [byteAt_encRaw v _ _ hl, n1, n2, ← hv]
      split_ifs with c1 c2 c3 c4 c5 c6 c7 c8
      · subst c1; omega
      · subst c2; omega
      · subst c3; omega
      · subst c4; omega
      · subst c5; omega
      · subst c6; omega
      · subst c7; omega
      · subst c8; omega
      · rfl
  have hk1 : k < z.m_pCDEntries.length := by have := h.1.2.1; omega
  have hk2 : k < z.m_pCDEntriesReadable.length := by have := h.1.2.2.1; omega
  unfold C_ZipFile.withEnc
  rw [modify_noop z.m_pCDEntriesReadable _ k, modify_noop z.m_pCDEntries _ k]
  · intro x hx
    have : x = z.raw k := by
      unfold C_ZipFile.raw
      rw [List.getD_eq_getElem?_getD, hx]
      rfl
    rw [this]
    exact e2
  · intro x hx
    have : x = z.readable k := by
      unfold C_ZipFile.readable
      rw [List.getD_eq_getElem?_getD, hx]
      rfl
    rw [this]
    exact e1

theorem dirLike_congr (a b : List Nat) (e : S_CentralDirectoryEntry) (h : cstr a = cstr b) :
    dirLike a e = dirLike b e := by
  unfold dirLike
  rw [endsInSlash_congr a b h]

/-- The normalisation step of `Save` changes nothing on a canonical entry. -/
theorem normAt_noop (z : C_ZipFile) (name : List Nat) (k : Nat) (h : Coherent z)
    (hk : k < z.m_iNumFiles) (hb : isBytes (z.raw k))
    (hc : canonicalEntry (z.m_szFilenames.getD k []) (z.readable k))
    (hn : cstr (z.m_szFilenames.getD k []) = cstr name) : z.normAt name k = z := by
  obtain ⟨ht, hc2⟩ := hc
  rw [dirLike_congr _ _ _ hn] at hc2
  unfold C_ZipFile.normAt
  by_cases hd : dirLike name (z.readable k) = true
  · rw [if_pos hd] at hc2
    rw [if_pos hd]
    exact withEnc_noop z k _ h hk hb ht hc2
  · rw [if_neg hd] at hc2
    rw [if_neg hd]
    by_cases hx : execLike (z.readable k) = true
    · rw [if_pos hx]
    · rw [if_neg hx]
      have hne : ¬ ((z.readable k).ext_attrib &&& 0xffff0000 = 0x81ed0000) := by
        intro hh
        apply hx
        unfold execLike
        simp only [Bool.and_eq_true, beq_iff_eq]
        exact ⟨⟨ht.1, ht.2⟩, hh⟩
      rw [if_neg hne] at hc2
      exact withEnc_noop z k _ h hk hb ht hc2

theorem OpenedFrom_raw_bytes (mem : List Nat) (z : C_ZipFile) (q : Nat)
    (h : OpenedFrom mem z q) (hm : isBytes mem) (i : Nat) (hi : i < z.m_iNumFiles) :
    isBytes (z.raw i) := by
  obtain ⟨_, _, _, _, _, _, _, _, _, _, _, pos1, hE⟩ := h
  obtain ⟨_, _, _, _, _, _, _, _, hflat⟩ := hE
  intro x hx
  apply hm
  have hx2 : x ∈ ((List.range z.m_iNumFiles).map (fun i => z.raw i
      ++ (z.m_szFilenames.getD i [] ++ (z.m_szExtra.getD i []
      ++ z.m_szComments.getD i [])))).flatten := by
    rw [List.mem_flatten]
    refine ⟨_, List.mem_map.2 ⟨i, List.mem_range.2 hi, rfl⟩, ?_⟩
    exact List.mem_append_left _ hx
  rw [hflat] at hx2
  exact List.mem_of_mem_drop (List.mem_of_mem_take hx2)

theorem cdBody_length (z : C_ZipFile) (H : Nat → List Nat) (h : Coherent z)
    (hH : ∀ i, i < z.m_iNumFiles → (H i).length = 46) : (z.cdBody H).length = z.cdLength := by
  unfold C_ZipFile.cdBody C_ZipFile.cdLength
  rw [List.length_flatten, List.map_map]
  congr 1
  apply List.map_congr_left
  intro i hi
  have hi2 : i < z.m_iNumFiles := List.mem_range.1 hi
  obtain ⟨_, c2, c3, c4⟩ := h.2.2.2 i hi2
  simp only [Function.comp, List.length_append, hH i hi2, c2, c3, c4]
  omega

/-- A buffer is its four consecutive parts. -/
theorem four_parts (b : List Nat) (a c d e : Nat) (h : a + c + d + e = b.length) :
    b.take a ++ (b.drop a).take c ++ (b.drop (a + c)).take d ++ (b.drop (a + c + d)).take e
      = b := by
  rw [← List.take_add, ← List.take_add, ← List.take_add, h, List.take_length]

/-- C4 (amended): for every buffer of bytes `b` (below 4 GiB) that opens, whose
entries are all in the canonical unix encoding and have non-empty names, and
whose central directory ends where the end record begins (`cd_start` plus the
sizes of the entries plus the 22 bytes of the end record plus the archive
comment is the length of `b`), `Save` with no mutation, when every write
succeeds, returns true, writes exactly `b`, and leaves the object unchanged. -/
theorem roundtrip_identity (b : List Nat) (z : C_ZipFile) (fwriteOk : Nat → Bool)
    (hw : ∀ n, fwriteOk n = true) (hb : isBytes b) (hlen : b.length < 4294967296)
    (hopen : C_ZipFile.Open b = some (OpenStatus.ok, z))
    (hne : z.namesNonEmpty) (hcanon : z.allCanonical)
    (hcontig : z.m_stCDEndReadable.cd_start + z.cdLength + 22
      + z.m_stCDEndReadable.comment_len = b.length) :
    z.Save true fwriteOk = some ((true, b), z) := by
  obtain ⟨q, hq⟩ := Open_openedFrom b z hopen
  have hmem : b.take (b.length % 4294967296) = b := by
    rw [Nat.mod_eq_of_lt hlen, List.take_length]
  rw [hmem] at hq
  have hc : Coherent z := OpenedFrom_coherent b z q hq
  have hbytes := OpenedFrom_raw_bytes b z q hq hb
  obtain ⟨_, hzm, _, hqlen, hend, _, hcom, _, _, _, _, pos1, hE⟩ := hq
  obtain ⟨_, _, _, _, _, _, hpos, hbound, hflat⟩ := hE
  have hcd : z.m_stCDEndReadable.cd_start ≤ z.m_pZipMem.length := by
    rw [hzm]
    omega
  obtain ⟨z1, H, hs, hP, hQ⟩ := Save_spec z fwriteOk hw (fun _ zc => zc = z)
    (fun i hdr => hdr = z.raw i)
    (fun i => z.m_szFilenames.getD i [] ++ (z.m_szExtra.getD i [] ++ z.m_szComments.getD i []))
    (by
      intro i zc hi hzc
      subst hzc
      obtain ⟨k, hk, hf, hnorm, _, _⟩ := normalize_step zc zc i hne hi hc (sameLayout_refl zc)
      have hpres : zc.present (zc.m_szFilenames.getD i []) := by
        refine ⟨zc.m_szFilenames.getD i [], ?_, rfl⟩
        rw [List.getD_eq_getElem _ _ (by have := hc.1.2.2.2.1; omega)]
        exact List.getElem_mem _
      obtain ⟨k2, hf2, _, hname, _⟩ := find_present zc _ hc.1 hpres
      have hkk : k2 = k := by
        rw [hf] at hf2
        exact_mod_cast hf2.symm
      subst hkk
      have hno := normAt_noop zc (zc.m_szFilenames.getD i []) k2 hc hk (hbytes k2 hk)
        (hcanon k2 hk) hname
      rw [hno] at hnorm
      exact ⟨zc, hnorm, rfl, rfl, emitTail_coherent zc i hc hi⟩)
    hc.1.1 rfl hcd
  subst hP
  rw [take_of_length_eq _ _ hc.2.2.1] at hs
  have hbody : ((List.range z1.m_iNumFiles).map (fun t => H t ++ (z1.m_szFilenames.getD t []
      ++ (z1.m_szExtra.getD t [] ++ z1.m_szComments.getD t [])))).flatten
      = z1.cdBody z1.raw := by
    unfold C_ZipFile.cdBody
    congr 1
    apply List.map_congr_left
    intro t ht
    rw [hQ t (List.mem_range.1 ht)]
  have hblen : (z1.cdBody z1.raw).length = z1.cdLength :=
    cdBody_length z1 _ hc (fun i hi => raw_length z1 i hc.1 hi)
  have hbody2 : z1.cdBody z1.raw
      = (b.drop z1.m_stCDEndReadable.cd_start).take z1.cdLength := by
    have hfl : z1.cdBody z1.raw
        = (b.drop z1.m_stCDEndReadable.cd_start).take (pos1 - z1.m_stCDEndReadable.cd_start) :=
      hflat
    have hl2 := congrArg List.length hfl
    rw [hblen, List.length_take, List.length_drop] at hl2
    have : pos1 - z1.m_stCDEndReadable.cd_start = z1.cdLength := by
      rcases hbound with hb1 | hb1
      · omega
      · omega
    rw [hfl, this]
  have hq2 : q = z1.m_stCDEndReadable.cd_start + z1.cdLength := by omega
  rw [hs, hbody, hbody2, hend, hcom, hzm, hq2]
  rw [four_parts b _ _ 22 _ hcontig]

set_option maxRecDepth 1000000 in
theorem canon_opens : C_ZipFile.Open canonZip = some (OpenStatus.ok, canonModel) := by
  rfl

set_option maxRecDepth 1000000 in
/-- C4 (amended) at the canonical sample archive. -/
theorem roundtrip_identity_witness :
    (∀ n, allWritesOk n = true) ∧ isBytes canonZip ∧ canonZip.length < 4294967296
      ∧ C_ZipFile.Open canonZip = some (OpenStatus.ok, canonModel)
      ∧ canonModel.namesNonEmpty ∧ canonModel.allCanonical
      ∧ canonModel.m_stCDEndReadable.cd_start + canonModel.cdLength + 22
          + canonModel.m_stCDEndReadable.comment_len = canonZip.length
      ∧ canonModel.Save true allWritesOk = some ((true, canonZip), canonModel) :=
  ⟨fun _ => rfl, by decide, by decide, canon_opens, by decide, by decide, by decide,
    roundtrip_identity canonZip canonModel allWritesOk (fun _ => rfl) (by decide) (by decide)
      canon_opens (by decide) (by decide) (by decide)⟩

set_option maxRecDepth 1000000 in
/-- C4 as stated fails: `strayByteZip` opens (end record at offset 1, no
entries, so every entry is canonical), and `Save` with no mutation writes the
22 bytes of the end record only, not the 23 bytes of the input: what lies
between the end of the central directory and the end record is not written. -/
theorem roundtrip_fails_with_stray_byte :
    C_ZipFile.Open strayByteZip = some (OpenStatus.ok, strayByteModel)
      ∧ strayByteModel.m_iNumFiles = 0 ∧ strayByteModel.allCanonical
      ∧ (strayByteModel.Save true allWritesOk).map (fun r => r.1) = some (true, emptyZip)
      ∧ emptyZip ≠ strayByteZip := by
  decide

/-! ## C11: archives that span volumes -/

theorem Open_eq (file : List Nat) :
    C_ZipFile.Open file = openAfterScan (fileBuffer file)
      (scanLoop (fileBuffer file) (file.length % 4294967296) (scanStart file)
        { C_ZipFile.init with m_pZipMem := fileBuffer file }) := rfl

theorem openAfterScan_multi (mem : List Nat) (r : Option Nat × C_ZipFile) (z : C_ZipFile) :
    openAfterScan mem r = some (OpenStatus.multiVolume, z) ↔
      ∃ q, r = (some q, z) ∧ (z.m_stCDEndReadable.num_discs ≠ 0
        ∨ z.m_stCDEndReadable.cd_disc ≠ 0
        ∨ z.m_stCDEndReadable.cd_num ≠ z.m_stCDEndReadable.cd_tot_num) := by
  obtain ⟨o, z1⟩ := r
  cases o with
  | none =>
    simp only [openAfterScan, Option.some.injEq, Prod.mk.injEq]
    constructor
    · intro h
      exact absurd h.1 (by decide)
    · rintro ⟨q, h, _⟩
      exact absurd h.1 (by simp)
  | some q =>
    simp only [openAfterScan]
    by_cases hvol : (z1.m_stCDEndReadable.num_discs != 0 || z1.m_stCDEndReadable.cd_disc != 0
        || z1.m_stCDEndReadable.cd_num != z1.m_stCDEndReadable.cd_tot_num) = true
    · rw [if_pos hvol]
      simp only [Bool.or_eq_true, bne_iff_ne, ne_eq] at hvol
      constructor
      · intro h
        simp only [Option.some.injEq, Prod.mk.injEq, true_and] at h
        subst h
        refine ⟨q, rfl, ?_⟩
        rcases hvol with (h1 | h2) | h3
        · exact Or.inl h1
        · exact Or.inr (Or.inl h2)
        · exact Or.inr (Or.inr h3)
      · rintro ⟨q2, h, _⟩
        simp only [Prod.mk.injEq, Option.some.injEq] at h
        rw [h.2]
    · rw [if_neg hvol]
      simp only [Bool.or_eq_true, bne_iff_ne, ne_eq, not_or, Decidable.not_not] at hvol
      constructor
      · intro h
        exfalso
        split at h
        · exact absurd h (by simp)
        · simp only [Option.some.injEq, Prod.mk.injEq] at h
          exact absurd h.1 (by decide)
      · rintro ⟨q2, h, hc⟩
        simp only [Prod.mk.injEq, Option.some.injEq] at h
        rw [← h.2] at hc
        rcases hc with h1 | h2 | h3
        · exact absurd hvol.1.1 h1
        · exact absurd hvol.1.2 h2
        · exact absurd hvol.2 h3

/-- C11: when `Open` locates an end record (at offset `q` of the buffer), it
fails with "multiple volume files not supported" if and only if the record's
disk number is non-zero, or its central-directory disk is non-zero, or its
entry count on this disk differs from its total entry count. When it fails
this way the object is not open and holds no entry: every lookup returns -1
and `Save` returns false without writing. -/
theorem open_rejects_multivolume (file : List Nat) (q : Nat)
    (hq : endRecordPos file = some q) :
    ((∃ z, C_ZipFile.Open file = some (OpenStatus.multiVolume, z)) ↔
        ((decodeEnd (fileBuffer file) q).num_discs ≠ 0
          ∨ (decodeEnd (fileBuffer file) q).cd_disc ≠ 0
          ∨ (decodeEnd (fileBuffer file) q).cd_num
              ≠ (decodeEnd (fileBuffer file) q).cd_tot_num))
      ∧ ∀ z, C_ZipFile.Open file = some (OpenStatus.multiVolume, z) →
          z.m_bOpenOK = false ∧ z.m_iNumFiles = 0 ∧ z.m_pCDEntries = []
            ∧ z.m_pCDEntriesReadable = [] ∧ z.m_szFilenames = [] ∧ z.m_szExtra = []
            ∧ z.m_szComments = []
            ∧ (∀ name, z.FindFileIndexInCD name = -1)
            ∧ ∀ fopenOk fwriteOk, z.Save fopenOk fwriteOk = some ((false, []), z) := by
  unfold endRecordPos at hq
  generalize hr : scanLoop (fileBuffer file) (file.length % 4294967296) (scanStart file)
    { C_ZipFile.init with m_pZipMem := fileBuffer file } = r at hq
  obtain ⟨o, z1⟩ := r
  simp only at hq
  subst hq
  obtain ⟨_, _, _, hz1⟩ := scanLoop_found _ _ _ _ _ _ hr
  have hrec : z1.m_stCDEndReadable = decodeEnd (fileBuffer file) q := by rw [hz1]
  rw [Open_eq, hr]
  constructor
  · rw [← hrec]
    constructor
    · rintro ⟨z, hz⟩
      obtain ⟨q2, h1, h2⟩ := (openAfterScan_multi _ _ _).1 hz
      simp only [Prod.mk.injEq, Option.some.injEq] at h1
      rw [h1.2]
      exact h2
    · intro h
      exact ⟨z1, (openAfterScan_multi _ _ _).2 ⟨q, rfl, h⟩⟩
  · intro z hz
    obtain ⟨q2, h1, _⟩ := (openAfterScan_multi _ _ _).1 hz
    simp only [Prod.mk.injEq, Option.some.injEq] at h1
    have hzz : z = z1 := h1.2.symm
    subst hzz
    have hopen : z.m_bOpenOK = false := by rw [hz1]; rfl
    refine ⟨hopen, by rw [hz1]; rfl, by rw [hz1]; rfl, by rw [hz1]; rfl, by rw [hz1]; rfl,
      by rw [hz1]; rfl, by rw [hz1]; rfl, ?_, ?_⟩
    · intro name
      unfold C_ZipFile.FindFileIndexInCD
      rw [hopen]
      rfl
    · intro fo fw
      unfold C_ZipFile.Save
      rw [hopen]
      rfl

set_option maxRecDepth 1000000 in
/-- C11 at the last volume of a spanned archive. -/
theorem open_rejects_multivolume_witness :
    endRecordPos spannedZip = some 78
      ∧ ((∃ z, C_ZipFile.Open spannedZip = some (OpenStatus.multiVolume, z)) ↔
          ((decodeEnd (fileBuffer spannedZip) 78).num_discs ≠ 0
            ∨ (decodeEnd (fileBuffer spannedZip) 78).cd_disc ≠ 0
            ∨ (decodeEnd (fileBuffer spannedZip) 78).cd_num
                ≠ (decodeEnd (fileBuffer spannedZip) 78).cd_tot_num))
      ∧ ∀ z, C_ZipFile.Open spannedZip = some (OpenStatus.multiVolume, z) →
          z.m_bOpenOK = false ∧ z.m_iNumFiles = 0 ∧ z.m_pCDEntries = []
            ∧ z.m_pCDEntriesReadable = [] ∧ z.m_szFilenames = [] ∧ z.m_szExtra = []
            ∧ z.m_szComments = []
            ∧ (∀ name, z.FindFileIndexInCD name = -1)
            ∧ ∀ fopenOk fwriteOk, z.Save fopenOk fwriteOk = some ((false, []), z) :=
  ⟨by decide, open_rejects_multivolume spannedZip 78 (by decide)⟩

/-! ## C12: the entries `Open` reads -/

theorem flatten_split (f : Nat → List Nat) : ∀ n i, i < n →
    ∃ B, ((List.range n).map f).flatten = ((List.range i).map f).flatten ++ f i ++ B := by
  intro n
  induction n with
  | zero =>
    intro i hi
    omega
  | succ n ih =>
    intro i hi
    rw [List.range_succ, List.map_append, List.flatten_append]
    by_cases hin : i = n
    · subst hin
      exact ⟨[], by simp⟩
    · obtain ⟨B, hB⟩ := ih i (by omega)
      exact ⟨B ++ f n, by rw [hB]; simp⟩

theorem parts_of_drop (m a b c d rest : List Nat) (off : Nat) (ha : 0 < a.length)
    (h : m.drop off = a ++ (b ++ (c ++ d)) ++ rest) :
    a = (m.drop off).take a.length
      ∧ b = (m.drop (off + a.length)).take b.length
      ∧ c = (m.drop (off + a.length + b.length)).take c.length
      ∧ d = (m.drop (off + a.length + b.length + c.length)).take d.length
      ∧ off + (a.length + b.length + c.length + d.length) ≤ m.length := by
  have h1 : m.drop (off + a.length) = b ++ (c ++ d) ++ rest := by
    rw [← List.drop_drop, h, List.append_assoc, List.drop_left]
  have h2 : m.drop (off + a.length + b.length) = c ++ d ++ rest := by
    rw [← List.drop_drop, h1, List.append_assoc, List.drop_left, List.append_assoc]
  have h3 : m.drop (off + a.length + b.length + c.length) = d ++ rest := by
    rw [← List.drop_drop, h2, List.append_assoc, List.drop_left]
  refine ⟨?_, ?_, ?_, ?_, ?_⟩
  · rw [h, List.append_assoc, List.take_left]
  · rw [h1, List.append_assoc, List.take_left]
  · rw [h2, List.append_assoc, List.take_left]
  · rw [h3, List.take_left]
  · have hl := congrArg List.length h
    simp only [List.length_drop, List.length_append] at hl
    omega

/-- Where `Open` read each entry from: for the object of a successful `Open`
on the buffer `mem`, entry `i` lies at `entryOffset i`. -/
theorem OpenedFrom_entry (mem : List Nat) (z : C_ZipFile) (q : Nat) (h : OpenedFrom mem z q)
    (i : Nat) (hi : i < z.m_iNumFiles) :
    z.entryOffset i + z.entrySize i ≤ mem.length
      ∧ z.raw i = (mem.drop (z.entryOffset i)).take 46
      ∧ z.readable i = decodeEntry mem (z.entryOffset i)
      ∧ z.m_szFilenames.getD i [] = (mem.drop (z.entryOffset i + 46)).take
          (z.readable i).name_len
      ∧ z.m_szExtra.getD i [] = (mem.drop (z.entryOffset i + 46 + (z.readable i).name_len)).take
          (z.readable i).extra_len
      ∧ z.m_szComments.getD i [] = (mem.drop (z.entryOffset i + 46 + (z.readable i).name_len
          + (z.readable i).extra_len)).take (z.readable i).comment_len := by
  obtain ⟨_, _, _, _, _, _, _, _, _, _, _, pos1, hE⟩ := h
  obtain ⟨_, _, _, _, _, hent, _, _, hflat⟩ := hE
  obtain ⟨B, hB⟩ := flatten_split (fun i => z.raw i ++ (z.m_szFilenames.getD i []
    ++ (z.m_szExtra.getD i [] ++ z.m_szComments.getD i []))) z.m_iNumFiles i hi
  rw [hflat] at hB
  have hlenA : (((List.range i).map (fun i => z.raw i ++ (z.m_szFilenames.getD i []
      ++ (z.m_szExtra.getD i [] ++ z.m_szComments.getD i [])))).flatten).length
      = ((List.range i).map z.entrySize).sum := by
    rw [List.length_flatten, List.map_map]
    congr 1
    apply List.map_congr_left
    intro j hj
    have hj2 : j < z.m_iNumFiles := by
      have := List.mem_range.1 hj
      omega
    obtain ⟨c1, _, c3, c4, c5⟩ := hent j hj2
    simp only [Function.comp, List.length_append, c1, c3, c4, c5, C_ZipFile.entrySize]
    omega
  have hdrop : mem.drop (z.entryOffset i) = z.raw i ++ (z.m_szFilenames.getD i []
      ++ (z.m_szExtra.getD i [] ++ z.m_szComments.getD i []))
      ++ (B ++ (mem.drop z.m_stCDEndReadable.cd_start).drop
        (pos1 - z.m_stCDEndReadable.cd_start)) := by
    unfold C_ZipFile.entryOffset
    rw [← List.drop_drop, ← hlenA]
    conv_lhs => rw [← List.take_append_drop (pos1 - z.m_stCDEndReadable.cd_start)
      (mem.drop z.m_stCDEndReadable.cd_start)]
    rw [hB, List.append_assoc, List.append_assoc, List.drop_left]
  obtain ⟨c1, c2, c3, c4, c5⟩ := hent i hi
  obtain ⟨p1, p2, p3, p4, p5⟩ := parts_of_drop mem _ _ _ _ _ _ (by rw [c1]; norm_num) hdrop
  rw [c1, c3, c4, c5] at p5
  rw [c1] at p1 p2 p3 p4
  rw [c3] at p2 p3 p4
  rw [c4] at p3 p4
  rw [c5] at p4
  refine ⟨?_, p1, ?_, p2, p3, p4⟩
  · unfold C_ZipFile.entrySize
    omega
  · rw [c2]
    conv_lhs => rw [p1]
    exact decodeEntry_take_drop mem _

/-- C12: on a successful `Open` the object holds exactly total-entry-count
entries, in the order of the central directory: the header of entry `i` is read
at offset `cd_start` plus the sum over `j < i` of `46 + name_len + extra_len +
comment_len` (inside the buffer), and the name, extra and comment of the entry
are the `name_len`, `extra_len` and `comment_len` bytes that follow the header,
in that order, with the lengths taken from that same header. -/
theorem open_reads_entries (file : List Nat) (z : C_ZipFile)
    (hopen : C_ZipFile.Open file = some (OpenStatus.ok, z)) :
    z.m_iNumFiles = z.m_stCDEndReadable.cd_tot_num
      ∧ z.m_pCDEntries.length = z.m_iNumFiles
      ∧ z.m_pCDEntriesReadable.length = z.m_iNumFiles
      ∧ z.m_szFilenames.length = z.m_iNumFiles ∧ z.m_szExtra.length = z.m_iNumFiles
      ∧ z.m_szComments.length = z.m_iNumFiles
      ∧ ∀ i, i < z.m_iNumFiles →
        z.entryOffset i + z.entrySize i ≤ (fileBuffer file).length
          ∧ z.raw i = ((fileBuffer file).drop (z.entryOffset i)).take 46
          ∧ z.readable i = decodeEntry (fileBuffer file) (z.entryOffset i)
          ∧ z.m_szFilenames.getD i [] = ((fileBuffer file).drop (z.entryOffset i + 46)).take
              (z.readable i).name_len
          ∧ z.m_szExtra.getD i [] = ((fileBuffer file).drop
              (z.entryOffset i + 46 + (z.readable i).name_len)).take (z.readable i).extra_len
          ∧ z.m_szComments.getD i [] = ((fileBuffer file).drop
              (z.entryOffset i + 46 + (z.readable i).name_len
                + (z.readable i).extra_len)).take (z.readable i).comment_len := by
  obtain ⟨q, hq⟩ := Open_openedFrom file z hopen
  have hq2 : OpenedFrom (fileBuffer file) z q := hq
  have hc := OpenedFrom_coherent _ z q hq2
  obtain ⟨_, e1, e2, e3, e4, e5, _⟩ := hc.1
  have hn : z.m_iNumFiles = z.m_stCDEndReadable.cd_tot_num := by
    obtain ⟨_, _, _, _, _, _, _, h8, _, _, h11, _⟩ := hq2
    rw [h8, h11]
  exact ⟨hn, e1, e2, e3, e4, e5, fun i hi => OpenedFrom_entry _ z q hq2 i hi⟩

set_option maxRecDepth 1000000 in
/-- C12 at the sample archive. -/
theorem open_reads_entries_witness :
    C_ZipFile.Open demoZip = some (OpenStatus.ok, demoModel)
      ∧ demoModel.m_iNumFiles = demoModel.m_stCDEndReadable.cd_tot_num
      ∧ demoModel.m_pCDEntries.length = demoModel.m_iNumFiles
      ∧ demoModel.m_pCDEntriesReadable.length = demoModel.m_iNumFiles
      ∧ demoModel.m_szFilenames.length = demoModel.m_iNumFiles
      ∧ demoModel.m_szExtra.length = demoModel.m_iNumFiles
      ∧ demoModel.m_szComments.length = demoModel.m_iNumFiles
      ∧ ∀ i, i < demoModel.m_iNumFiles →
        demoModel.entryOffset i + demoModel.entrySize i ≤ (fileBuffer demoZip).length
          ∧ demoModel.raw i = ((fileBuffer demoZip).drop (demoModel.entryOffset i)).take 46
          ∧ demoModel.readable i = decodeEntry (fileBuffer demoZip) (demoModel.entryOffset i)
          ∧ demoModel.m_szFilenames.getD i []
              = ((fileBuffer demoZip).drop (demoModel.entryOffset i + 46)).take
                (demoModel.readable i).name_len
          ∧ demoModel.m_szExtra.getD i [] = ((fileBuffer demoZip).drop
              (demoModel.entryOffset i + 46 + (demoModel.readable i).name_len)).take
                (demoModel.readable i).extra_len
          ∧ demoModel.m_szComments.getD i [] = ((fileBuffer demoZip).drop
              (demoModel.entryOffset i + 46 + (demoModel.readable i).name_len
                + (demoModel.readable i).extra_len)).take
                (demoModel.readable i).comment_len :=
  ⟨demo_opens, open_reads_entries demoZip demoModel demo_opens⟩

/-! ## C13: `IsNormal` on the executable encoding -/

set_option maxRecDepth 1000000 in
/-- C13 fails on the code: in `canonZip` the entry `dir/run.sh` is unix-tagged
with attribute high word `0x81ED` (it classifies as Executable), and `IsNormal`
returns true for it; the same holds right after `SetExecutable` on the sample
archive. The test `ext_attrib & 0x20` is applied whenever the unix test did
not succeed, also to unix-tagged entries. -/
theorem isNormal_accepts_executable_encoding :
    C_ZipFile.Open canonZip = some (OpenStatus.ok, canonModel)
      ∧ canonModel.FindFileIndexInCD runSh = 2
      ∧ unixTagged (canonModel.readable 2)
      ∧ (canonModel.readable 2).ext_attrib &&& 0xffff0000 = 0x81ed0000
      ∧ canonModel.IsExecutable runSh = true
      ∧ canonModel.IsNormal runSh = true
      ∧ (demoModel.SetExecutable runSh).2.IsNormal runSh = true := by
  decide

/-! ## C14: `IsDirectory` on an empty name -/

/-- C15 (amended): the lookup returns index `i` if and only if the object is
open, entry `i` exists, its stored name equals the requested name as a C
string (the bytes before the first zero byte), and no entry with a smaller
index has that name; it returns -1 if and only if the object is not open or no
stored name equals the requested one in that sense. For byte sequences without
a zero byte, equality as C strings is equality byte for byte. -/
theorem lookup_exact_on_c_strings (z : C_ZipFile) (name : List Nat) :
    (∀ i : Nat, z.FindFileIndexInCD name = (i : Int) ↔
        (z.m_bOpenOK = true ∧ i < z.m_iNumFiles
          ∧ cstr (z.m_szFilenames.getD i []) = cstr name
          ∧ ∀ j, j < i → cstr (z.m_szFilenames.getD j []) ≠ cstr name))
      ∧ (z.FindFileIndexInCD name = -1 ↔
        (z.m_bOpenOK = false
          ∨ ∀ i, i < z.m_iNumFiles → cstr (z.m_szFilenames.getD i []) ≠ cstr name))
      ∧ ∀ s : List Nat, 0 ∉ s → cstr s = s := by
  refine ⟨?_, ?_, ?_⟩
  · intro i
    unfold C_ZipFile.FindFileIndexInCD
    by_cases ho : z.m_bOpenOK = true
    · rw [if_pos ho]
      rcases findLoop_spec z.m_szFilenames name z.m_iNumFiles 0 with
        ⟨h1, h2⟩ | ⟨k, h1, _, h3, h4, h5⟩
      · rw [h1]
        constructor
        · intro h
          omega
        · rintro ⟨_, hi, hc, _⟩
          exact absurd hc (h2 i (Nat.zero_le _) (by omega))
      · rw [h1]
        constructor
        · intro h
          have hki : k = i := by exact_mod_cast h
          subst hki
          exact ⟨ho, by omega, h4, fun j hj => h5 j (Nat.zero_le _) hj⟩
        · rintro ⟨_, hi, hc, hfirst⟩
          have hki : k = i := by
            rcases Nat.lt_trichotomy k i with hlt | heq | hgt
            · exact absurd h4 (hfirst k hlt)
            · exact heq
            · exact absurd hc (h5 i (Nat.zero_le _) hgt)
          rw [hki]
    · rw [if_neg ho]
      constructor
      · intro h
        omega
      · rintro ⟨h, _⟩
        exact absurd h ho
  · unfold C_ZipFile.FindFileIndexInCD
    by_cases ho : z.m_bOpenOK = true
    · rw [if_pos ho]
      rcases findLoop_spec z.m_szFilenames name z.m_iNumFiles 0 with
        ⟨h1, h2⟩ | ⟨k, h1, _, h3, h4, _⟩
      · rw [h1]
        exact ⟨fun _ => Or.inr (fun i hi => h2 i (Nat.zero_le _) (by omega)), fun _ => rfl⟩
      · rw [h1]
        constructor
        · intro h
          omega
        · rintro (h | h)
          · rw [ho] at h
            exact absurd h (by simp)
          · exact absurd h4 (h k (by omega))
    · rw [if_neg ho]
      simp only [Bool.not_eq_true] at ho
      exact ⟨fun _ => Or.inl ho, fun _ => rfl⟩
  · intro s hs
    unfold cstr
    rw [List.takeWhile_eq_self_iff]
    intro x hx
    have : x ≠ 0 := fun h => hs (h ▸ hx)
    simpa using this

set_option maxRecDepth 1000000 in
/-- C15 as stated fails: in `nulNameZip` the stored name of entry 0 is the
three bytes `a`, 0, `b`, and the lookup of the one-byte name `a` returns 0:
names are compared with `strcmp`, which stops at the first zero byte. -/
theorem lookup_stops_at_zero_byte :
    C_ZipFile.Open nulNameZip = some (OpenStatus.ok, nulNameModel)
      ∧ nulNameModel.m_szFilenames = [[97, 0, 98]]
      ∧ ([97, 0, 98] : List Nat) ≠ [97]
      ∧ nulNameModel.FindFileIndexInCD [97] = 0 := by
  decide

/-! ## C17: classification of entries without the unix tag -/

/-- C17 (amended): for an entry that is not unix-tagged and is found under a
non-empty name, `IsExecutable` is false, `IsNormal` is the test of bit `0x20`,
`IsDirectory` is the directory test (name ending in `/`, bit `0x10`, or high
word `0x41ED`), and exactly one of the three predicates is true if and only if
exactly one of the directory test and bit `0x20` holds. -/
theorem windows_style_classification (z : C_ZipFile) (name : List Nat) (k : Nat)
    (hf : z.FindFileIndexInCD name = (k : Int)) (hne : cstr name ≠ [])
    (hw : ¬ unixTagged (z.readable k)) :
    z.IsDirectory name = some (dirLike name (z.readable k))
      ∧ z.IsExecutable name = false
      ∧ z.IsNormal name = ((z.readable k).ext_attrib &&& 0x00000020 == 0x00000020)
      ∧ (exactlyOneOf (dirLike name (z.readable k)) (z.IsExecutable name) (z.IsNormal name)
          = true ↔
        (dirLike name (z.readable k) = true ↔
          ¬ ((z.readable k).ext_attrib &&& 0x00000020 = 0x00000020))) := by
  have hD : z.IsDirectory name = some (dirLike name (z.readable k)) :=
    IsDirectory_found z name k hf hne
  have hX : z.IsExecutable name = false := by
    rw [IsExecutable_found z name k hf]
    exact execLike_of_not_tagged _ hw
  have hN : z.IsNormal name = ((z.readable k).ext_attrib &&& 0x00000020 == 0x00000020) := by
    rw [IsNormal_found z name k hf]
    unfold unixTagged at hw
    by_cases h1 : (z.readable k).ver &&& 0xff00 = 0x0300
    · by_cases h2 : (z.readable k).ver_needed &&& 0xff00 = 0x0300
      · exact absurd ⟨h1, h2⟩ hw
      · simp [h2]
    · simp [h1]
  refine ⟨hD, hX, hN, ?_⟩
  rw [hX, hN]
  unfold exactlyOneOf
  by_cases hb : (z.readable k).ext_attrib &&& 0x00000020 = 0x00000020
  · cases dirLike name (z.readable k) <;> simp [hb]
  · cases dirLike name (z.readable k) <;> simp [hb]

set_option maxRecDepth 1000000 in
/-- C17 (amended) at the sample archive and `dir/readme.txt`. -/
theorem windows_style_classification_witness :
    demoModel.FindFileIndexInCD readmeTxt = ((1 : Nat) : Int) ∧ cstr readmeTxt ≠ []
      ∧ ¬ unixTagged (demoModel.readable 1)
      ∧ demoModel.IsDirectory readmeTxt = some (dirLike readmeTxt (demoModel.readable 1))
      ∧ demoModel.IsExecutable readmeTxt = false
      ∧ demoModel.IsNormal readmeTxt
          = ((demoModel.readable 1).ext_attrib &&& 0x00000020 == 0x00000020)
      ∧ (exactlyOneOf (dirLike readmeTxt (demoModel.readable 1))
          (demoModel.IsExecutable readmeTxt) (demoModel.IsNormal readmeTxt) = true ↔
        (dirLike readmeTxt (demoModel.readable 1) = true ↔
          ¬ ((demoModel.readable 1).ext_attrib &&& 0x00000020 = 0x00000020))) :=
  ⟨by decide, by decide, by decide,
    windows_style_classification demoModel readmeTxt 1 (by decide) (by decide) (by decide)⟩

set_option maxRecDepth 1000000 in
/-- C17 as stated fails: `plainZip` opens, and for its entry `a` (version 20,
external attributes 0) none of the three predicates is true. -/
theorem classification_none_for_plain_entry :
    C_ZipFile.Open plainZip = some (OpenStatus.ok, plainModel)
      ∧ plainModel.FindFileIndexInCD [97] = 0
      ∧ (plainModel.readable 0).ext_attrib = 0
      ∧ plainModel.IsDirectory [97] = some false
      ∧ plainModel.IsExecutable [97] = false
      ∧ plainModel.IsNormal [97] = false := by
  decide

/-! ## C18: the end record `Open` selects -/

theorem fileBuffer_length (file : List Nat) :
    (fileBuffer file).length = file.length % 4294967296 := by
  unfold fileBuffer
  rw [List.length_take]
  exact Nat.min_eq_left (Nat.mod_le _ _)

/-- The scan loop returns the greatest position not above its start that
passes the test, and none only if no position from 1 to the start passes. -/
theorem scanLoop_greatest (mem : List Nat) (iSize : Nat) : ∀ (p : Nat) (z : C_ZipFile),
    (∃ q z1, scanLoop mem iSize p z = (some q, z1) ∧ 1 ≤ q ∧ q ≤ p ∧ scanHit mem iSize q
      ∧ ∀ t, q < t → t ≤ p → ¬ scanHit mem iSize t)
    ∨ (∃ z1, scanLoop mem iSize p z = (none, z1)
      ∧ ∀ t, 1 ≤ t → t ≤ p → ¬ scanHit mem iSize t) := by
  intro p
  induction p with
  | zero =>
    intro z
    right
    refine ⟨z, rfl, ?_⟩
    intro t h1 h2
    omega
  | succ p ih =>
    intro z
    unfold scanLoop
    by_cases hm : (byteAt mem (p + 1) == 0x50 && byteAt mem (p + 1 + 1) == 0x4b
        && byteAt mem (p + 1 + 2) == 0x05 && byteAt mem (p + 1 + 3) == 0x06) = true
    · rw [if_pos hm]
      dsimp only
      have hm2 := hm
      simp only [Bool.and_eq_true, beq_iff_eq] at hm2
      by_cases hl : (p + 1 + 22 + (decodeEnd mem (p + 1)).comment_len == iSize) = true
      · rw [if_pos hl]
        left
        refine ⟨p + 1, _, rfl, by omega, le_refl _, ?_, ?_⟩
        · exact ⟨hm2.1.1.1, hm2.1.1.2, hm2.1.2, hm2.2, by simpa using hl⟩
        · intro t h1 h2
          omega
      · rw [if_neg hl]
        have hnot : ¬ scanHit mem iSize (p + 1) := by
          intro hh
          apply hl
          simpa using hh.2.2.2.2
        rcases ih { z with
            m_stCDEnd := (mem.drop (p + 1)).take 22
            m_stCDEndReadable := decodeEnd mem (p + 1) } with
          ⟨q, z1, h1, h2, h3, h4, h5⟩ | ⟨z1, h1, h2⟩
        · left
          refine ⟨q, z1, h1, h2, by omega, h4, ?_⟩
          intro t ht1 ht2
          by_cases htp : t = p + 1
          · rw [htp]; exact hnot
          · exact h5 t ht1 (by omega)
        · right
          refine ⟨z1, h1, ?_⟩
          intro t ht1 ht2
          by_cases htp : t = p + 1
          · rw [htp]; exact hnot
          · exact h2 t ht1 (by omega)
    · rw [if_neg hm]
      have hnot : ¬ scanHit mem iSize (p + 1) := by
        intro hh
        apply hm
        simp only [Bool.and_eq_true, beq_iff_eq]
        exact ⟨⟨⟨hh.1, hh.2.1⟩, hh.2.2.1⟩, hh.2.2.2.1⟩
      rcases ih z with ⟨q, z1, h1, h2, h3, h4, h5⟩ | ⟨z1, h1, h2⟩
      · left
        refine ⟨q, z1, h1, h2, by omega, h4, ?_⟩
        intro t ht1 ht2
        by_cases htp : t = p + 1
        · rw [htp]; exact hnot
        · exact h5 t ht1 (by omega)
      · right
        refine ⟨z1, h1, ?_⟩
        intro t ht1 ht2
        by_cases htp : t = p + 1
        · rw [htp]; exact hnot
        · exact h2 t ht1 (by omega)

/-- The scan starts at `iSize - 22` when that is a positive `int`, and does not
run otherwise. -/
theorem scanStart_cases (file : List Nat) :
    (scanStart file = 0 ∧ (file.length % 4294967296 < 22
      ∨ 2147483648 + 22 ≤ file.length % 4294967296 ∨ file.length % 4294967296 = 22))
    ∨ (0 < scanStart file ∧ scanStart file + 22 = file.length % 4294967296
      ∧ file.length % 4294967296 < 2147483648 + 22) := by
  have hlt : file.length % 4294967296 < 4294967296 := Nat.mod_lt _ (by norm_num)
  unfold scanStart toInt32 sub32
  generalize file.length % 4294967296 = n at hlt
  split_ifs <;> omega

theorem scanHit_iff_valid (mem : List Nat) (p : Nat) :
    scanHit mem mem.length p ↔ validEndRecordAt mem p := by
  unfold scanHit validEndRecordAt
  constructor
  · rintro ⟨h1, h2, h3, h4, h5⟩
    exact ⟨by omega, h1, h2, h3, h4, h5⟩
  · rintro ⟨_, h1, h2, h3, h4, h5⟩
    exact ⟨h1, h2, h3, h4, h5⟩

/-- What the scan of `Open` returns, in terms of `endRecordPos`. -/
theorem endRecordPos_cases (file : List Nat) :
    (∃ q z1, scanLoop (fileBuffer file) (file.length % 4294967296) (scanStart file)
          { C_ZipFile.init with m_pZipMem := fileBuffer file } = (some q, z1)
        ∧ endRecordPos file = some q ∧ 1 ≤ q ∧ q ≤ scanStart file
        ∧ validEndRecordAt (fileBuffer file) q
        ∧ ∀ t, q < t → t ≤ scanStart file → ¬ validEndRecordAt (fileBuffer file) t)
    ∨ (endRecordPos file = none
        ∧ ∀ t, 1 ≤ t → t ≤ scanStart file → ¬ validEndRecordAt (fileBuffer file) t) := by
  have hL := fileBuffer_length file
  rcases scanLoop_greatest (fileBuffer file) (file.length % 4294967296) (scanStart file)
      { C_ZipFile.init with m_pZipMem := fileBuffer file } with
    ⟨q, z1, h1, h2, h3, h4, h5⟩ | ⟨z1, h1, h2⟩
  · left
    rw [← hL] at h4 h5
    refine ⟨q, z1, h1, ?_, h2, h3, (scanHit_iff_valid _ _).1 h4, ?_⟩
    · unfold endRecordPos
      rw [h1]
    · intro t ht1 ht2 hv
      exact h5 t ht1 ht2 ((scanHit_iff_valid _ _).2 hv)
  · right
    rw [← hL] at h2
    refine ⟨?_, ?_⟩
    · unfold endRecordPos
      rw [h1]
    · intro t ht1 ht2 hv
      exact h2 t ht1 ht2 ((scanHit_iff_valid _ _).2 hv)

/-- A successful `Open` returns the object read with the end record at the
offset the scan located. -/
theorem Open_located (file : List Nat) (z : C_ZipFile)
    (h : C_ZipFile.Open file = some (OpenStatus.ok, z)) :
    ∃ q, endRecordPos file = some q ∧ OpenedFrom (fileBuffer file) z q := by
  obtain ⟨q0, hq0⟩ := Open_openedFrom file z h
  have hq0b : OpenedFrom (fileBuffer file) z q0 := hq0
  rw [Open_eq] at h
  obtain ⟨q, z1, z2, hscan, _, hread, hz⟩ := openAfterScan_ok _ _ _ h
  obtain ⟨_, _, hlen, hz1⟩ := scanLoop_found _ _ _ _ _ _ hscan
  have hE0 : EntriesAt (fileBuffer file)
      { z1 with m_iNumFiles := z1.m_stCDEndReadable.cd_num } 0
      z1.m_stCDEndReadable.cd_start z1.m_stCDEndReadable.cd_start := by
    apply EntriesAt_init <;> (rw [hz1]; rfl)
  obtain ⟨_, _, _, _, y4, _, _⟩ := readEntries_spec _ _ _ _ _ _ _ hE0 hread
  have hrec : z.m_stCDEndReadable = decodeEnd (fileBuffer file) q := by
    rw [hz]
    show z2.m_stCDEndReadable = _
    rw [y4]
    show z1.m_stCDEndReadable = _
    rw [hz1]
  have hq : q0 = q := by
    have h4 := hq0b.2.2.2.1
    rw [hrec, fileBuffer_length] at h4
    omega
  refine ⟨q, ?_, hq ▸ hq0b⟩
  unfold endRecordPos
  rw [hscan]

/-- C18: the end record that `Open` locates (at offset `q` of the buffer) is a
valid one (marker `50 4B 05 06`, `q + 22 + comment_len` equal to the buffer
length) at the greatest offset that holds a valid one, so every marker
occurrence above it fails the length check and was skipped; `Open` then does
not fail with "no central directory found" and the object of a successful
`Open` holds the record at `q`. And the scan does not stop at a position that
fails the check: whenever a valid record sits at some offset `p >= 1` of a
buffer below 2 GiB, an end record at `p` or above is located. -/
theorem open_selects_last_valid_end_record (file : List Nat) :
    (∀ q, endRecordPos file = some q →
        1 ≤ q ∧ validEndRecordAt (fileBuffer file) q
          ∧ (∀ p, validEndRecordAt (fileBuffer file) p → p ≤ q)
          ∧ (C_ZipFile.Open file).map Prod.fst ≠ some OpenStatus.noCentralDirectory
          ∧ ∀ z, C_ZipFile.Open file = some (OpenStatus.ok, z) →
              z.m_stCDEnd = ((fileBuffer file).drop q).take 22
                ∧ z.m_stCDEndReadable = decodeEnd (fileBuffer file) q)
      ∧ ∀ p, 1 ≤ p → validEndRecordAt (fileBuffer file) p →
          (fileBuffer file).length < 2147483648 + 22 →
          ∃ q, endRecordPos file = some q ∧ p ≤ q := by
  have hL := fileBuffer_length file
  refine ⟨?_, ?_⟩
  · intro q hq
    rcases endRecordPos_cases file with ⟨q2, z1, hs, h1, h2, h3, h4, h5⟩ | ⟨h1, _⟩
    · rw [hq] at h1
      have hqq : q = q2 := Option.some.inj h1
      subst hqq
      refine ⟨h2, h4, ?_, ?_, ?_⟩
      · intro p hp
        by_contra hlt
        have hp22 : p + 22 ≤ (fileBuffer file).length := hp.1
        rcases scanStart_cases file with ⟨h0, _⟩ | ⟨_, hst, _⟩
        · omega
        · exact h5 p (by omega) (by omega) hp
      · rw [Open_eq, hs]
        unfold openAfterScan
        dsimp only
        split
        · simp
        · split <;> simp
      · intro z hz
        obtain ⟨q3, hq3, hO⟩ := Open_located file z hz
        rw [hq] at hq3
        have : q = q3 := Option.some.inj hq3
        subst this
        exact ⟨hO.2.2.2.2.1, hO.2.2.2.2.2.1⟩
    · rw [hq] at h1
      exact absurd h1 (by simp)
  · intro p hp1 hv hsz
    have hp22 : p + 22 ≤ (fileBuffer file).length := hv.1
    rcases endRecordPos_cases file with ⟨q2, z1, _, h1, h2, h3, h4, h5⟩ | ⟨_, h2⟩
    · refine ⟨q2, h1, ?_⟩
      by_contra hlt
      rcases scanStart_cases file with ⟨h0, _⟩ | ⟨_, hst, _⟩
      · omega
      · exact h5 p (by omega) (by omega) hv
    · exfalso
      rcases scanStart_cases file with ⟨_, hc⟩ | ⟨_, hst, _⟩
      · omega
      · exact h2 p hp1 (by omega) hv

set_option maxRecDepth 1000000 in
/-- C18 at `commentMarkerZip`: the marker at offset 100, inside the archive
comment, fails the length check, and the end record at offset 78 is located. -/
theorem open_selects_last_valid_end_record_witness :
    endRecordPos commentMarkerZip = some 78
      ∧ (byteAt commentMarkerZip 100 = 0x50 ∧ byteAt commentMarkerZip 101 = 0x4b
        ∧ byteAt commentMarkerZip 102 = 0x05 ∧ byteAt commentMarkerZip 103 = 0x06)
      ∧ ¬ validEndRecordAt (fileBuffer commentMarkerZip) 100
      ∧ 1 ≤ 78 ∧ validEndRecordAt (fileBuffer commentMarkerZip) 78
      ∧ (∀ p, validEndRecordAt (fileBuffer commentMarkerZip) p → p ≤ 78)
      ∧ (C_ZipFile.Open commentMarkerZip).map Prod.fst ≠ some OpenStatus.noCentralDirectory
      ∧ ∀ z, C_ZipFile.Open commentMarkerZip = some (OpenStatus.ok, z) →
          z.m_stCDEnd = ((fileBuffer commentMarkerZip).drop 78).take 22
            ∧ z.m_stCDEndReadable = decodeEnd (fileBuffer commentMarkerZip) 78 :=
  ⟨by decide, by decide, by decide,
    (open_selects_last_valid_end_record commentMarkerZip).1 78 (by decide)⟩

/-! ## C16: the little-endian codec of the entry header -/

theorem encodeEntry_length (e : S_CentralDirectoryEntry) : (encodeEntry e).length = 46 := by
  simp [encodeEntry, leBytes16, leBytes32]

theorem byteAt_ge (m : List Nat) (j : Nat) (h : m.length ≤ j) : byteAt m j = 0 := by
  unfold byteAt
  exact List.getD_eq_default _ _ h

theorem encodeEntry_eq (e : S_CentralDirectoryEntry) :
    encodeEntry e =
      [e.sign % 256, e.sign / 256 % 256, e.sign / 65536 % 256, e.sign / 16777216 % 256,
        e.ver % 256, e.ver / 256 % 256, e.ver_needed % 256, e.ver_needed / 256 % 256,
        e.gp_flag % 256, e.gp_flag / 256 % 256, e.c_method % 256, e.c_method / 256 % 256,
        e.lm_time % 256, e.lm_time / 256 % 256, e.lm_date % 256, e.lm_date / 256 % 256,
        e.crc32 % 256, e.crc32 / 256 % 256, e.crc32 / 65536 % 256, e.crc32 / 16777216 % 256,
        e.c_size % 256, e.c_size / 256 % 256, e.c_size / 65536 % 256,
        e.c_size / 16777216 % 256, e.u_size % 256, e.u_size / 256 % 256,
        e.u_size / 65536 % 256, e.u_size / 16777216 % 256, e.name_len % 256,
        e.name_len / 256 % 256, e.extra_len % 256, e.extra_len / 256 % 256,
        e.comment_len % 256, e.comment_len / 256 % 256, e.dn_start % 256,
        e.dn_start / 256 % 256, e.int_attr % 256, e.int_attr / 256 % 256, e.ext_attrib % 256,
        e.ext_attrib / 256 % 256, e.ext_attrib / 65536 % 256, e.ext_attrib / 16777216 % 256,
        e.offset % 256, e.offset / 256 % 256, e.offset / 65536 % 256, e.offset / 16777216 % 256] := by
  simp [encodeEntry, leBytes16, leBytes32]

theorem bytes46 (h : List Nat) (hlen : h.length = 46) :
    h =
      [byteAt h 0, byteAt h 1, byteAt h 2, byteAt h 3, byteAt h 4, byteAt h 5, byteAt h 6,
        byteAt h 7, byteAt h 8, byteAt h 9, byteAt h 10, byteAt h 11, byteAt h 12,
        byteAt h 13, byteAt h 14, byteAt h 15, byteAt h 16, byteAt h 17, byteAt h 18,
        byteAt h 19, byteAt h 20, byteAt h 21, byteAt h 22, byteAt h 23, byteAt h 24,
        byteAt h 25, byteAt h 26, byteAt h 27, byteAt h 28, byteAt h 29, byteAt h 30,
        byteAt h 31, byteAt h 32, byteAt h 33, byteAt h 34, byteAt h 35, byteAt h 36,
        byteAt h 37, byteAt h 38, byteAt h 39, byteAt h 40, byteAt h 41, byteAt h 42,
        byteAt h 43, byteAt h 44, byteAt h 45] := by
  apply list_eq_of_byteAt _ _ (by rw [hlen]; rfl)
  intro j
  by_cases hj : j < 46
  · interval_cases j <;> rfl
  · rw [byteAt_ge _ _ (by omega), byteAt_ge _ _ (by simp only [List.length_cons, List.length_nil]; omega)]

theorem leBytes16_le16 (h : List Nat) (hb : isBytes h) (o : Nat) :
    leBytes16 (le16 h o) = [byteAt h o, byteAt h (o + 1)] := by
  have b0 := byteAt_lt h hb o
  have b1 := byteAt_lt h hb (o + 1)
  unfold leBytes16 le16
  simp only [List.cons.injEq, and_true]
  constructor <;> omega

theorem leBytes32_le32 (h : List Nat) (hb : isBytes h) (o : Nat) :
    leBytes32 (le32 h o) =
      [byteAt h o, byteAt h (o + 1), byteAt h (o + 2), byteAt h (o + 3)] := by
  have b0 := byteAt_lt h hb o
  have b1 := byteAt_lt h hb (o + 1)
  have b2 := byteAt_lt h hb (o + 2)
  have b3 := byteAt_lt h hb (o + 3)
  unfold leBytes32 le32
  simp only [List.cons.injEq, and_true]
  refine ⟨?_, ?_, ?_, ?_⟩ <;> omega

/-- Encoding the fields decoded from a 46-byte header gives the header back. -/
theorem encode_decode (h : List Nat) (hlen : h.length = 46) (hb : isBytes h) :
    encodeEntry (decodeEntry h 0) = h := by
  conv_rhs => rw [bytes46 h hlen]
  simp only [encodeEntry, decodeEntry, leBytes16_le16 h hb, leBytes32_le32 h hb,
    List.cons_append, List.nil_append, List.append_assoc]

theorem encRaw_encodeEntry (v : Nat) (e : S_CentralDirectoryEntry) :
    encRaw v e (encodeEntry e) = encodeEntry (encEntry v e) := by
  rw [encodeEntry_eq, encodeEntry_eq]
  simp [encRaw, putLE16, putLE32, encEntry]

theorem encodeEntry_versions (e : S_CentralDirectoryEntry) :
    ((encodeEntry e).drop 4).take 4 = leBytes16 e.ver ++ leBytes16 e.ver_needed := by
  rw [encodeEntry_eq]
  rfl

theorem encodeEntry_attrs (e : S_CentralDirectoryEntry) :
    ((encodeEntry e).drop 38).take 4 = leBytes32 e.ext_attrib := by
  rw [encodeEntry_eq]
  rfl

theorem withEnc_encoded (z : C_ZipFile) (k v : Nat) (hC : Coherent z) (hk : k < z.m_iNumFiles)
    (hb : isBytes (z.raw k)) :
    (z.withEnc k v).raw k = encodeEntry ((z.withEnc k v).readable k) := by
  have hO := hC.1
  have hl := raw_length z k hO hk
  obtain ⟨_, e1, e2, _⟩ := hO
  rw [raw_withEnc z k v k (by omega), readable_withEnc z k v k (by omega), if_pos rfl,
    if_pos rfl, ← encRaw_encodeEntry, (hC.2.2.2 k hk).1, encode_decode _ hl hb]

/-- C16 (on the little-endian host the source is written for, where
`SwapFromLittleEndian` and `SwapToLittleEndian` have nothing to do): the
fields `Open` decodes from a 46-byte entry header `h` are the little-endian
numbers at the documented offsets; the memory image of a struct holding the
decoded fields is `h` again; and after `SetExecutable`, `SetNormal` or
`SetDirectory` has found an entry whose image was `h`, the image that `Save`
writes for it is the encoding of its new fields, with bytes 4..7 the
little-endian bytes of the new version fields and bytes 38..41 those of the
new external attributes. -/
theorem wire_codec_round_trip (h : List Nat) (hlen : h.length = 46) (hb : isBytes h) :
    decodeEntry h 0 =
        { sign := byteAt h 0 + 2 ^ 8 * byteAt h 1 + 2 ^ 16 * byteAt h 2 + 2 ^ 24 * byteAt h 3
          ver := byteAt h 4 + 256 * byteAt h 5
          ver_needed := byteAt h 6 + 256 * byteAt h 7
          gp_flag := byteAt h 8 + 256 * byteAt h 9
          c_method := byteAt h 10 + 256 * byteAt h 11
          lm_time := byteAt h 12 + 256 * byteAt h 13
          lm_date := byteAt h 14 + 256 * byteAt h 15
          crc32 := byteAt h 16 + 2 ^ 8 * byteAt h 17 + 2 ^ 16 * byteAt h 18
            + 2 ^ 24 * byteAt h 19
          c_size := byteAt h 20 + 2 ^ 8 * byteAt h 21 + 2 ^ 16 * byteAt h 22
            + 2 ^ 24 * byteAt h 23
          u_size := byteAt h 24 + 2 ^ 8 * byteAt h 25 + 2 ^ 16 * byteAt h 26
            + 2 ^ 24 * byteAt h 27
          name_len := byteAt h 28 + 256 * byteAt h 29
          extra_len := byteAt h 30 + 256 * byteAt h 31
          comment_len := byteAt h 32 + 256 * byteAt h 33
          dn_start := byteAt h 34 + 256 * byteAt h 35
          int_attr := byteAt h 36 + 256 * byteAt h 37
          ext_attrib := byteAt h 38 + 2 ^ 8 * byteAt h 39 + 2 ^ 16 * byteAt h 40
            + 2 ^ 24 * byteAt h 41
          offset := byteAt h 42 + 2 ^ 8 * byteAt h 43 + 2 ^ 16 * byteAt h 44
            + 2 ^ 24 * byteAt h 45 }
      ∧ encodeEntry (decodeEntry h 0) = h
      ∧ ∀ (z : C_ZipFile) (name : List Nat) (k : Nat), Coherent z → k < z.m_iNumFiles →
          z.FindFileIndexInCD name = (k : Int) → z.raw k = h →
          ∀ z1, z1 = (z.SetExecutable name).2 ∨ z1 = (z.SetNormal name).2
              ∨ z1 = (z.SetDirectory name).2 →
            z1.raw k = encodeEntry (z1.readable k)
              ∧ ((z1.raw k).drop 4).take 4
                  = leBytes16 (z1.readable k).ver ++ leBytes16 (z1.readable k).ver_needed
              ∧ ((z1.raw k).drop 38).take 4 = leBytes32 (z1.readable k).ext_attrib := by
  refine ⟨rfl, encode_decode h hlen hb, ?_⟩
  intro z name k hC hk hf hraw z1 hz1
  have hkr : k < z.m_pCDEntriesReadable.length := by
    obtain ⟨_, _, e2, _⟩ := hC.1
    omega
  have hbk : isBytes (z.raw k) := by rw [hraw]; exact hb
  have key : ∀ v, z1 = z.withEnc k v →
      z1.raw k = encodeEntry (z1.readable k)
        ∧ ((z1.raw k).drop 4).take 4
            = leBytes16 (z1.readable k).ver ++ leBytes16 (z1.readable k).ver_needed
        ∧ ((z1.raw k).drop 38).take 4 = leBytes32 (z1.readable k).ext_attrib := by
    intro v hv
    have e := withEnc_encoded z k v hC hk hbk
    rw [← hv] at e
    refine ⟨e, ?_, ?_⟩
    · rw [e, encodeEntry_versions]
    · rw [e, encodeEntry_attrs]
  rcases hz1 with hz | hz | hz
  · rw [SetExecutable_found z name k hkr hf] at hz
    exact key _ hz
  · rw [SetNormal_found z name k hkr hf] at hz
    exact key _ hz
  · rw [SetDirectory_found z name k hkr hf] at hz
    exact key _ hz

set_option maxRecDepth 1000000 in
/-- C16 at the header of `dir/run.sh` in the sample archive, and
`SetExecutable` on that entry. -/
theorem wire_codec_round_trip_witness :
    (demoModel.raw 2).length = 46 ∧ isBytes (demoModel.raw 2)
      ∧ (decodeEntry (demoModel.raw 2) 0).ver
          = byteAt (demoModel.raw 2) 4 + 256 * byteAt (demoModel.raw 2) 5
      ∧ encodeEntry (decodeEntry (demoModel.raw 2) 0) = demoModel.raw 2
      ∧ (demoModel.SetExecutable runSh).2.raw 2
          = encodeEntry ((demoModel.SetExecutable runSh).2.readable 2)
      ∧ (((demoModel.SetExecutable runSh).2.raw 2).drop 4).take 4
          = leBytes16 ((demoModel.SetExecutable runSh).2.readable 2).ver
            ++ leBytes16 ((demoModel.SetExecutable runSh).2.readable 2).ver_needed
      ∧ (((demoModel.SetExecutable runSh).2.raw 2).drop 38).take 4
          = leBytes32 ((demoModel.SetExecutable runSh).2.readable 2).ext_attrib :=
  ⟨by decide, by decide,
    congrArg S_CentralDirectoryEntry.ver
      (wire_codec_round_trip (demoModel.raw 2) (by decide) (by decide)).1,
    (wire_codec_round_trip (demoModel.raw 2) (by decide) (by decide)).2.1,
    (wire_codec_round_trip (demoModel.raw 2) (by decide) (by decide)).2.2 demoModel runSh 2
      demo_coherent (by decide) (by decide) rfl _ (Or.inl rfl)⟩

/-! ## C20: saving twice -/

theorem normEntryOf_congr (a b : List Nat) (e : S_CentralDirectoryEntry)
    (h : cstr a = cstr b) : normEntryOf a e = normEntryOf b e := by
  unfold normEntryOf
  rw [dirLike_congr a b e h]

theorem normRawOf_congr (a b : List Nat) (e : S_CentralDirectoryEntry) (raw : List Nat)
    (h : cstr a = cstr b) : normRawOf a e raw = normRawOf b e raw := by
  unfold normRawOf
  rw [dirLike_congr a b e h]

/-- The normalisation of `Save` is idempotent on the interpreted header. -/
theorem normEntryOf_idem (n : List Nat) (e : S_CentralDirectoryEntry) :
    normEntryOf n (normEntryOf n e) = normEntryOf n e := by
  by_cases hd : dirLike n e = true
  · have hi : normEntryOf n e = encEntry 0x41ed0010 e := by
      unfold normEntryOf
      rw [if_pos hd]
    rw [hi]
    unfold normEntryOf
    rw [if_pos (dirLike_encEntry_dir n e), encEntry_idem]
  · by_cases hx : execLike e = true
    · have hi : normEntryOf n e = e := by
        unfold normEntryOf
        rw [if_neg hd, if_pos hx]
      rw [hi]
      exact hi
    · have hi : normEntryOf n e = encEntry 0x81a40020 e := by
        unfold normEntryOf
        rw [if_neg hd, if_neg hx]
      rw [hi]
      have hs := endsInSlash_of_not_dirLike n e (by simpa using hd)
      have h1 : ¬ dirLike n (encEntry 0x81a40020 e) = true := by
        rw [dirLike_encEntry_normal, hs]
        decide
      have h2 : ¬ execLike (encEntry 0x81a40020 e) = true := by
        rw [execLike_encEntry_normal]
        decide
      unfold normEntryOf
      rw [if_neg h1, if_neg h2, encEntry_idem]

/-- The normalisation of `Save` is idempotent on the header image. -/
theorem normRawOf_idem (n : List Nat) (e : S_CentralDirectoryEntry) (raw : List Nat)
    (hl : raw.length = 46) :
    normRawOf n (normEntryOf n e) (normRawOf n e raw) = normRawOf n e raw := by
  by_cases hd : dirLike n e = true
  · have hi : normEntryOf n e = encEntry 0x41ed0010 e := by
      unfold normEntryOf
      rw [if_pos hd]
    have hr : normRawOf n e raw = encRaw 0x41ed0010 e raw := by
      unfold normRawOf
      rw [if_pos hd]
    rw [hi, hr]
    unfold normRawOf
    rw [if_pos (dirLike_encEntry_dir n e), encRaw_idem _ _ _ hl]
  · by_cases hx : execLike e = true
    · have hi : normEntryOf n e = e := by
        unfold normEntryOf
        rw [if_neg hd, if_pos hx]
      have hr : normRawOf n e raw = raw := by
        unfold normRawOf
        rw [if_neg hd, if_pos hx]
      rw [hi, hr]
      exact hr
    · have hi : normEntryOf n e = encEntry 0x81a40020 e := by
        unfold normEntryOf
        rw [if_neg hd, if_neg hx]
      have hr : normRawOf n e raw = encRaw 0x81a40020 e raw := by
        unfold normRawOf
        rw [if_neg hd, if_neg hx]
      rw [hi, hr]
      have hs := endsInSlash_of_not_dirLike n e (by simpa using hd)
      have h1 : ¬ dirLike n (encEntry 0x81a40020 e) = true := by
        rw [dirLike_encEntry_normal, hs]
        decide
      have h2 : ¬ execLike (encEntry 0x81a40020 e) = true := by
        rw [execLike_encEntry_normal]
        decide
      unfold normRawOf
      rw [if_neg h1, if_neg h2, encRaw_idem _ _ _ hl]

theorem withEnc_fixed (z : C_ZipFile) (k v : Nat)
    (h1 : encEntry v (z.readable k) = z.readable k)
    (h2 : encRaw v (z.readable k) (z.raw k) = z.raw k) : z.withEnc k v = z := by
  unfold C_ZipFile.withEnc
  rw [modify_noop z.m_pCDEntriesReadable _ k, modify_noop z.m_pCDEntries _ k]
  · intro x hx
    have : x = z.raw k := by
      unfold C_ZipFile.raw
      rw [List.getD_eq_getElem?_getD, hx]
      rfl
    rw [this]
    exact h2
  · intro x hx
    have : x = z.readable k := by
      unfold C_ZipFile.readable
      rw [List.getD_eq_getElem?_getD, hx]
      rfl
    rw [this]
    exact h1

/-- The normalisation step changes nothing on an entry that is already in
normalised form. -/
theorem normAt_fixed (z : C_ZipFile) (name : List Nat) (k : Nat)
    (h1 : normEntryOf name (z.readable k) = z.readable k)
    (h2 : normRawOf name (z.readable k) (z.raw k) = z.raw k) : z.normAt name k = z := by
  unfold C_ZipFile.normAt
  unfold normEntryOf at h1
  unfold normRawOf at h2
  by_cases hd : dirLike name (z.readable k) = true
  · rw [if_pos hd] at h1 h2
    rw [if_pos hd]
    exact withEnc_fixed z k _ h1 h2
  · rw [if_neg hd] at h1 h2
    rw [if_neg hd]
    by_cases hx : execLike (z.readable k) = true
    · rw [if_pos hx]
    · rw [if_neg hx] at h1 h2
      rw [if_neg hx]
      exact withEnc_fixed z k _ h1 h2

/-- The lookup of the name of entry `i` returns the first entry with that
name, which is at or before `i`. -/
theorem find_first (z : C_ZipFile) (h : Opened z) (i : Nat) (hi : i < z.m_iNumFiles) :
    ∃ k : Nat, z.FindFileIndexInCD (z.m_szFilenames.getD i []) = (k : Int) ∧ k ≤ i
      ∧ cstr (z.m_szFilenames.getD k []) = cstr (z.m_szFilenames.getD i [])
      ∧ z.isFirst k = true := by
  have hlen : z.m_szFilenames.length = z.m_iNumFiles := h.2.2.2.1
  have hpres : ∀ j, j < z.m_iNumFiles → z.present (z.m_szFilenames.getD j []) := by
    intro j hj
    refine ⟨z.m_szFilenames.getD j [], ?_, rfl⟩
    rw [List.getD_eq_getElem _ _ (by omega)]
    exact List.getElem_mem _
  obtain ⟨k, hf, hk, hc, hmin⟩ := find_present z _ h (hpres i hi)
  have hki : k ≤ i := by
    by_contra hlt
    exact hmin i (by omega) rfl
  obtain ⟨k2, hf2, hk2, hc2, hmin2⟩ := find_present z _ h (hpres k hk)
  have hkk : k2 = k := by
    by_contra hne
    rcases Nat.lt_or_gt_of_ne hne with hlt | hgt
    · exact hmin k2 hlt (hc2.trans hc)
    · exact hmin2 k hgt rfl
  refine ⟨k, hf, hki, hc, ?_⟩
  unfold C_ZipFile.isFirst
  rw [hf2, hkk]
  simp

/-- One step of the loop of `Save`, for arbitrary (non-empty) names. -/
theorem savedBelow_step (z zc : C_ZipFile) (i : Nat) (h : Coherent z) (hne : z.namesNonEmpty)
    (hi : i < z.m_iNumFiles) (hinv : savedBelow z i zc) :
    ∃ z1, zc.normalize (zc.m_szFilenames.getD i []) = some z1 ∧ savedBelow z (i + 1) z1
      ∧ z1.raw i = z.savedRaw (i + 1) i
      ∧ z1.emitTail i = z.m_szFilenames.getD i []
          ++ (z.m_szExtra.getD i [] ++ z.m_szComments.getD i []) := by
  obtain ⟨hc, hl, hent⟩ := hinv
  obtain ⟨k, hk, hf, hnorm, c1, c2⟩ := normalize_step z zc i hne hi hc hl
  have hn : zc.m_iNumFiles = z.m_iNumFiles := hl.2.2.2.1
  have hnames : zc.m_szFilenames = z.m_szFilenames := hl.1
  have hfz : z.FindFileIndexInCD (z.m_szFilenames.getD i []) = (k : Int) := by
    rw [← find_of_sameLayout z zc _ hl (hc.1.1.trans h.1.1.symm), ← hnames]
    exact hf
  obtain ⟨k2, hf2, hki, hck, hfirst⟩ := find_first z h.1 i hi
  have hkk : k2 = k := by
    rw [hfz] at hf2
    exact_mod_cast hf2.symm
  subst hkk
  have hk1 : k2 < zc.m_pCDEntries.length := by have := hc.1.2.1; omega
  have hk2 : k2 < zc.m_pCDEntriesReadable.length := by have := hc.1.2.2.1; omega
  have hkN : k2 < z.m_iNumFiles := by omega
  have htail : ∀ zn : C_ZipFile, Coherent zn → sameLayout z zn →
      zn.emitTail i = z.m_szFilenames.getD i []
        ++ (z.m_szExtra.getD i [] ++ z.m_szComments.getD i []) := by
    intro zn hcn hln
    rw [emitTail_coherent zn i hcn (by rw [hln.2.2.2.1]; exact hi), hln.1, hln.2.1, hln.2.2.1]
  have hother : ∀ j, j ≠ i → z.savedRaw (i + 1) j = z.savedRaw i j
      ∧ z.savedEntry (i + 1) j = z.savedEntry i j := by
    intro j hj
    unfold C_ZipFile.savedRaw C_ZipFile.savedEntry
    have e : (j < i + 1 ∧ z.isFirst j = true) ↔ (j < i ∧ z.isFirst j = true) := by
      constructor
      · rintro ⟨a, b⟩
        exact ⟨by omega, b⟩
      · rintro ⟨a, b⟩
        exact ⟨by omega, b⟩
    simp only [e]
    exact ⟨trivial, trivial⟩
  have hself : z.savedRaw i i = z.raw i ∧ z.savedEntry i i = z.readable i := by
    unfold C_ZipFile.savedRaw C_ZipFile.savedEntry
    rw [if_neg (by omega), if_neg (by omega)]
    exact ⟨rfl, rfl⟩
  by_cases hcase : k2 = i
  · subst hcase
    refine ⟨_, hnorm, ⟨c1, c2, ?_⟩, ?_, htail _ c1 c2⟩
    · intro j hj
      rw [raw_normAt zc _ k2 j hk1, readable_normAt zc _ k2 j hk2]
      by_cases hjk : j = k2
      · subst hjk
        rw [if_pos rfl, if_pos rfl, (hent j hj).1, (hent j hj).2, hself.1, hself.2, hnames]
        unfold C_ZipFile.savedRaw C_ZipFile.savedEntry
        rw [if_pos ⟨by omega, hfirst⟩, if_pos ⟨by omega, hfirst⟩]
        exact ⟨rfl, rfl⟩
      · rw [if_neg hjk, if_neg hjk, (hother j hjk).1, (hother j hjk).2]
        exact hent j hj
    · rw [raw_normAt zc _ k2 k2 hk1, if_pos rfl, (hent k2 hi).1, (hent k2 hi).2, hself.1,
        hself.2, hnames]
      unfold C_ZipFile.savedRaw
      rw [if_pos ⟨by omega, hfirst⟩]
      rfl
  · have hlt : k2 < i := by omega
    have hrk : zc.raw k2 = z.emittedHeader k2 := by
      rw [(hent k2 hkN).1]
      unfold C_ZipFile.savedRaw
      rw [if_pos ⟨hlt, hfirst⟩]
    have hek : zc.readable k2
        = normEntryOf (z.m_szFilenames.getD k2 []) (z.readable k2) := by
      rw [(hent k2 hkN).2]
      unfold C_ZipFile.savedEntry
      rw [if_pos ⟨hlt, hfirst⟩]
    have hfix : zc.normAt (zc.m_szFilenames.getD i []) k2 = zc := by
      apply normAt_fixed
      · rw [hek, hnames, normEntryOf_congr _ _ _ hck.symm, normEntryOf_idem]
      · rw [hek, hrk, hnames, normRawOf_congr _ _ _ _ hck.symm]
        unfold C_ZipFile.emittedHeader
        rw [normRawOf_idem _ _ _ (raw_length z k2 h.1 hkN)]
    rw [hfix] at hnorm
    have hnf : z.isFirst i = false := by
      unfold C_ZipFile.isFirst
      rw [hfz]
      simp only [decide_eq_false_iff_not]
      intro he
      exact hcase (by exact_mod_cast he)
    have hnext : z.savedRaw (i + 1) i = z.raw i ∧ z.savedEntry (i + 1) i = z.readable i := by
      unfold C_ZipFile.savedRaw C_ZipFile.savedEntry
      rw [if_neg (by rw [hnf]; simp), if_neg (by rw [hnf]; simp)]
      exact ⟨rfl, rfl⟩
    refine ⟨zc, hnorm, ⟨hc, hl, ?_⟩, ?_, htail _ hc hl⟩
    · intro j hj
      by_cases hji : j = i
      · subst hji
        rw [hnext.1, hnext.2, (hent j hj).1, (hent j hj).2]
        exact hself
      · rw [(hother j hji).1, (hother j hji).2]
        exact hent j hj
    · rw [hnext.1, (hent i hi).1]
      exact hself.1

/-- The result of `Save` on a coherent object with non-empty names (repeated
names allowed) and the central directory inside the buffer, and of a second
`Save` right after it. -/
theorem Save_twice (z : C_ZipFile) (fwriteOk : Nat → Bool) (hw : ∀ n, fwriteOk n = true)
    (h : Coherent z) (hne : z.namesNonEmpty)
    (hcd : z.m_stCDEndReadable.cd_start ≤ z.m_pZipMem.length) :
    ∃ z1 : C_ZipFile,
      z.Save true fwriteOk = some ((true, z.m_pZipMem.take z.m_stCDEndReadable.cd_start
          ++ z.cdBody (z.savedRaw z.m_iNumFiles) ++ z.m_stCDEnd ++ z.m_szZipComment), z1)
        ∧ savedBelow z z.m_iNumFiles z1
        ∧ z1.Save true fwriteOk = some ((true, z.m_pZipMem.take z.m_stCDEndReadable.cd_start
          ++ z.cdBody (z.savedRaw z.m_iNumFiles) ++ z.m_stCDEnd ++ z.m_szZipComment), z1)
        ∧ ∀ i, i < z1.m_iNumFiles → z1.normalize (z1.m_szFilenames.getD i []) = some z1 := by
  have hP0 : savedBelow z 0 z := by
    refine ⟨h, sameLayout_refl z, ?_⟩
    intro j _
    unfold C_ZipFile.savedRaw C_ZipFile.savedEntry
    rw [if_neg (by omega), if_neg (by omega)]
    exact ⟨rfl, rfl⟩
  obtain ⟨z1, H, hs, hP, hQ⟩ := Save_spec z fwriteOk hw (savedBelow z)
    (fun i hdr => hdr = z.savedRaw (i + 1) i)
    (fun i => z.m_szFilenames.getD i [] ++ (z.m_szExtra.getD i [] ++ z.m_szComments.getD i []))
    (fun i zc hi hinv => savedBelow_step z zc i h hne hi hinv) h.1.1 hP0 hcd
  obtain ⟨hc1, hl1, hent1⟩ := hP
  have hfinal : ∀ t, t < z.m_iNumFiles → z.savedRaw (t + 1) t = z.savedRaw z.m_iNumFiles t := by
    intro t ht
    unfold C_ZipFile.savedRaw
    by_cases hf : z.isFirst t = true
    · rw [if_pos ⟨by omega, hf⟩, if_pos ⟨ht, hf⟩]
    · rw [if_neg (fun c => hf c.2), if_neg (fun c => hf c.2)]
  have hbody : ∀ G : Nat → List Nat, (∀ t, t < z.m_iNumFiles → G t = z.savedRaw z.m_iNumFiles t) →
      ((List.range z.m_iNumFiles).map (fun t => G t ++ (z.m_szFilenames.getD t []
        ++ (z.m_szExtra.getD t [] ++ z.m_szComments.getD t [])))).flatten
        = z.cdBody (z.savedRaw z.m_iNumFiles) := by
    intro G hG
    unfold C_ZipFile.cdBody
    congr 1
    apply List.map_congr_left
    intro t ht
    rw [hG t (List.mem_range.1 ht)]
  have hstable : ∀ i, i < z1.m_iNumFiles →
      z1.normalize (z1.m_szFilenames.getD i []) = some z1 := by
    intro i hi
    have hiz : i < z.m_iNumFiles := by rw [← hl1.2.2.2.1]; exact hi
    obtain ⟨k, hk, hf, hnorm, _, _⟩ := normalize_step z z1 i hne hiz hc1 hl1
    have hnames : z1.m_szFilenames = z.m_szFilenames := hl1.1
    have hfz : z.FindFileIndexInCD (z.m_szFilenames.getD i []) = (k : Int) := by
      rw [← find_of_sameLayout z z1 _ hl1 (hc1.1.1.trans h.1.1.symm), ← hnames]
      exact hf
    obtain ⟨k2, hf2, hki, hck, hfirst⟩ := find_first z h.1 i hiz
    have hkk : k2 = k := by
      rw [hfz] at hf2
      exact_mod_cast hf2.symm
    subst hkk
    have hkN : k2 < z.m_iNumFiles := by omega
    have hrk : z1.raw k2 = z.emittedHeader k2 := by
      rw [(hent1 k2 hkN).1]
      unfold C_ZipFile.savedRaw
      rw [if_pos ⟨hkN, hfirst⟩]
    have hek : z1.readable k2
        = normEntryOf (z.m_szFilenames.getD k2 []) (z.readable k2) := by
      rw [(hent1 k2 hkN).2]
      unfold C_ZipFile.savedEntry
      rw [if_pos ⟨hkN, hfirst⟩]
    have hfix : z1.normAt (z1.m_szFilenames.getD i []) k2 = z1 := by
      apply normAt_fixed
      · rw [hek, hnames, normEntryOf_congr _ _ _ hck.symm, normEntryOf_idem]
      · rw [hek, hrk, hnames, normRawOf_congr _ _ _ _ hck.symm]
        unfold C_ZipFile.emittedHeader
        rw [normRawOf_idem _ _ _ (raw_length z k2 h.1 hkN)]
    rw [hfix] at hnorm
    exact hnorm
  have hcd1 : z1.m_stCDEndReadable.cd_start ≤ z1.m_pZipMem.length := by
    rw [hl1.2.2.2.2.2.1, hl1.2.2.2.2.2.2.2.1]
    exact hcd
  obtain ⟨z2, H2, hs2, hP2, hQ2⟩ := Save_spec z1 fwriteOk hw (fun _ zc => zc = z1)
    (fun i hdr => hdr = z1.raw i)
    (fun i => z.m_szFilenames.getD i [] ++ (z.m_szExtra.getD i [] ++ z.m_szComments.getD i []))
    (by
      intro i zc hi hzc
      subst hzc
      refine ⟨zc, hstable i hi, rfl, rfl, ?_⟩
      rw [emitTail_coherent zc i hc1 hi, hl1.1, hl1.2.1, hl1.2.2.1])
    hc1.1.1 rfl hcd1
  subst hP2
  have hcom : z.m_szZipComment.take z.m_stCDEndReadable.comment_len = z.m_szZipComment :=
    take_of_length_eq _ _ h.2.2.1
  have e5 : z2.m_stCDEnd = z.m_stCDEnd := hl1.2.2.2.2.1
  have e6 : z2.m_stCDEndReadable = z.m_stCDEndReadable := hl1.2.2.2.2.2.1
  have e7 : z2.m_szZipComment = z.m_szZipComment := hl1.2.2.2.2.2.2.1
  have e8 : z2.m_pZipMem = z.m_pZipMem := hl1.2.2.2.2.2.2.2.1
  have e4 : z2.m_iNumFiles = z.m_iNumFiles := hl1.2.2.2.1
  rw [e5, e6, e7, hcom, hbody H (fun t ht => (hQ t ht).trans (hfinal t ht))] at hs
  rw [e4, e5, e6, e7, e8, hcom,
    hbody H2 (fun t ht => (hQ2 t (by rw [e4]; exact ht)).trans (hent1 t ht).1)] at hs2
  exact ⟨z2, hs, ⟨hc1, hl1, hent1⟩, hs2, hstable⟩

/-- C20 (amended): on a coherent opened object (as `Open` returns it, also
after mutator calls, repeated entry names allowed) whose stored names are not
empty and whose central-directory offset lies inside the buffer, when the
output file can be created and every write succeeds, `Save` returns true with
some output and leaves an object on which a second `Save` returns true with
the same output and leaves the same object; every normalisation step of the
second `Save` returns the object unchanged. -/
theorem save_idempotent (z : C_ZipFile) (fwriteOk : Nat → Bool) (hw : ∀ n, fwriteOk n = true)
    (h : Coherent z) (hne : z.namesNonEmpty)
    (hcd : z.m_stCDEndReadable.cd_start ≤ z.m_pZipMem.length) :
    ∃ (out : List Nat) (z1 : C_ZipFile),
      z.Save true fwriteOk = some ((true, out), z1)
        ∧ z1.Save true fwriteOk = some ((true, out), z1)
        ∧ ∀ i, i < z1.m_iNumFiles → z1.normalize (z1.m_szFilenames.getD i []) = some z1 := by
  obtain ⟨z1, h1, _, h2, h3⟩ := Save_twice z fwriteOk hw h hne hcd
  exact ⟨_, z1, h1, h2, h3⟩

set_option maxRecDepth 1000000 in
/-- C20 at the archive with two entries named `a`, after `SetExecutable` on
that name. -/
theorem save_idempotent_witness :
    (∀ n, allWritesOk n = true) ∧ Coherent (dupModel.SetExecutable [97]).2
      ∧ (dupModel.SetExecutable [97]).2.namesNonEmpty
      ∧ (dupModel.SetExecutable [97]).2.m_stCDEndReadable.cd_start
          ≤ (dupModel.SetExecutable [97]).2.m_pZipMem.length
      ∧ ¬ (dupModel.SetExecutable [97]).2.namesDistinct
      ∧ ∃ (out : List Nat) (z1 : C_ZipFile),
        (dupModel.SetExecutable [97]).2.Save true allWritesOk = some ((true, out), z1)
          ∧ z1.Save true allWritesOk = some ((true, out), z1)
          ∧ ∀ i, i < z1.m_iNumFiles →
              z1.normalize (z1.m_szFilenames.getD i []) = some z1 :=
  ⟨fun _ => rfl, by decide, by decide, by decide, by decide,
    save_idempotent (dupModel.SetExecutable [97]).2 allWritesOk (fun _ => rfl) (by decide)
      (by decide) (by decide)⟩

set_option maxRecDepth 1000000 in
/-- C20 as stated fails: `badOffsetZip` opens, and no `Save` of the opened
object returns an output, since its first write reads 100 bytes from the
23-byte buffer; there are no two outputs to compare. -/
theorem save_twice_undefined_outside_buffer :
    C_ZipFile.Open badOffsetZip = some (OpenStatus.ok, badOffsetModel)
      ∧ badOffsetModel.m_iNumFiles = 0
      ∧ ¬ ∃ (r : Bool × List Nat) (z1 : C_ZipFile),
          badOffsetModel.Save true allWritesOk = some (r, z1) := by
  refine ⟨by decide, by decide, ?_⟩
  rintro ⟨r, z1, h⟩
  have hn : badOffsetModel.Save true allWritesOk = none := by decide
  rw [hn] at h
  cases h

/-! ## C19: opening the output again -/

/-- The lookup of a name returns `k` only if entry `k` is the first entry with
that name. -/
theorem find_eq_first (z : C_ZipFile) (name : List Nat) (k : Nat) (h : Opened z)
    (hf : z.FindFileIndexInCD name = (k : Int)) :
    k < z.m_iNumFiles ∧ cstr (z.m_szFilenames.getD k []) = cstr name ∧ z.isFirst k = true := by
  have hp : z.present name := by
    by_contra hnp
    have := find_absent z name h hnp
    rw [hf] at this
    omega
  obtain ⟨k2, hf2, hk2, hc2, hmin2⟩ := find_present z name h hp
  have hkk : k2 = k := by
    rw [hf] at hf2
    exact_mod_cast hf2.symm
  subst hkk
  obtain ⟨k3, _, hle, hc3, hfirst⟩ := find_first z h k2 hk2
  have hk3 : k3 = k2 := by
    by_contra hne
    exact hmin2 k3 (by omega) (hc3.trans hc2)
  rw [hk3] at hfirst
  exact ⟨hk2, hc2, hfirst⟩

/-- What the code does for a name that ends in `/`, when no stored name is
empty: `SetExecutable` writes the executable encoding into the entry the
lookup finds, the entry then classifies as Executable, and `Save` (every
write succeeding) emits that entry in the directory encoding `0x41ED0010`. -/
theorem slash_name_saved_as_directory (z0 : C_ZipFile) (name : List Nat) (k : Nat)
    (fwriteOk : Nat → Bool) (hw : ∀ n, fwriteOk n = true) (hc : Coherent z0)
    (hne : z0.namesNonEmpty)
    (hcd : z0.m_stCDEndReadable.cd_start ≤ z0.m_pZipMem.length)
    (hf : z0.FindFileIndexInCD name = (k : Int)) (hslash : endsInSlash name = true) :
    z0.SetExecutable name = (true, z0.withEnc k 0x81ed0020)
      ∧ (z0.withEnc k 0x81ed0020).IsExecutable name = true
      ∧ ((z0.withEnc k 0x81ed0020).readable k).ext_attrib = 0x81ed0020
      ∧ ∃ (z1 : C_ZipFile) (H : Nat → List Nat),
        (z0.withEnc k 0x81ed0020).Save true fwriteOk
            = some ((true, z0.m_pZipMem.take z0.m_stCDEndReadable.cd_start
                ++ z0.cdBody H ++ z0.m_stCDEnd ++ z0.m_szZipComment), z1)
          ∧ (H k).length = 46 ∧ le32 (H k) 38 = 0x41ed0010
          ∧ z1.raw k = H k ∧ (z1.readable k).ext_attrib = 0x41ed0010 := by
  obtain ⟨hk, hck, _⟩ := find_eq_first z0 name k hc.1 hf
  have hk2 : k < z0.m_pCDEntriesReadable.length := by have := hc.1.2.2.1; omega
  have hcz : Coherent (z0.withEnc k 0x81ed0020) := Coherent_withEnc z0 k _ hc hk (by norm_num)
  have hfz : (z0.withEnc k 0x81ed0020).FindFileIndexInCD name = (k : Int) := hf
  obtain ⟨_, _, hfirst⟩ := find_eq_first (z0.withEnc k 0x81ed0020) name k hcz.1 hfz
  have hrd : (z0.withEnc k 0x81ed0020).readable k = encEntry 0x81ed0020 (z0.readable k) := by
    rw [readable_withEnc z0 k _ k hk2, if_pos rfl]
  have hdir : dirLike ((z0.withEnc k 0x81ed0020).m_szFilenames.getD k [])
      ((z0.withEnc k 0x81ed0020).readable k) = true := by
    unfold dirLike
    have hs2 : endsInSlash ((z0.withEnc k 0x81ed0020).m_szFilenames.getD k []) = true := by
      rw [← hslash]
      exact endsInSlash_congr _ _ hck
    rw [hs2]
    rfl
  obtain ⟨z1, hs, ⟨_, _, hent⟩, _, _⟩ := Save_twice (z0.withEnc k 0x81ed0020) fwriteOk hw hcz hne hcd
  have hkz : k < (z0.withEnc k 0x81ed0020).m_iNumFiles := hk
  have hH : (z0.withEnc k 0x81ed0020).savedRaw (z0.withEnc k 0x81ed0020).m_iNumFiles k
      = encRaw 0x41ed0010 ((z0.withEnc k 0x81ed0020).readable k)
          ((z0.withEnc k 0x81ed0020).raw k) := by
    unfold C_ZipFile.savedRaw
    rw [if_pos ⟨hkz, hfirst⟩]
    unfold C_ZipFile.emittedHeader normRawOf
    rw [if_pos hdir]
  have hE : (z0.withEnc k 0x81ed0020).savedEntry (z0.withEnc k 0x81ed0020).m_iNumFiles k
      = encEntry 0x41ed0010 ((z0.withEnc k 0x81ed0020).readable k) := by
    unfold C_ZipFile.savedEntry
    rw [if_pos ⟨hkz, hfirst⟩]
    unfold normEntryOf
    rw [if_pos hdir]
  have hl : ((z0.withEnc k 0x81ed0020).raw k).length = 46 := raw_length _ k hcz.1 hkz
  refine ⟨SetExecutable_found z0 name k hk2 hf, ?_, ?_, z1,
    (z0.withEnc k 0x81ed0020).savedRaw (z0.withEnc k 0x81ed0020).m_iNumFiles, hs, ?_, ?_, ?_, ?_⟩
  · rw [IsExecutable_found _ name k hfz, hrd]
    exact execLike_encEntry_exec _
  · rw [hrd]
    rfl
  · rw [hH, length_encRaw, hl]
  · rw [hH]
    exact le32_encRaw _ _ _ hl (by norm_num)
  · exact (hent k hkz).1
  · rw [(hent k hkz).2, hE]
    rfl

/-- The read `i_szFullFileName[strlen(i_szFullFileName)-1]` of `IsDirectory`
is inside the name exactly when the name is not empty. -/
theorem IsDirectory_defined_iff (z : C_ZipFile) (name : List Nat) (k : Nat)
    (hf : z.FindFileIndexInCD name = (k : Int)) :
    (z.IsDirectory name ≠ none ↔ cstr name ≠ [])
      ∧ ((0 ≤ (strlen name : Int) - 1 ∧ (strlen name : Int) - 1 < strlen name)
          ↔ cstr name ≠ []) := by
  constructor
  · constructor
    · intro h he
      apply h
      unfold C_ZipFile.IsDirectory
      simp only [hf, Int.toNat_ofNat, ge_iff_le, Int.natCast_nonneg, if_true,
        charAt_empty name he]
    · intro hne
      rw [IsDirectory_found z name k hf hne]
      simp
  · unfold strlen
    constructor
    · intro h he
      rw [he] at h
      simp at h
    · intro hne
      have := List.length_pos.2 hne
      omega

set_option maxRecDepth 1000000 in
/-- C22 fails on the code: `emptyNameZip` opens, the stored name of its entry
has length 0, the lookup finds the entry under that name, and the index
`strlen - 1` at which `IsDirectory` reads the last character is -1, before the
start of the name; the same read happens in the loop of `Save`, whose
normalisation step calls `IsDirectory(m_szFilenames[0])` and has no defined
result. -/
theorem isDirectory_reads_before_empty_name :
    C_ZipFile.Open emptyNameZip = some (OpenStatus.ok, emptyNameModel)
      ∧ emptyNameModel.m_szFilenames = [[]]
      ∧ (emptyNameModel.readable 0).name_len = 0
      ∧ emptyNameModel.FindFileIndexInCD [] = 0
      ∧ (strlen ([] : List Nat) : Int) - 1 < 0
      ∧ charAt [] ((strlen ([] : List Nat) : Int) - 1) = none
      ∧ emptyNameModel.normalize (emptyNameModel.m_szFilenames.getD 0 []) = none := by
  decide

end ZipExec
